import Mathlib

/-!
The clock problem: exact fractions, the periodic generator and their properties.

Shallow embedding of `src/main.cpp`.

Conventions of the embedding:

* An `int32_t` is an `Int`; every `int32_t` multiplication, addition and
  subtraction of the source is followed by `wrap32`, the two's complement
  reduction into `[-2^31, 2^31)` that the compiled program performs.
* The constructor of `Fraction` receives `double` arguments; every call in the
  program passes integers, for which the conversion to `double` and back to
  `int32_t` is the identity, so the constructor is embedded on integers.
  `assignInterval` receives `uint32_t` bounds, embedded as natural numbers.
* `std::gcd` is `Int.gcd` brought back into `int32_t` by `wrap32`.
* `/=` on `int32_t` is truncating division `Int.tdiv`; a zero divisor is the
  fault `Fault.divisionByZero`.
* Loops are driven by a fuel argument; exhausting it is `Fault.outOfFuel`.
* `std::set<Fraction>` is represented by its in-order element list; the
  comparator is `Fraction.lt` (`operator<`).
-/

/-- Reduction of an integer into the `int32_t` range `[-2^31, 2^31)`. -/
def wrap32 (x : Int) : Int := (x + 2147483648) % 4294967296 - 2147483648

/-- The integer is representable as an `int32_t`. -/
def fits32 (x : Int) : Prop := -2147483648 ≤ x ∧ x < 2147483648

instance (x : Int) : Decidable (fits32 x) := by unfold fits32; infer_instance

/-- Ways in which a run of the embedded code stops without a result. -/
inductive Fault where
  | divisionByZero
  | outOfFuel
  deriving DecidableEq, Repr

/-- Class `Fraction`: `int32_t numerator`, `int32_t denominator`, `bool reduced`. -/
structure Fraction where
  numerator : Int
  denominator : Int
  reduced : Bool
  deriving DecidableEq, Repr

/-- Constructor `Fraction::Fraction(double numerator, double denominator)`,
called with integer arguments: the fields receive the two values and the
`reduced` flag starts as `false`. The default arguments are `1` and `1`. -/
def Fraction.ctor (numerator denominator : Int) : Fraction :=
  { numerator := numerator, denominator := denominator, reduced := false }

/-- Method `Fraction::reduce`. -/
def Fraction.reduce (f : Fraction) : Except Fault Fraction :=
  if !f.reduced then
    let gcd : Int := wrap32 (Int.gcd f.numerator f.denominator)
    if gcd = 0 then .error Fault.divisionByZero
    else .ok { numerator := f.numerator.tdiv gcd, denominator := f.denominator.tdiv gcd,
               reduced := true }
  else .ok f

/-- Friend `operator>(left, right)`. -/
def Fraction.gt (left right : Fraction) : Bool :=
  let c : Int := wrap32 (wrap32 (left.numerator * right.denominator)
                          - wrap32 (left.denominator * right.numerator))
  decide (c > 0)

/-- Friend `operator<(left, right)`. -/
def Fraction.lt (left right : Fraction) : Bool :=
  let c : Int := wrap32 (wrap32 (left.numerator * right.denominator)
                          - wrap32 (left.denominator * right.numerator))
  decide (c < 0)

/-- Method `Fraction::operator+`. -/
def Fraction.add (self fraction : Fraction) : Fraction :=
  let den : Int := wrap32 (self.denominator * fraction.denominator)
  Fraction.ctor
    (wrap32 (wrap32 (self.numerator * fraction.denominator)
              + wrap32 (fraction.numerator * self.denominator)))
    den

/-- Method `Fraction::operator==`: reduces the argument, then the receiver,
and compares the fields. The result carries both mutated operands:
`(answer, receiver afterwards, argument afterwards)`. -/
def Fraction.eq (self fraction : Fraction) : Except Fault (Bool × Fraction × Fraction) :=
  match fraction.reduce with
  | .error e => .error e
  | .ok fraction =>
    match self.reduce with
    | .error e => .error e
    | .ok self =>
      .ok (decide (self.numerator = fraction.numerator)
            && decide (self.denominator = fraction.denominator), self, fraction)

/-- Insertion into `std::set<Fraction>`, on the in-order list of the set:
the element is placed before the first greater element unless an equivalent
element (neither less nor greater under `operator<`) is met first. The list
is the content of the library's search tree as long as `operator<` is a
strict weak order on the elements involved (in particular under
`Fraction.exactOn`), or when all of them are equivalent; where a comparison
wraps so that the order breaks, the tree, which decides from its root, can
end with a different content. -/
def setInsert (x : Fraction) : List Fraction → List Fraction
  | [] => [x]
  | y :: ys =>
    if x.lt y then x :: y :: ys
    else if y.lt x then y :: setInsert x ys
    else y :: ys

/-- Class `Generator`. -/
structure Generator where
  m_shift : Fraction
  m_period : Fraction
  m_interval : Fraction × Fraction
  deriving DecidableEq, Repr

/-- Constructor `Generator::Generator(shift, period)`; the interval holds two
default-constructed fractions `1/1`. -/
def Generator.ctor (shift period : Fraction) : Generator :=
  { m_shift := shift, m_period := period,
    m_interval := (Fraction.ctor 1 1, Fraction.ctor 1 1) }

/-- Method `Generator::assignInterval(uint32_t start, uint32_t end)`. -/
def Generator.assignInterval (g : Generator) (start end_ : Nat) : Generator :=
  { g with m_interval := (Fraction.ctor start 1, Fraction.ctor end_ 1) }

/-- Method `Generator::isInInterval`. -/
def Generator.isInInterval (g : Generator) (fraction : Fraction) : Bool :=
  fraction.gt g.m_interval.1 && fraction.lt g.m_interval.2

/-- First loop of `Generator::generate`:
`while (iter < m_interval.first) iter = iter + m_period;`. -/
def Generator.positionLoop (g : Generator) : Nat → Fraction → Except Fault Fraction
  | 0, _ => .error Fault.outOfFuel
  | fuel + 1, iter =>
    if iter.lt g.m_interval.1 then g.positionLoop fuel (iter.add g.m_period)
    else .ok iter

/-- Second loop of `Generator::generate`:
`do { set.insert(iter); vector.push_back(iter); iter = iter + m_period;
iter.reduce(); } while (iter < m_interval.second);`. -/
def Generator.emitLoop (g : Generator) :
    Nat → Fraction → List Fraction → List Fraction →
      Except Fault (List Fraction × List Fraction)
  | 0, _, _, _ => .error Fault.outOfFuel
  | fuel + 1, iter, set, vector =>
    let set := setInsert iter set
    let vector := vector ++ [iter]
    (iter.add g.m_period).reduce.bind fun iter =>
      if iter.lt g.m_interval.2 then g.emitLoop fuel iter set vector
      else .ok (set, vector)

/-- Method `Generator::generate(set, vector)`; the result is the pair of
the set and the vector after the call. -/
def Generator.generate (g : Generator) (fuel : Nat) (set vector : List Fraction) :
    Except Fault (List Fraction × List Fraction) :=
  (g.positionLoop fuel g.m_shift).bind fun iter =>
    iter.reduce.bind fun iter =>
      g.emitLoop fuel iter set vector


/-- Constant `basicPeriod` of `main`. -/
def basicPeriod : Int := 12

/-- Local `gen0` of `main` (minute over hour). -/
def main.gen0 : Generator :=
  Generator.ctor (Fraction.ctor ((-1) * basicPeriod) (6 * 11)) (Fraction.ctor basicPeriod (12 - 1))

/-- Local `gen1` of `main` (hour over minute). -/
def main.gen1 : Generator :=
  Generator.ctor (Fraction.ctor basicPeriod (6 * 11)) (Fraction.ctor basicPeriod (12 - 1))

/-- Local `gen2` of `main` (second over hour). -/
def main.gen2 : Generator :=
  Generator.ctor (Fraction.ctor (-basicPeriod) (6 * 719)) (Fraction.ctor basicPeriod (720 - 1))

/-- Local `gen3` of `main` (hour over second). -/
def main.gen3 : Generator :=
  Generator.ctor (Fraction.ctor basicPeriod (6 * 719)) (Fraction.ctor basicPeriod (720 - 1))

/-- Local `gen4` of `main` (second over minute). -/
def main.gen4 : Generator :=
  Generator.ctor (Fraction.ctor (-basicPeriod) (6 * 708)) (Fraction.ctor basicPeriod (720 - 12))

/-- Local `gen5` of `main` (minute over second). -/
def main.gen5 : Generator :=
  Generator.ctor (Fraction.ctor basicPeriod (6 * 708)) (Fraction.ctor basicPeriod (720 - 12))


/-- Class `Result`. -/
structure Result where
  m_generators : List Generator
  m_times : List Fraction
  m_intervalStart : Int
  m_intervalEnd : Int
  m_controlTimes : List Fraction
  deriving DecidableEq, Repr

/-- Constructor `Result::Result(start, end)`: the two bounds are stored, the
three containers start empty. -/
def Result.ctor (start end_ : Int) : Result :=
  { m_generators := [], m_times := [], m_intervalStart := start, m_intervalEnd := end_,
    m_controlTimes := [] }

/-- Method `Result::loadGenerator`. -/
def Result.loadGenerator (r : Result) (generator : Generator) : Result :=
  { r with m_generators := r.m_generators ++ [generator] }

/-- Loop of `Result::compute` over the generators:
`generator.assignInterval(0, 12); generator.generate(m_times, m_controlTimes);`.
The result holds the generators with their assigned interval, the set and the
vector. -/
def Result.computeLoop (fuel : Nat) :
    List Generator → List Fraction → List Fraction →
      Except Fault (List Generator × List Fraction × List Fraction)
  | [], set, vector => .ok ([], set, vector)
  | generator :: rest, set, vector =>
    ((generator.assignInterval 0 12).generate fuel set vector).bind fun sv =>
      (Result.computeLoop fuel rest sv.1 sv.2).bind fun out =>
        .ok (generator.assignInterval 0 12 :: out.1, out.2.1, out.2.2)

/-- Method `Result::compute`. -/
def Result.compute (r : Result) (fuel : Nat) : Except Fault Result :=
  (Result.computeLoop fuel r.m_generators r.m_times r.m_controlTimes).bind fun out =>
    .ok { r with m_generators := out.1, m_times := out.2.1, m_controlTimes := out.2.2 }

/-- Method `Result::getResult`: the size of the set as a `uint32_t`. -/
def Result.getResult (r : Result) : Nat := r.m_times.length % 4294967296

/-- Method `Fraction::getAsDouble`: `(double)numerator / (double)denominator`.
The type `D` stands for `double`; `conv` is the conversion of an `int32_t`
value to `double` and `div` the division of two `double` values. -/
def Fraction.getAsDouble {D : Type} (conv : Int → D) (div : D → D → D) (f : Fraction) : D :=
  div (conv f.numerator) (conv f.denominator)

/-- Insertion into `std::set<double>`, on the in-order list of the set; `lt`
is `operator<` on `double`. As for `setInsert`, the list stands for the
library's search tree as long as `lt` is a strict weak order on the values
involved. -/
def doubleSetInsert {D : Type} (lt : D → D → Bool) (x : D) : List D → List D
  | [] => [x]
  | y :: ys =>
    if lt x y then x :: y :: ys
    else if lt y x then y :: doubleSetInsert lt x ys
    else y :: ys

/-- Method `Result::testSet`, a `const` method: the loop inserts the `double`
of every element of `m_controlTimes` into a local `std::set<double>`, and the
answer is `testSet.size() == m_times.size()`. The result is the answer
together with the object after the call. -/
def Result.testSet {D : Type} (conv : Int → D) (div : D → D → D) (lt : D → D → Bool)
    (r : Result) : Bool × Result :=
  let testSet : List D :=
    r.m_controlTimes.foldl (fun s iter => doubleSetInsert lt (iter.getAsDouble conv div) s) []
  (decide (testSet.length = r.m_times.length), r)

/-- Lookup `counts.find(key)` in a `std::map<Fraction, unsigned int>`, on the
in-order entry list of the map: the count stored under the entry whose key is
equivalent to `key` under `operator<`, and `none` for `counts.end()`. As for
`setInsert`, the entry list stands for the library's search tree as long as
`operator<` is a strict weak order on the keys involved. -/
def mapFind (key : Fraction) : List (Fraction × Nat) → Option Nat
  | [] => none
  | e :: es =>
    if e.1.lt key then mapFind key es
    else if key.lt e.1 then none
    else some e.2

/-- Statement `it->second++` for the iterator `find` returned: the `unsigned
int` count of the entry equivalent to `key` is incremented. -/
def mapIncrement (key : Fraction) : List (Fraction × Nat) → List (Fraction × Nat)
  | [] => []
  | e :: es =>
    if e.1.lt key then e :: mapIncrement key es
    else if key.lt e.1 then e :: es
    else (e.1, (e.2 + 1) % 4294967296) :: es

/-- Statement `counts[key] = value`: the entry equivalent to `key` receives
the value; when there is none, a new entry is inserted at its place in the
order. -/
def mapAssign (key : Fraction) (value : Nat) : List (Fraction × Nat) → List (Fraction × Nat)
  | [] => [(key, value)]
  | e :: es =>
    if e.1.lt key then e :: mapAssign key value es
    else if key.lt e.1 then (key, value) :: e :: es
    else (e.1, value) :: es

/-- Loop of `Result::printDuplicates` over `m_controlTimes[i]`, `i` counting
up; the result is the sequence of fractions written to the output.
When `find` returns `counts.end()`, the test `it->second == 2` reads through
the end iterator; the value that read yields at step `i` is `endSecond i`. -/
def Result.printDuplicatesLoop (endSecond : Nat → Nat) :
    List Fraction → Nat → List (Fraction × Nat) → List Fraction → List Fraction
  | [], _, _, out => out
  | x :: rest, i, counts, out =>
    match mapFind x counts with
    | some second =>
      Result.printDuplicatesLoop endSecond rest (i + 1) (mapIncrement x counts)
        (if (second + 1) % 4294967296 = 2 then out ++ [x] else out)
    | none =>
      Result.printDuplicatesLoop endSecond rest (i + 1) (mapAssign x 1 counts)
        (if endSecond i = 2 then out ++ [x] else out)

/-- Method `Result::printDuplicates`. -/
def Result.printDuplicates (r : Result) (endSecond : Nat → Nat) : List Fraction :=
  Result.printDuplicatesLoop endSecond r.m_controlTimes 0 [] []

/-- The `Result` that `main` builds before it calls `compute`. -/
def main.result : Result :=
  ((((((Result.ctor 0 basicPeriod).loadGenerator main.gen0).loadGenerator
    main.gen1).loadGenerator main.gen2).loadGenerator main.gen3).loadGenerator
    main.gen4).loadGenerator main.gen5

deriving instance DecidableEq for Except

/-! ## Specification-side notions -/

/-- Rational number represented by a fraction. -/
def Fraction.toRat (f : Fraction) : ℚ := (f.numerator : ℚ) / (f.denominator : ℚ)

/-- Both fields hold `int32_t` values. -/
def Fraction.valid (f : Fraction) : Prop := fits32 f.numerator ∧ fits32 f.denominator

instance (f : Fraction) : Decidable f.valid := by unfold Fraction.valid; infer_instance

/-- The greatest common divisor of the two fields is an `int32_t` value
(the precondition under which `std::gcd` is defined). -/
def Fraction.gcdFits (f : Fraction) : Prop :=
  ((Int.gcd f.numerator f.denominator : Nat) : Int) < 2147483648

instance (f : Fraction) : Decidable f.gcdFits := by unfold Fraction.gcdFits; infer_instance

/-- No `int32_t` operation of `a + b` overflows: the two products, their sum
and the product of the denominators are `int32_t` values. -/
def Fraction.addFits (a b : Fraction) : Prop :=
  fits32 (a.numerator * b.denominator) ∧ fits32 (b.numerator * a.denominator) ∧
  fits32 (a.numerator * b.denominator + b.numerator * a.denominator) ∧
  fits32 (a.denominator * b.denominator)

instance (a b : Fraction) : Decidable (a.addFits b) := by
  unfold Fraction.addFits; infer_instance

/-- The two cross-products of a comparison of `a` with `b` are `int32_t` values. -/
def Fraction.crossFits (a b : Fraction) : Prop :=
  fits32 (a.numerator * b.denominator) ∧ fits32 (a.denominator * b.numerator)

instance (a b : Fraction) : Decidable (a.crossFits b) := by
  unfold Fraction.crossFits; infer_instance

/-- No `int32_t` operation of a comparison of `a` with `b` overflows: the two
cross-products and their difference are `int32_t` values. -/
def Fraction.cmpFits (a b : Fraction) : Prop :=
  a.crossFits b ∧
  fits32 (a.numerator * b.denominator - a.denominator * b.numerator)

instance (a b : Fraction) : Decidable (a.cmpFits b) := by
  unfold Fraction.cmpFits; infer_instance

/-- Fractions that the program can hold: built by the constructor from
`int32_t` values, by `operator+`, or left behind by `reduce` (and so by
`operator==`). Nothing else in the program writes the fields. -/
inductive Fraction.Reachable : Fraction → Prop where
  | ctor (n d : Int) : fits32 n → fits32 d → Fraction.Reachable (Fraction.ctor n d)
  | add (a b : Fraction) : Fraction.Reachable a → Fraction.Reachable b →
      Fraction.Reachable (a.add b)
  | reduce (a r : Fraction) : Fraction.Reachable a → a.reduce = .ok r →
      Fraction.Reachable r

/-- Overflow-freedom of the first loop of `generate`, run with the given fuel
from `iter`: every comparison and every addition it performs stays within
`int32_t`. -/
def Generator.positionFits (g : Generator) : Nat → Fraction → Bool
  | 0, _ => true
  | fuel + 1, iter =>
    decide (iter.cmpFits g.m_interval.1) &&
      (!iter.lt g.m_interval.1 ||
        (decide (iter.addFits g.m_period) && g.positionFits fuel (iter.add g.m_period)))

/-- Overflow-freedom of the second loop of `generate`, run with the given
fuel from `iter`. -/
def Generator.emitFits (g : Generator) : Nat → Fraction → Bool
  | 0, _ => true
  | fuel + 1, iter =>
    decide (iter.addFits g.m_period) &&
      (iter.add g.m_period).reduce.toOption.all fun next =>
        decide (next.cmpFits g.m_interval.2) &&
          (!next.lt g.m_interval.2 || g.emitFits fuel next)

/-- Overflow-freedom of a whole run of `generate` with the given fuel. -/
def Generator.generateFits (g : Generator) (fuel : Nat) : Bool :=
  g.positionFits fuel g.m_shift &&
    (g.positionLoop fuel g.m_shift).toOption.all fun iter =>
      iter.reduce.toOption.all fun iter => g.emitFits fuel iter

/-- Comparisons among the fractions of a list are exact: every denominator
is positive and no comparison of two of them overflows. -/
def Fraction.exactOn (l : List Fraction) : Prop :=
  (∀ x ∈ l, 0 < x.denominator) ∧ (∀ a ∈ l, ∀ b ∈ l, a.cmpFits b)

instance (l : List Fraction) : Decidable (Fraction.exactOn l) := by
  unfold Fraction.exactOn; infer_instance

/-- Duplicate report as the specification words it: scanning the sequence
in order, an element is reported at the moment the occurrence count of its
value reaches two. `seen` holds the values scanned so far. -/
def secondOccurrences : List ℚ → List Fraction → List Fraction
  | _, [] => []
  | seen, x :: rest =>
    (if seen.count x.toRat = 1 then [x] else [])
      ++ secondOccurrences (seen ++ [x.toRat]) rest

/-- Count that a `std::map<Fraction, unsigned int>` stores for a value: the
sum of the counts of the entries whose key represents `q`. -/
def mapLookup (q : ℚ) (m : List (Fraction × Nat)) : Nat :=
  ((m.filter (fun e => decide (e.1.toRat = q))).map (fun e => e.2)).sum

/-- Exactness of the comparisons between a key and the keys of a map. -/
def mapExact (x : Fraction) (m : List (Fraction × Nat)) : Prop :=
  Fraction.exactOn (x :: m.map (fun e => e.1))

/-- The terms `(A * i + B) / D`, `i = 0, ..., L - 1`, of an arithmetic
progression, in ascending order. -/
def progressionTerms (A B D L : Nat) : List ℚ :=
  (List.range L).map (fun i : Nat => ((A * i + B : Nat) : ℚ) / ((D : Nat) : ℚ))

/-- The values the six generators of `main` are expected to append within
`(0, 12)`, generator by generator: the coincidence times of the minute and
hour hands, of the second and hour hands, and of the second and minute hands,
each taken in its two directions. -/
def main.expectedTerms : List ℚ :=
  progressionTerms 12 10 11 11 ++ (progressionTerms 12 2 11 11 ++
    (progressionTerms 12 10 719 719 ++ (progressionTerms 12 2 719 719 ++
      (progressionTerms 6 5 354 708 ++ progressionTerms 6 1 354 708))))

/-! ## Machine integers -/

theorem wrap32_of_fits {x : Int} (h : fits32 x) : wrap32 x = x := by
  unfold fits32 at h
  unfold wrap32
  omega

theorem fits32_wrap32 (x : Int) : fits32 (wrap32 x) := by
  unfold fits32 wrap32
  omega

theorem fits32_of_mul_pos {g y : Int} (hg : 0 < g) (h : fits32 (g * y)) : fits32 y := by
  unfold fits32 at *
  rcases le_or_lt 0 y with hy | hy
  · constructor
    · omega
    · have : y ≤ g * y := by nlinarith
      omega
  · constructor
    · have : g * y ≤ y := by nlinarith
      omega
    · omega

/-! ## Fraction arithmetic without overflow -/

theorem Fraction.add_of_fits {a b : Fraction} (h : a.addFits b) :
    a.add b = { numerator := a.numerator * b.denominator + b.numerator * a.denominator,
                denominator := a.denominator * b.denominator, reduced := false } := by
  obtain ⟨h1, h2, h3, h4⟩ := h
  simp only [Fraction.add, Fraction.ctor, wrap32_of_fits h1, wrap32_of_fits h2,
    wrap32_of_fits h3, wrap32_of_fits h4]

theorem Fraction.toRat_add {a b : Fraction} (h : a.addFits b)
    (ha : a.denominator ≠ 0) (hb : b.denominator ≠ 0) :
    (a.add b).toRat = a.toRat + b.toRat := by
  rw [Fraction.add_of_fits h]
  simp only [Fraction.toRat]
  have ha' : (a.denominator : ℚ) ≠ 0 := by exact_mod_cast ha
  have hb' : (b.denominator : ℚ) ≠ 0 := by exact_mod_cast hb
  push_cast
  field_simp

theorem Fraction.lt_of_fits {a b : Fraction} (h : a.cmpFits b) :
    a.lt b = decide (a.numerator * b.denominator - a.denominator * b.numerator < 0) := by
  obtain ⟨⟨h1, h2⟩, h3⟩ := h
  simp only [Fraction.lt, wrap32_of_fits h1, wrap32_of_fits h2, wrap32_of_fits h3]

theorem Fraction.gt_of_fits {a b : Fraction} (h : a.cmpFits b) :
    a.gt b = decide (a.numerator * b.denominator - a.denominator * b.numerator > 0) := by
  obtain ⟨⟨h1, h2⟩, h3⟩ := h
  simp only [Fraction.gt, wrap32_of_fits h1, wrap32_of_fits h2, wrap32_of_fits h3]

theorem Fraction.toRat_lt_iff {a b : Fraction}
    (ha : 0 < a.denominator) (hb : 0 < b.denominator) :
    a.toRat < b.toRat ↔ a.numerator * b.denominator - a.denominator * b.numerator < 0 := by
  have ha' : (0 : ℚ) < a.denominator := by exact_mod_cast ha
  have hb' : (0 : ℚ) < b.denominator := by exact_mod_cast hb
  simp only [Fraction.toRat]
  rw [div_lt_div_iff₀ ha' hb']
  constructor
  · intro h
    have h' : a.numerator * b.denominator < b.numerator * a.denominator := by exact_mod_cast h
    linarith
  · intro h
    have h' : a.numerator * b.denominator < b.numerator * a.denominator := by linarith
    exact_mod_cast h'

theorem Fraction.lt_iff_toRat {a b : Fraction} (h : a.cmpFits b)
    (ha : 0 < a.denominator) (hb : 0 < b.denominator) :
    a.lt b = true ↔ a.toRat < b.toRat := by
  rw [Fraction.lt_of_fits h, Fraction.toRat_lt_iff ha hb, decide_eq_true_iff]

theorem Fraction.gt_iff_toRat {a b : Fraction} (h : a.cmpFits b)
    (ha : 0 < a.denominator) (hb : 0 < b.denominator) :
    a.gt b = true ↔ b.toRat < a.toRat := by
  rw [Fraction.gt_of_fits h, Fraction.toRat_lt_iff hb ha, decide_eq_true_iff]
  constructor <;> intro h <;> linarith

/-! ## Reduction -/

theorem Fraction.gcd_pos_of_ne {f : Fraction} (h : f.numerator ≠ 0 ∨ f.denominator ≠ 0) :
    0 < Int.gcd f.numerator f.denominator := by
  rcases h with h | h
  · exact Int.gcd_pos_of_ne_zero_left _ h
  · exact Int.gcd_pos_of_ne_zero_right _ h

theorem Fraction.gcdFits_of_den_pos {f : Fraction} (hv : f.valid) (hd : 0 < f.denominator) :
    f.gcdFits := by
  unfold Fraction.gcdFits
  have h1 : Int.gcd f.numerator f.denominator ∣ f.denominator.natAbs :=
    Nat.gcd_dvd_right _ _
  have h2 : Int.gcd f.numerator f.denominator ≤ f.denominator.natAbs :=
    Nat.le_of_dvd (Int.natAbs_pos.mpr (ne_of_gt hd)) h1
  have h3 := hv.2
  unfold fits32 at h3
  omega

theorem Fraction.reduce_of_not_reduced {f : Fraction} (hr : f.reduced = false)
    (hg : f.gcdFits) (hne : f.numerator ≠ 0 ∨ f.denominator ≠ 0) :
    f.reduce = .ok { numerator := f.numerator / (Int.gcd f.numerator f.denominator : Int),
                     denominator := f.denominator / (Int.gcd f.numerator f.denominator : Int),
                     reduced := true } := by
  have hpos := Fraction.gcd_pos_of_ne hne
  have hfit : fits32 ((Int.gcd f.numerator f.denominator : Nat) : Int) := by
    unfold Fraction.gcdFits at hg
    unfold fits32
    omega
  have hne0 : ((Int.gcd f.numerator f.denominator : Nat) : Int) ≠ 0 := by omega
  unfold Fraction.reduce
  simp only [hr, Bool.not_false, if_true, wrap32_of_fits hfit, hne0, if_false]
  rw [Int.tdiv_eq_ediv_of_dvd (Int.gcd_dvd_left), Int.tdiv_eq_ediv_of_dvd (Int.gcd_dvd_right)]

theorem Fraction.reduce_of_reduced {f : Fraction} (hr : f.reduced = true) :
    f.reduce = .ok f := by
  unfold Fraction.reduce
  simp [hr]

theorem rat_div_cancel_left (g n d : Int) (hg : g ≠ 0) (hd : d ≠ 0) :
    (((g * n : Int) : ℚ) / ((g * d : Int) : ℚ)) = (n : ℚ) / (d : ℚ) := by
  have hgq : (g : ℚ) ≠ 0 := by exact_mod_cast hg
  have hdq : (d : ℚ) ≠ 0 := by exact_mod_cast hd
  push_cast
  field_simp
  ring

theorem Fraction.toRat_div_gcd (n d : Int) (hd : d ≠ 0) :
    (((n / (Int.gcd n d : Int) : Int) : ℚ) / ((d / (Int.gcd n d : Int) : Int) : ℚ))
      = (n : ℚ) / (d : ℚ) := by
  have hg : ((Int.gcd n d : Nat) : Int) ≠ 0 := by
    have := Int.gcd_pos_of_ne_zero_right n hd
    omega
  obtain ⟨n', hn'⟩ := Int.gcd_dvd_left (a := n) (b := d)
  obtain ⟨d', hd'⟩ := Int.gcd_dvd_right (a := n) (b := d)
  have hd0 : d' ≠ 0 := by
    rintro rfl
    simp at hd'
    exact hd hd'
  rw [Int.ediv_eq_of_eq_mul_right hg hn', Int.ediv_eq_of_eq_mul_right hg hd']
  have key := rat_div_cancel_left _ n' d' hg hd0
  rw [← hn', ← hd'] at key
  exact key.symm

theorem Fraction.div_gcd_pos (n d : Int) (hd : 0 < d) : 0 < d / (Int.gcd n d : Int) := by
  have hg : 0 < Int.gcd n d := Int.gcd_pos_of_ne_zero_right n (ne_of_gt hd)
  obtain ⟨d', hd'⟩ := Int.gcd_dvd_right (a := n) (b := d)
  have hgz : (0 : Int) < (Int.gcd n d : Int) := by omega
  rw [Int.ediv_eq_of_eq_mul_right (ne_of_gt hgz) hd']
  by_contra hcon
  have h1 : d' ≤ 0 := by omega
  have h2 : (Int.gcd n d : Int) * d' ≤ 0 := by nlinarith
  omega

theorem fits32_div_gcd (n d : Int) (h : fits32 n) (hne : n ≠ 0 ∨ d ≠ 0) :
    fits32 (n / (Int.gcd n d : Int)) := by
  have hg : 0 < Int.gcd n d := by
    rcases hne with h | h
    · exact Int.gcd_pos_of_ne_zero_left _ h
    · exact Int.gcd_pos_of_ne_zero_right _ h
  have hgz : (0 : Int) < (Int.gcd n d : Int) := by omega
  obtain ⟨n', hn'⟩ := Int.gcd_dvd_left (a := n) (b := d)
  rw [Int.ediv_eq_of_eq_mul_right (ne_of_gt hgz) hn']
  apply fits32_of_mul_pos hgz
  rw [← hn']
  exact h

theorem fits32_div_gcd_right (n d : Int) (h : fits32 d) (hne : n ≠ 0 ∨ d ≠ 0) :
    fits32 (d / (Int.gcd n d : Int)) := by
  have := fits32_div_gcd d n h (Or.symm hne)
  rwa [Int.gcd_comm] at this

/-- Outcome of `reduce` on a fraction with a positive denominator. -/
theorem Fraction.reduce_pos {f : Fraction} (hv : f.valid) (hd : 0 < f.denominator) :
    ∃ r, f.reduce = .ok r ∧ r.toRat = f.toRat ∧ 0 < r.denominator ∧ r.valid := by
  cases hr : f.reduced
  · refine ⟨_, Fraction.reduce_of_not_reduced hr (Fraction.gcdFits_of_den_pos hv hd)
      (Or.inr (ne_of_gt hd)), ?_, ?_, ?_⟩
    · exact Fraction.toRat_div_gcd _ _ (ne_of_gt hd)
    · exact Fraction.div_gcd_pos _ _ hd
    · exact ⟨fits32_div_gcd _ _ hv.1 (Or.inr (ne_of_gt hd)),
        fits32_div_gcd_right _ _ hv.2 (Or.inr (ne_of_gt hd))⟩
  · exact ⟨f, Fraction.reduce_of_reduced hr, rfl, hd, hv⟩

/-! ## The two loops of `generate` on overflow-free runs -/

theorem Fraction.add_valid (a b : Fraction) : (a.add b).valid :=
  ⟨fits32_wrap32 _, fits32_wrap32 _⟩

theorem Fraction.add_den_pos {a b : Fraction} (h : a.addFits b)
    (ha : 0 < a.denominator) (hb : 0 < b.denominator) : 0 < (a.add b).denominator := by
  rw [Fraction.add_of_fits h]
  exact Int.mul_pos ha hb

/-- The positioning loop on an overflow-free run: with enough fuel it returns
the first term `iter + k * period` that is not below the lower bound. -/
theorem Generator.positionLoop_run (g : Generator)
    (hpd : 0 < g.m_period.denominator) (hfd : 0 < g.m_interval.1.denominator) :
    ∀ (n : Nat) (iter : Fraction), 0 < iter.denominator → iter.valid →
      g.positionFits (n + 1) iter = true →
      g.m_interval.1.toRat ≤ iter.toRat + n * g.m_period.toRat →
      ∃ (k : Nat) (it : Fraction), k ≤ n ∧ g.positionLoop (n + 1) iter = .ok it ∧
        it.toRat = iter.toRat + k * g.m_period.toRat ∧ 0 < it.denominator ∧ it.valid ∧
        (∀ j : Nat, j < k → iter.toRat + j * g.m_period.toRat < g.m_interval.1.toRat) ∧
        g.m_interval.1.toRat ≤ it.toRat := by
  intro n
  induction n with
  | zero =>
    intro iter hd hv hfits hbound
    simp only [Generator.positionFits, Bool.and_eq_true, decide_eq_true_eq] at hfits
    have hcmp := hfits.1
    have hnlt : iter.lt g.m_interval.1 = false := by
      rw [Bool.eq_false_iff]
      intro hlt
      rw [Fraction.lt_iff_toRat hcmp hd hfd] at hlt
      simp at hbound
      linarith
    refine ⟨0, iter, le_refl _, ?_, by simp, hd, hv, ?_, ?_⟩
    · simp [Generator.positionLoop, hnlt]
    · intro j hj
      omega
    · simpa using hbound
  | succ n ih =>
    intro iter hd hv hfits hbound
    rw [Generator.positionFits] at hfits
    simp only [Bool.and_eq_true, decide_eq_true_eq, Bool.or_eq_true, Bool.not_eq_true'] at hfits
    obtain ⟨hcmp, hrest⟩ := hfits
    cases hlt : iter.lt g.m_interval.1
    · refine ⟨0, iter, Nat.zero_le _, ?_, by simp, hd, hv, ?_, ?_⟩
      · simp [Generator.positionLoop, hlt]
      · intro j hj
        omega
      · have h := (Fraction.lt_iff_toRat hcmp hd hfd).not.mp (by simp [hlt])
        exact not_lt.mp h
    · rcases hrest with hcon | ⟨hadd, hnext⟩
      · rw [hlt] at hcon
        exact absurd hcon (by simp)
      · have hd' := Fraction.add_den_pos hadd hd hpd
        have hval := Fraction.toRat_add hadd (ne_of_gt hd) (ne_of_gt hpd)
        have hb' : g.m_interval.1.toRat ≤ (iter.add g.m_period).toRat + n * g.m_period.toRat := by
          rw [hval]
          push_cast at hbound
          linarith
        obtain ⟨k, it, hk, hrun, hit, hitd, hitv, hbelow, hge⟩ :=
          ih (iter.add g.m_period) hd' (Fraction.add_valid _ _) hnext hb'
        refine ⟨k + 1, it, by omega, ?_, ?_, hitd, hitv, ?_, hge⟩
        · rw [Generator.positionLoop]
          simp [hlt, hrun]
        · rw [hit, hval]
          push_cast
          ring
        · intro j hj
          rcases Nat.eq_zero_or_pos j with rfl | hjpos
          · simpa using (Fraction.lt_iff_toRat hcmp hd hfd).mp hlt
          · obtain ⟨j', rfl⟩ : ∃ j', j = j' + 1 := ⟨j - 1, by omega⟩
            have := hbelow j' (by omega)
            rw [hval] at this
            push_cast
            linarith

theorem Generator.emitLoop_succ (g : Generator) (n : Nat) (iter r : Fraction)
    (set vector : List Fraction) (hr : (iter.add g.m_period).reduce = .ok r) :
    g.emitLoop (n + 1) iter set vector
      = if r.lt g.m_interval.2 = true
        then g.emitLoop n r (setInsert iter set) (vector ++ [iter])
        else .ok (setInsert iter set, vector ++ [iter]) := by
  rw [Generator.emitLoop, hr]
  rfl

theorem Generator.emitFits_succ (g : Generator) (n : Nat) (iter r : Fraction)
    (hr : (iter.add g.m_period).reduce = .ok r) :
    g.emitFits (n + 1) iter
      = (decide (iter.addFits g.m_period) &&
          (decide (r.cmpFits g.m_interval.2) && (!r.lt g.m_interval.2 || g.emitFits n r))) := by
  rw [Generator.emitFits, hr]
  rfl

/-- One step of the emission loop on an overflow-free run: the next iterate
exists, is valid, has a positive denominator and represents `iter + period`. -/
theorem Generator.emit_step (g : Generator) (hpd : 0 < g.m_period.denominator)
    (n : Nat) (iter : Fraction) (hd : 0 < iter.denominator)
    (hfits : g.emitFits (n + 1) iter = true) :
    ∃ r, (iter.add g.m_period).reduce = .ok r ∧
      r.toRat = iter.toRat + g.m_period.toRat ∧ 0 < r.denominator ∧ r.valid ∧
      r.cmpFits g.m_interval.2 ∧ (r.lt g.m_interval.2 = true → g.emitFits n r = true) := by
  have hadd : iter.addFits g.m_period := by
    rw [Generator.emitFits] at hfits
    simp only [Bool.and_eq_true, decide_eq_true_eq] at hfits
    exact hfits.1
  have hd' := Fraction.add_den_pos hadd hd hpd
  have hval := Fraction.toRat_add hadd (ne_of_gt hd) (ne_of_gt hpd)
  obtain ⟨r, hr, hrval, hrd, hrv⟩ :=
    Fraction.reduce_pos (Fraction.add_valid iter g.m_period) hd'
  rw [Generator.emitFits_succ g n iter r hr] at hfits
  simp only [Bool.and_eq_true, decide_eq_true_eq, Bool.or_eq_true, Bool.not_eq_true'] at hfits
  refine ⟨r, hr, by rw [hrval, hval], hrd, hrv, hfits.2.1, ?_⟩
  intro hlt
  rcases hfits.2.2 with h | h
  · rw [hlt] at h
    exact absurd h (by decide)
  · exact h

/-- The emission loop on an overflow-free run: with enough fuel it returns,
having appended `iter`, `iter + period`, ... up to the first term that is not
below the upper bound (that term excluded, the first term always included). -/
theorem Generator.emitLoop_run (g : Generator)
    (hpd : 0 < g.m_period.denominator) (hsd : 0 < g.m_interval.2.denominator) :
    ∀ (n : Nat) (iter : Fraction) (set vector : List Fraction),
      0 < iter.denominator → iter.valid →
      g.emitFits (n + 1) iter = true →
      g.m_interval.2.toRat ≤ iter.toRat + ((n + 1 : Nat) : ℚ) * g.m_period.toRat →
      ∃ out : List Fraction,
        g.emitLoop (n + 1) iter set vector
          = .ok (out.foldl (fun s x => setInsert x s) set, vector ++ out) ∧
        0 < out.length ∧ out.length ≤ n + 1 ∧
        out.map Fraction.toRat
          = (List.range out.length).map
              (fun i : Nat => iter.toRat + (i : ℚ) * g.m_period.toRat) ∧
        (∀ i : Nat, 1 ≤ i → i < out.length →
          iter.toRat + (i : ℚ) * g.m_period.toRat < g.m_interval.2.toRat) ∧
        g.m_interval.2.toRat ≤ iter.toRat + (out.length : ℚ) * g.m_period.toRat ∧
        (∀ x ∈ out, 0 < x.denominator ∧ x.valid) := by
  intro n
  induction n with
  | zero =>
    intro iter set vector hd hv hfits hbound
    obtain ⟨r, hr, hrval, hrd, hrv, hcmp, -⟩ := g.emit_step hpd 0 iter hd hfits
    have hnlt : ¬ (r.lt g.m_interval.2 = true) := by
      intro hlt
      rw [Fraction.lt_iff_toRat hcmp hrd hsd, hrval] at hlt
      push_cast at hbound
      linarith
    refine ⟨[iter], ?_, Nat.zero_lt_one, le_refl _, ?_, ?_, ?_, ?_⟩
    · rw [Generator.emitLoop_succ g 0 iter r set vector hr, if_neg hnlt]
      rfl
    · simp only [List.length_singleton, List.map_cons, List.map_nil, List.range_succ_eq_map, List.range_zero,
        Nat.cast_zero, zero_mul, add_zero]
    · intro i h1 h2
      simp only [List.length_singleton] at h2
      omega
    · simpa only [List.length_singleton] using hbound
    · intro x hx
      rw [List.mem_singleton] at hx
      subst hx
      exact ⟨hd, hv⟩
  | succ n ih =>
    intro iter set vector hd hv hfits hbound
    obtain ⟨r, hr, hrval, hrd, hrv, hcmp, hnext⟩ := g.emit_step hpd (n + 1) iter hd hfits
    by_cases hlt : r.lt g.m_interval.2 = true
    · have hb' : g.m_interval.2.toRat ≤ r.toRat + ((n + 1 : Nat) : ℚ) * g.m_period.toRat := by
        rw [hrval]
        push_cast at hbound ⊢
        linarith
      obtain ⟨out, hrun, hpos, hlen, hmap, hin, hstop, hall⟩ :=
        ih r (setInsert iter set) (vector ++ [iter]) hrd hrv (hnext hlt) hb'
      refine ⟨iter :: out, ?_, Nat.succ_pos _, ?_, ?_, ?_, ?_, ?_⟩
      · rw [Generator.emitLoop_succ g (n + 1) iter r set vector hr, if_pos hlt, hrun,
          List.foldl_cons, List.append_assoc]
        rfl
      · rw [List.length_cons]
        omega
      · rw [List.length_cons, List.range_succ_eq_map, List.map_cons, List.map_cons,
          List.map_map, hmap, hrval]
        refine congrArg₂ _ ?_ ?_
        · simp only [Nat.cast_zero, zero_mul, add_zero]
        · apply List.map_congr_left
          intro i _
          simp only [Function.comp, Nat.succ_eq_add_one]
          push_cast
          ring
      · intro i h1 h2
        obtain ⟨i', rfl⟩ : ∃ i', i = i' + 1 := ⟨i - 1, by omega⟩
        rcases Nat.eq_zero_or_pos i' with rfl | hi'
        · have := (Fraction.lt_iff_toRat hcmp hrd hsd).mp hlt
          rw [hrval] at this
          simpa only [Nat.zero_add, Nat.cast_one, one_mul] using this
        · rw [List.length_cons] at h2
          have := hin i' (by omega) (by omega)
          rw [hrval] at this
          push_cast
          linarith
      · rw [hrval] at hstop
        rw [List.length_cons]
        push_cast
        linarith
      · intro x hx
        rcases List.mem_cons.mp hx with rfl | hx
        · exact ⟨hd, hv⟩
        · exact hall x hx
    · refine ⟨[iter], ?_, Nat.zero_lt_one, by simp only [List.length_singleton]; omega,
        ?_, ?_, ?_, ?_⟩
      · rw [Generator.emitLoop_succ g (n + 1) iter r set vector hr, if_neg hlt]
        rfl
      · simp only [List.length_singleton, List.map_cons, List.map_nil, List.range_succ_eq_map, List.range_zero,
          Nat.cast_zero, zero_mul, add_zero]
      · intro i h1 h2
        simp only [List.length_singleton] at h2
        omega
      · have h := (Fraction.lt_iff_toRat hcmp hrd hsd).not.mp hlt
        rw [hrval] at h
        simpa only [List.length_singleton, Nat.cast_one, one_mul] using not_lt.mp h
      · intro x hx
        rw [List.mem_singleton] at hx
        subst hx
        exact ⟨hd, hv⟩

/-- A whole run of `generate` without overflow and with enough fuel: the call
returns, and the appended terms are `shift + k * period`,
`shift + (k + 1) * period`, ... where `k` counts the steps of the positioning
loop. The first of them is the first term not below the lower bound; every
later one is below the upper bound; the term after the last one is not. -/
theorem Generator.generate_run (g : Generator) (n : Nat) (set vector : List Fraction)
    (hv : g.m_shift.valid) (hsd : 0 < g.m_shift.denominator)
    (hpd : 0 < g.m_period.denominator) (hpn : 0 < g.m_period.numerator)
    (hld : 0 < g.m_interval.1.denominator) (hud : 0 < g.m_interval.2.denominator)
    (hfits : g.generateFits (n + 1) = true)
    (hlo : g.m_interval.1.toRat ≤ g.m_shift.toRat + (n : ℚ) * g.m_period.toRat)
    (hhi : g.m_interval.2.toRat ≤ g.m_shift.toRat + (n : ℚ) * g.m_period.toRat) :
    ∃ (k : Nat) (out : List Fraction),
      g.generate (n + 1) set vector
        = .ok (out.foldl (fun s x => setInsert x s) set, vector ++ out) ∧
      0 < out.length ∧
      out.map Fraction.toRat
        = (List.range out.length).map
            (fun i : Nat => g.m_shift.toRat + ((k + i : Nat) : ℚ) * g.m_period.toRat) ∧
      (∀ j : Nat, j < k → g.m_shift.toRat + (j : ℚ) * g.m_period.toRat < g.m_interval.1.toRat) ∧
      g.m_interval.1.toRat ≤ g.m_shift.toRat + (k : ℚ) * g.m_period.toRat ∧
      (∀ i : Nat, 1 ≤ i → i < out.length →
        g.m_shift.toRat + ((k + i : Nat) : ℚ) * g.m_period.toRat < g.m_interval.2.toRat) ∧
      g.m_interval.2.toRat
        ≤ g.m_shift.toRat + ((k + out.length : Nat) : ℚ) * g.m_period.toRat ∧
      (∀ x ∈ out, 0 < x.denominator ∧ x.valid) := by
  have hp : (0 : ℚ) < g.m_period.toRat := by
    unfold Fraction.toRat
    have h1 : (0 : ℚ) < g.m_period.numerator := by exact_mod_cast hpn
    have h2 : (0 : ℚ) < g.m_period.denominator := by exact_mod_cast hpd
    exact div_pos h1 h2
  unfold Generator.generateFits at hfits
  rw [Bool.and_eq_true] at hfits
  obtain ⟨hpos, hrest⟩ := hfits
  obtain ⟨k, it, hk, hrun, hit, hitd, hitv, hbelow, hge⟩ :=
    g.positionLoop_run hpd hld n g.m_shift hsd hv hpos hlo
  obtain ⟨r, hr, hrval, hrd, hrv⟩ := Fraction.reduce_pos hitv hitd
  rw [hrun] at hrest
  simp only [Except.toOption, Option.all_some] at hrest
  rw [hr] at hrest
  simp only [Option.all_some] at hrest
  have hkq : (0 : ℚ) ≤ (k : ℚ) * g.m_period.toRat :=
    mul_nonneg (Nat.cast_nonneg k) (le_of_lt hp)
  have hb : g.m_interval.2.toRat ≤ r.toRat + ((n + 1 : Nat) : ℚ) * g.m_period.toRat := by
    rw [hrval, hit]
    push_cast
    linarith
  obtain ⟨out, herun, hlen, -, hmap, hin, hstop, hall⟩ :=
    g.emitLoop_run hpd hud n r set vector hrd hrv hrest hb
  refine ⟨k, out, ?_, hlen, ?_, hbelow, ?_, ?_, ?_, hall⟩
  · unfold Generator.generate
    rw [hrun]
    simp only [Except.bind, hr]
    exact herun
  · rw [hmap, hrval, hit]
    apply List.map_congr_left
    intro i _
    push_cast
    ring
  · rw [← hit]
    exact hge
  · intro i h1 h2
    have := hin i h1 h2
    rw [hrval, hit] at this
    push_cast
    linarith
  · rw [hrval, hit] at hstop
    push_cast
    linarith

/-! ## Lists of the terms of an arithmetic progression -/

theorem filter_map_range_extend (f : Nat → ℚ) (P : ℚ → Bool) (A : Nat)
    (h : ∀ j : Nat, A ≤ j → P (f j) = false) :
    ∀ d : Nat, ((List.range (A + d)).map f).filter P = ((List.range A).map f).filter P := by
  intro d
  induction d with
  | zero => rfl
  | succ d ih =>
    rw [← Nat.add_assoc, List.range_succ, List.map_append, List.filter_append, ih,
      List.map_singleton, List.filter_singleton, h (A + d) (Nat.le_add_right _ _)]
    exact List.append_nil _

theorem filter_map_range_shift (f : Nat → ℚ) (P : ℚ → Bool) (k : Nat)
    (h : ∀ j : Nat, j < k → P (f j) = false) :
    ∀ m : Nat, ((List.range (k + m)).map f).filter P
      = ((List.range m).map (fun i : Nat => f (k + i))).filter P := by
  intro m
  induction m with
  | zero =>
    rw [Nat.add_zero, List.range_zero, List.map_nil, List.filter_nil, List.filter_eq_nil_iff]
    intro a ha
    obtain ⟨j, hj, rfl⟩ := List.mem_map.mp ha
    rw [h j (List.mem_range.mp hj)]
    exact Bool.false_ne_true
  | succ m ih =>
    rw [← Nat.add_assoc, List.range_succ, List.map_append, List.filter_append, ih,
      List.range_succ, List.map_append, List.filter_append]
    rfl

theorem filter_map_range_window (f : Nat → ℚ) (P : ℚ → Bool) (k m N : Nat)
    (hbelow : ∀ j : Nat, j < k → P (f j) = false)
    (habove : ∀ j : Nat, k + m ≤ j → P (f j) = false)
    (hN : ∀ j : Nat, N ≤ j → P (f j) = false) :
    ((List.range m).map (fun i : Nat => f (k + i))).filter P
      = ((List.range N).map f).filter P := by
  rw [← filter_map_range_shift f P k hbelow m]
  rcases Nat.le_total N (k + m) with hle | hle
  · obtain ⟨d, hd⟩ := Nat.exists_eq_add_of_le hle
    rw [hd]
    exact filter_map_range_extend f P N hN d
  · obtain ⟨d, hd⟩ := Nat.exists_eq_add_of_le hle
    rw [hd]
    exact (filter_map_range_extend f P (k + m) habove d).symm

/-! ## Claims about `Generator::generate` -/

/-- Claim C1 (interval exclusivity), evaluated on the code: with shift `0/1`,
period `1/2` and the interval `(0, 1)`, `generate` appends `0/1` and `1/2`.
The first appended term equals the lower bound, and `isInInterval` itself
rejects it. -/
theorem Generator.generate_emits_lower_bound :
    ((Generator.ctor (Fraction.ctor 0 1) (Fraction.ctor 1 2)).assignInterval 0 1).generate
        3 [] []
      = .ok ([⟨0, 1, true⟩, ⟨1, 2, true⟩], [⟨0, 1, true⟩, ⟨1, 2, true⟩]) ∧
    ((Generator.ctor (Fraction.ctor 0 1) (Fraction.ctor 1 2)).assignInterval 0 1).isInInterval
        ⟨0, 1, true⟩ = false ∧
    Fraction.gt ⟨0, 1, true⟩ (Fraction.ctor 0 1) = false := by
  decide

/-- Claim C2 (concrete scenario), evaluated on the code: with shift `0/1`,
period `1/1` and the interval `(0, 5)`, `generate` run on an empty set and an
empty vector appends the five terms `0/1, 1/1, 2/1, 3/1, 4/1`; the lower bound
`0` is among them. -/
theorem Generator.generate_scenario_unit_period :
    ((Generator.ctor (Fraction.ctor 0 1) (Fraction.ctor 1 1)).assignInterval 0 5).generate
        6 [] []
      = .ok ([⟨0, 1, true⟩, ⟨1, 1, true⟩, ⟨2, 1, true⟩, ⟨3, 1, true⟩, ⟨4, 1, true⟩],
             [⟨0, 1, true⟩, ⟨1, 1, true⟩, ⟨2, 1, true⟩, ⟨3, 1, true⟩, ⟨4, 1, true⟩]) := by
  decide

/-- Claim C3 (empty interval), evaluated on the code: with shift `0/1` and
period `1/1`, `generate` appends the term `5/1` both for the interval `(5, 5)`
and for the interval `(5, 4)`: the set and the vector do not stay unchanged. -/
theorem Generator.generate_empty_interval_emits :
    ((Generator.ctor (Fraction.ctor 0 1) (Fraction.ctor 1 1)).assignInterval 5 5).generate
        7 [] []
      = .ok ([⟨5, 1, true⟩], [⟨5, 1, true⟩]) ∧
    ((Generator.ctor (Fraction.ctor 0 1) (Fraction.ctor 1 1)).assignInterval 5 4).generate
        7 [] []
      = .ok ([⟨5, 1, true⟩], [⟨5, 1, true⟩]) := by
  decide

/-- Claim C4 (enumeration completeness) fails as stated: with shift `3/1`,
period `1/1` and the interval `(0, 5)`, `generate` appends exactly `3/1` and
`4/1`, while `3 + (-2) * 1 = 1` lies strictly inside the interval and is not
appended. -/
theorem Generator.generate_misses_terms_below_shift :
    ((Generator.ctor (Fraction.ctor 3 1) (Fraction.ctor 1 1)).assignInterval 0 5).generate
        3 [] []
      = .ok ([⟨3, 1, true⟩, ⟨4, 1, true⟩], [⟨3, 1, true⟩, ⟨4, 1, true⟩]) ∧
    (Fraction.ctor 0 1).toRat < (Fraction.ctor 3 1).toRat + (-2 : ℤ) * (Fraction.ctor 1 1).toRat ∧
    (Fraction.ctor 3 1).toRat + (-2 : ℤ) * (Fraction.ctor 1 1).toRat < (Fraction.ctor 5 1).toRat ∧
    (Fraction.ctor 3 1).toRat + (-2 : ℤ) * (Fraction.ctor 1 1).toRat
      ∉ List.map Fraction.toRat [⟨3, 1, true⟩, ⟨4, 1, true⟩] := by
  refine ⟨by decide, ?_, ?_, ?_⟩ <;> norm_num [Fraction.toRat, Fraction.ctor]

/-- Claim C4, amended: on a run without overflow and with enough fuel,
`generate` returns, and the appended terms that lie strictly inside the
interval are exactly the ascending list of the values `shift + k * period`,
`k = 0, 1, 2, ...` (no negative `k`), that lie strictly inside the interval.
The list is written as the filter of the first `N` values, for any `N` whose
value has reached the upper bound. -/
theorem Generator.generate_enumerates_from_shift (g : Generator) (n : Nat)
    (set vector : List Fraction)
    (hv : g.m_shift.valid) (hsd : 0 < g.m_shift.denominator)
    (hpd : 0 < g.m_period.denominator) (hpn : 0 < g.m_period.numerator)
    (hld : 0 < g.m_interval.1.denominator) (hud : 0 < g.m_interval.2.denominator)
    (hfits : g.generateFits (n + 1) = true)
    (hlo : g.m_interval.1.toRat ≤ g.m_shift.toRat + (n : ℚ) * g.m_period.toRat)
    (hhi : g.m_interval.2.toRat ≤ g.m_shift.toRat + (n : ℚ) * g.m_period.toRat) :
    ∃ (set' out : List Fraction),
      g.generate (n + 1) set vector = .ok (set', vector ++ out) ∧
      ∀ N : Nat, g.m_interval.2.toRat ≤ g.m_shift.toRat + (N : ℚ) * g.m_period.toRat →
        (out.map Fraction.toRat).filter
            (fun q => decide (g.m_interval.1.toRat < q ∧ q < g.m_interval.2.toRat))
          = ((List.range N).map
              (fun k : Nat => g.m_shift.toRat + (k : ℚ) * g.m_period.toRat)).filter
            (fun q => decide (g.m_interval.1.toRat < q ∧ q < g.m_interval.2.toRat)) := by
  have hp : (0 : ℚ) < g.m_period.toRat := by
    unfold Fraction.toRat
    have h1 : (0 : ℚ) < g.m_period.numerator := by exact_mod_cast hpn
    have h2 : (0 : ℚ) < g.m_period.denominator := by exact_mod_cast hpd
    exact div_pos h1 h2
  obtain ⟨k, out, hrun, -, hmap, hbelow, -, -, hstop, -⟩ :=
    g.generate_run n set vector hv hsd hpd hpn hld hud hfits hlo hhi
  refine ⟨_, out, hrun, ?_⟩
  intro N hN
  have hmono : ∀ a b : Nat, a ≤ b →
      g.m_shift.toRat + (a : ℚ) * g.m_period.toRat
        ≤ g.m_shift.toRat + (b : ℚ) * g.m_period.toRat := by
    intro a b hab
    have : (a : ℚ) ≤ (b : ℚ) := by exact_mod_cast hab
    nlinarith
  rw [hmap]
  apply filter_map_range_window
    (fun k : Nat => g.m_shift.toRat + (k : ℚ) * g.m_period.toRat)
  · intro j hj
    have := hbelow j hj
    rw [decide_eq_false_iff_not]
    intro hcon
    linarith [hcon.1]
  · intro j hj
    have := hmono _ _ hj
    rw [decide_eq_false_iff_not]
    intro hcon
    linarith [hcon.2]
  · intro j hj
    have := hmono _ _ hj
    rw [decide_eq_false_iff_not]
    intro hcon
    linarith [hcon.2]

/-- Witness for claim C4, amended: the generator `gen0` of `main` over the
interval `(0, 12)` that `Result::compute` assigns. -/
theorem Generator.generate_enumerates_from_shift_witness :
    ∃ (set' out : List Fraction),
      (main.gen0.assignInterval 0 12).generate (12 + 1) [] [] = .ok (set', [] ++ out) ∧
      ∀ N : Nat,
        (main.gen0.assignInterval 0 12).m_interval.2.toRat
          ≤ (main.gen0.assignInterval 0 12).m_shift.toRat
            + (N : ℚ) * (main.gen0.assignInterval 0 12).m_period.toRat →
        (out.map Fraction.toRat).filter
            (fun q => decide ((main.gen0.assignInterval 0 12).m_interval.1.toRat < q ∧
              q < (main.gen0.assignInterval 0 12).m_interval.2.toRat))
          = ((List.range N).map
              (fun k : Nat => (main.gen0.assignInterval 0 12).m_shift.toRat
                + (k : ℚ) * (main.gen0.assignInterval 0 12).m_period.toRat)).filter
            (fun q => decide ((main.gen0.assignInterval 0 12).m_interval.1.toRat < q ∧
              q < (main.gen0.assignInterval 0 12).m_interval.2.toRat)) :=
  Generator.generate_enumerates_from_shift (main.gen0.assignInterval 0 12)
    12 [] [] (by decide) (by decide) (by decide) (by decide) (by decide) (by decide)
    (by decide)
    (by norm_num [Fraction.toRat, Fraction.ctor, Generator.ctor, Generator.assignInterval,
      main.gen0, basicPeriod])
    (by norm_num [Fraction.toRat, Fraction.ctor, Generator.ctor, Generator.assignInterval,
      main.gen0, basicPeriod])

/-- Claim C5 (monotonicity) fails as stated: with shift `1/50000`, period `1/3`
and the interval `(0, 1)` no operation of the run overflows, `generate`
appends `1/50000, 50003/150000, 100003/150000` to the vector, and `operator<`
answers `false` for the second and third appended term, because the
cross-products of that comparison overflow `int32_t`. -/
theorem Generator.generate_lt_fails_between_terms :
    0 < (Fraction.ctor 1 3).numerator ∧ 0 < (Fraction.ctor 1 3).denominator ∧
    0 < (Fraction.ctor 1 50000).denominator ∧
    ((Generator.ctor (Fraction.ctor 1 50000) (Fraction.ctor 1 3)).assignInterval
        0 1).generateFits 4 = true ∧
    (((Generator.ctor (Fraction.ctor 1 50000) (Fraction.ctor 1 3)).assignInterval
        0 1).generate 4 [] []).map (fun r => r.2)
      = .ok [⟨1, 50000, true⟩, ⟨50003, 150000, true⟩, ⟨100003, 150000, true⟩] ∧
    Fraction.lt ⟨50003, 150000, true⟩ ⟨100003, 150000, true⟩ = false := by
  decide

/-- Claim C5, amended: on a run without overflow and with enough fuel,
`generate` returns and the appended terms are strictly increasing as rational
numbers; an appended term is `<` a later one under `operator<` whenever that
comparison does not overflow. -/
theorem Generator.generate_strictly_increasing (g : Generator) (n : Nat)
    (set vector : List Fraction)
    (hv : g.m_shift.valid) (hsd : 0 < g.m_shift.denominator)
    (hpd : 0 < g.m_period.denominator) (hpn : 0 < g.m_period.numerator)
    (hld : 0 < g.m_interval.1.denominator) (hud : 0 < g.m_interval.2.denominator)
    (hfits : g.generateFits (n + 1) = true)
    (hlo : g.m_interval.1.toRat ≤ g.m_shift.toRat + (n : ℚ) * g.m_period.toRat)
    (hhi : g.m_interval.2.toRat ≤ g.m_shift.toRat + (n : ℚ) * g.m_period.toRat) :
    ∃ (set' out : List Fraction),
      g.generate (n + 1) set vector = .ok (set', vector ++ out) ∧
      out.Pairwise (fun a b => a.toRat < b.toRat) ∧
      out.Pairwise (fun a b => a.cmpFits b → a.lt b = true) := by
  have hp : (0 : ℚ) < g.m_period.toRat := by
    unfold Fraction.toRat
    have h1 : (0 : ℚ) < g.m_period.numerator := by exact_mod_cast hpn
    have h2 : (0 : ℚ) < g.m_period.denominator := by exact_mod_cast hpd
    exact div_pos h1 h2
  obtain ⟨k, out, hrun, -, hmap, -, -, -, -, hall⟩ :=
    g.generate_run n set vector hv hsd hpd hpn hld hud hfits hlo hhi
  have hrat : out.Pairwise (fun a b => a.toRat < b.toRat) := by
    rw [← List.pairwise_map, hmap]
    apply List.Pairwise.map _ _ (List.pairwise_lt_range out.length)
    intro a b hab
    have : ((k + a : Nat) : ℚ) < ((k + b : Nat) : ℚ) := by
      exact_mod_cast Nat.add_lt_add_left hab k
    nlinarith
  refine ⟨_, out, hrun, hrat, ?_⟩
  apply List.Pairwise.imp_of_mem _ hrat
  intro a b ha hb hlt hcmp
  exact (Fraction.lt_iff_toRat hcmp (hall a ha).1 (hall b hb).1).mpr hlt

/-- Witness for claim C5, amended: the generator `gen1` of `main` over the
interval `(0, 12)` that `Result::compute` assigns. -/
theorem Generator.generate_strictly_increasing_witness :
    ∃ (set' out : List Fraction),
      (main.gen1.assignInterval 0 12).generate (11 + 1) [] [] = .ok (set', [] ++ out) ∧
      out.Pairwise (fun a b => a.toRat < b.toRat) ∧
      out.Pairwise (fun a b => a.cmpFits b → a.lt b = true) :=
  Generator.generate_strictly_increasing (main.gen1.assignInterval 0 12)
    11 [] [] (by decide) (by decide) (by decide) (by decide) (by decide) (by decide)
    (by decide)
    (by norm_num [Fraction.toRat, Fraction.ctor, Generator.ctor, Generator.assignInterval,
      main.gen1, basicPeriod])
    (by norm_num [Fraction.toRat, Fraction.ctor, Generator.ctor, Generator.assignInterval,
      main.gen1, basicPeriod])

/-! ## Claims about `Fraction` arithmetic and comparison -/

/-- Claim C6 (addition is exact) fails as stated: for `100000/1 + 1/100000`
the product `100000 * 100000` wraps, the numerator of the sum is `1410065409`
instead of `10000000001`, and the sum does not represent the sum of the two
rationals. -/
theorem Fraction.add_wraps :
    ((Fraction.ctor 100000 1).add (Fraction.ctor 1 100000)).numerator = 1410065409 ∧
    ((Fraction.ctor 100000 1).add (Fraction.ctor 1 100000)).numerator
      ≠ (Fraction.ctor 100000 1).numerator * (Fraction.ctor 1 100000).denominator
        + (Fraction.ctor 1 100000).numerator * (Fraction.ctor 100000 1).denominator ∧
    ((Fraction.ctor 100000 1).add (Fraction.ctor 1 100000)).toRat
      ≠ (Fraction.ctor 100000 1).toRat + (Fraction.ctor 1 100000).toRat := by
  refine ⟨by decide, by decide, ?_⟩
  have h : (Fraction.ctor 100000 1).add (Fraction.ctor 1 100000)
      = ⟨1410065409, 100000, false⟩ := by decide
  rw [h]
  norm_num [Fraction.toRat, Fraction.ctor]

/-- Claim C6, amended: when the two products, their sum and the product of
the denominators fit `int32_t`, `a + b` has numerator
`a.num * b.den + b.num * a.den`, denominator `a.den * b.den` and a cleared
`reduced` flag, and for nonzero denominators it represents exactly the sum of
the two rationals. -/
theorem Fraction.add_exact (a b : Fraction) (h : a.addFits b) :
    (a.add b).numerator = a.numerator * b.denominator + b.numerator * a.denominator ∧
    (a.add b).denominator = a.denominator * b.denominator ∧
    (a.add b).reduced = false ∧
    (a.denominator ≠ 0 → b.denominator ≠ 0 → (a.add b).toRat = a.toRat + b.toRat) := by
  refine ⟨?_, ?_, ?_, fun ha hb => Fraction.toRat_add h ha hb⟩ <;>
    rw [Fraction.add_of_fits h]

/-- Witness for claim C6, amended: `1/2 + 1/3 = 5/6`. -/
theorem Fraction.add_exact_witness :
    ((Fraction.ctor 1 2).add (Fraction.ctor 1 3)).numerator
      = (Fraction.ctor 1 2).numerator * (Fraction.ctor 1 3).denominator
        + (Fraction.ctor 1 3).numerator * (Fraction.ctor 1 2).denominator ∧
    ((Fraction.ctor 1 2).add (Fraction.ctor 1 3)).denominator
      = (Fraction.ctor 1 2).denominator * (Fraction.ctor 1 3).denominator ∧
    ((Fraction.ctor 1 2).add (Fraction.ctor 1 3)).reduced = false ∧
    ((Fraction.ctor 1 2).denominator ≠ 0 → (Fraction.ctor 1 3).denominator ≠ 0 →
      ((Fraction.ctor 1 2).add (Fraction.ctor 1 3)).toRat
        = (Fraction.ctor 1 2).toRat + (Fraction.ctor 1 3).toRat) :=
  Fraction.add_exact (Fraction.ctor 1 2) (Fraction.ctor 1 3) (by decide)

/-- Claim C7 (comparison is correct) fails as stated: for `2147483647/1` and
`-1/1` both cross-products fit `int32_t` and both denominators are positive,
but their difference `2147483648` wraps to a negative value, so `operator<`
answers `true` and `operator>` answers `false` although the first rational is
the greater one. -/
theorem Fraction.lt_wraps_on_difference :
    (Fraction.ctor 2147483647 1).crossFits (Fraction.ctor (-1) 1) ∧
    0 < (Fraction.ctor 2147483647 1).denominator ∧
    0 < (Fraction.ctor (-1) 1).denominator ∧
    (Fraction.ctor 2147483647 1).lt (Fraction.ctor (-1) 1) = true ∧
    (Fraction.ctor 2147483647 1).gt (Fraction.ctor (-1) 1) = false ∧
    (Fraction.ctor (-1) 1).toRat < (Fraction.ctor 2147483647 1).toRat := by
  refine ⟨by decide, by decide, by decide, by decide, by decide, ?_⟩
  norm_num [Fraction.toRat, Fraction.ctor]

/-- Claim C7, amended: for fractions with positive denominators whose
cross-products and the difference of the cross-products fit `int32_t`,
`a < b` holds iff the rational of `a` is less than that of `b`, and `a > b`
iff it is greater; replacing `a` by `(g * a.num) / (g * a.den)` with `g > 0`
leaves both answers unchanged when the comparison of the scaled fraction does
not overflow either. -/
theorem Fraction.compare_correct (a b : Fraction) (g : Int)
    (ha : 0 < a.denominator) (hb : 0 < b.denominator) (h : a.cmpFits b)
    (hg : 0 < g) (hs : (Fraction.ctor (g * a.numerator) (g * a.denominator)).cmpFits b) :
    (a.lt b = true ↔ a.toRat < b.toRat) ∧
    (a.gt b = true ↔ b.toRat < a.toRat) ∧
    (Fraction.ctor (g * a.numerator) (g * a.denominator)).lt b = a.lt b ∧
    (Fraction.ctor (g * a.numerator) (g * a.denominator)).gt b = a.gt b := by
  have hsd : 0 < (Fraction.ctor (g * a.numerator) (g * a.denominator)).denominator :=
    Int.mul_pos hg ha
  have hval : (Fraction.ctor (g * a.numerator) (g * a.denominator)).toRat = a.toRat :=
    rat_div_cancel_left g a.numerator a.denominator (ne_of_gt hg) (ne_of_gt ha)
  have h1 := Fraction.lt_iff_toRat h ha hb
  have h2 := Fraction.gt_iff_toRat h ha hb
  have h3 := Fraction.lt_iff_toRat hs hsd hb
  have h4 := Fraction.gt_iff_toRat hs hsd hb
  rw [hval] at h3 h4
  refine ⟨h1, h2, ?_, ?_⟩
  · rw [Bool.eq_iff_iff, h3, h1]
  · rw [Bool.eq_iff_iff, h4, h2]

/-- Witness for claim C7, amended: `1/2` against `2/3`, scaled by `5`. -/
theorem Fraction.compare_correct_witness :
    ((Fraction.ctor 1 2).lt (Fraction.ctor 2 3) = true
      ↔ (Fraction.ctor 1 2).toRat < (Fraction.ctor 2 3).toRat) ∧
    ((Fraction.ctor 1 2).gt (Fraction.ctor 2 3) = true
      ↔ (Fraction.ctor 2 3).toRat < (Fraction.ctor 1 2).toRat) ∧
    (Fraction.ctor (5 * (Fraction.ctor 1 2).numerator)
        (5 * (Fraction.ctor 1 2).denominator)).lt (Fraction.ctor 2 3)
      = (Fraction.ctor 1 2).lt (Fraction.ctor 2 3) ∧
    (Fraction.ctor (5 * (Fraction.ctor 1 2).numerator)
        (5 * (Fraction.ctor 1 2).denominator)).gt (Fraction.ctor 2 3)
      = (Fraction.ctor 1 2).gt (Fraction.ctor 2 3) :=
  Fraction.compare_correct (Fraction.ctor 1 2) (Fraction.ctor 2 3) 5
    (by decide) (by decide) (by decide) (by decide) (by decide)

/-! ## Addition followed by reduction -/

theorem Fraction.add_comm (a b : Fraction) : a.add b = b.add a := by
  unfold Fraction.add
  rw [Int.add_comm (wrap32 (a.numerator * b.denominator)),
    Int.mul_comm a.denominator b.denominator]

theorem Fraction.gcd_scaled (x y : Fraction) (k : Int) (hk : 0 < k)
    (hn : y.numerator = k * x.numerator) (hd : y.denominator = k * x.denominator) :
    ((Int.gcd y.numerator y.denominator : Nat) : Int)
      = k * ((Int.gcd x.numerator x.denominator : Nat) : Int) := by
  rw [hn, hd, Int.gcd_mul_left]
  push_cast
  rw [abs_of_pos hk]

theorem Fraction.gcdFits_of_scaled (x y : Fraction) (k : Int) (hk : 0 < k)
    (hn : y.numerator = k * x.numerator) (hd : y.denominator = k * x.denominator)
    (hg : y.gcdFits) : x.gcdFits := by
  unfold Fraction.gcdFits at *
  rw [Fraction.gcd_scaled x y k hk hn hd] at hg
  have h0 : (0 : Int) ≤ ((Int.gcd x.numerator x.denominator : Nat) : Int) := Int.ofNat_nonneg _
  nlinarith

/-- Reduction does not see a common positive factor of the two fields. -/
theorem Fraction.reduce_scaled (x y : Fraction) (k : Int) (hk : 0 < k)
    (hx : x.reduced = false) (hy : y.reduced = false)
    (hn : y.numerator = k * x.numerator) (hd : y.denominator = k * x.denominator)
    (hne : y.denominator ≠ 0) (hg : y.gcdFits) : x.reduce = y.reduce := by
  have hxd : x.denominator ≠ 0 := by
    intro h0
    rw [h0, Int.mul_zero] at hd
    exact hne hd
  rw [Fraction.reduce_of_not_reduced hx (Fraction.gcdFits_of_scaled x y k hk hn hd hg)
      (Or.inr hxd),
    Fraction.reduce_of_not_reduced hy hg (Or.inr hne),
    Fraction.gcd_scaled x y k hk hn hd]
  rw [hn, hd, Int.mul_ediv_mul_of_pos _ _ hk, Int.mul_ediv_mul_of_pos _ _ hk]

theorem Fraction.add_scaled_left (a a' b : Fraction) (k : Int) (hk : 0 < k)
    (hn : a.numerator = k * a'.numerator) (hd : a.denominator = k * a'.denominator)
    (h : a.addFits b) :
    a'.addFits b ∧ (a.add b).numerator = k * (a'.add b).numerator ∧
      (a.add b).denominator = k * (a'.add b).denominator := by
  obtain ⟨h1, h2, h3, h4⟩ := h
  have h' : a'.addFits b := by
    refine ⟨fits32_of_mul_pos hk ?_, fits32_of_mul_pos hk ?_, fits32_of_mul_pos hk ?_,
      fits32_of_mul_pos hk ?_⟩
    · rw [← Int.mul_assoc, ← hn]
      exact h1
    · rw [Int.mul_left_comm, ← hd]
      exact h2
    · rw [Int.mul_add, ← Int.mul_assoc, ← hn, Int.mul_left_comm, ← hd]
      exact h3
    · rw [← Int.mul_assoc, ← hd]
      exact h4
  refine ⟨h', ?_, ?_⟩
  · rw [Fraction.add_of_fits ⟨h1, h2, h3, h4⟩, Fraction.add_of_fits h']
    show a.numerator * b.denominator + b.numerator * a.denominator
      = k * (a'.numerator * b.denominator + b.numerator * a'.denominator)
    rw [hn, hd]
    ring
  · rw [Fraction.add_of_fits ⟨h1, h2, h3, h4⟩, Fraction.add_of_fits h']
    show a.denominator * b.denominator = k * (a'.denominator * b.denominator)
    rw [hd]
    ring

theorem Fraction.add_reduced_flag (a b : Fraction) : (a.add b).reduced = false := rfl

/-- Outcome of `reduce` on an unreduced fraction with a nonzero denominator
whose gcd is an `int32_t` value: both fields are divided by a positive `g`. -/
theorem Fraction.reduce_factor (a : Fraction) (hr : a.reduced = false)
    (hd : a.denominator ≠ 0) (hg : a.gcdFits) :
    ∃ (r : Fraction) (g : Int), a.reduce = .ok r ∧ 0 < g ∧
      a.numerator = g * r.numerator ∧ a.denominator = g * r.denominator := by
  have hpos : 0 < Int.gcd a.numerator a.denominator := Int.gcd_pos_of_ne_zero_right _ hd
  refine ⟨_, (Int.gcd a.numerator a.denominator : Int),
    Fraction.reduce_of_not_reduced hr hg (Or.inr hd), by omega, ?_, ?_⟩
  · exact (Int.mul_ediv_cancel' Int.gcd_dvd_left).symm
  · exact (Int.mul_ediv_cancel' Int.gcd_dvd_right).symm

theorem Fraction.addFits_comm {a b : Fraction} (h : a.addFits b) : b.addFits a := by
  obtain ⟨h1, h2, h3, h4⟩ := h
  refine ⟨h2, h1, ?_, ?_⟩
  · rw [Int.add_comm]
    exact h3
  · rw [Int.mul_comm]
    exact h4

/-- Claim C8 (exactness) fails as stated: for `100000/100000 + 100000/100000`
the products wrap, so adding the constructed fractions and reducing gives
`-1440270/1377017`, while reducing both operands first gives `2/1`. -/
theorem Fraction.add_reduce_differs_on_overflow :
    ((Fraction.ctor 100000 100000).add (Fraction.ctor 100000 100000)).reduce
      = .ok ⟨-1440270, 1377017, true⟩ ∧
    (Fraction.ctor 100000 100000).reduce = .ok ⟨1, 1, true⟩ ∧
    (Fraction.add ⟨1, 1, true⟩ ⟨1, 1, true⟩).reduce = .ok ⟨2, 1, true⟩ := by
  decide

/-- Claim C8, amended: for fractions constructed from integers `n1/d1` and
`n2/d2` with nonzero denominators, when the addition of the constructed
fractions does not overflow and the gcds taken are `int32_t` values, add then
reduce gives the same fraction whether or not either operand was reduced
first. -/
theorem Fraction.add_reduce_exact (n1 d1 n2 d2 : Int) (hd1 : d1 ≠ 0) (hd2 : d2 ≠ 0)
    (hg1 : (Fraction.ctor n1 d1).gcdFits) (hg2 : (Fraction.ctor n2 d2).gcdFits)
    (hadd : (Fraction.ctor n1 d1).addFits (Fraction.ctor n2 d2))
    (hg : ((Fraction.ctor n1 d1).add (Fraction.ctor n2 d2)).gcdFits) :
    ∃ r ra rb : Fraction,
      ((Fraction.ctor n1 d1).add (Fraction.ctor n2 d2)).reduce = .ok r ∧
      (Fraction.ctor n1 d1).reduce = .ok ra ∧
      (Fraction.ctor n2 d2).reduce = .ok rb ∧
      (ra.add (Fraction.ctor n2 d2)).reduce = .ok r ∧
      ((Fraction.ctor n1 d1).add rb).reduce = .ok r ∧
      (ra.add rb).reduce = .ok r := by
  obtain ⟨ra, g1, hra, hg1pos, han, had⟩ :=
    Fraction.reduce_factor (Fraction.ctor n1 d1) rfl hd1 hg1
  obtain ⟨rb, g2, hrb, hg2pos, hbn, hbd⟩ :=
    Fraction.reduce_factor (Fraction.ctor n2 d2) rfl hd2 hg2
  have hSd : ((Fraction.ctor n1 d1).add (Fraction.ctor n2 d2)).denominator ≠ 0 := by
    rw [Fraction.add_of_fits hadd]
    exact Int.mul_ne_zero hd1 hd2
  obtain ⟨r, -, hr, -, -, -⟩ :=
    Fraction.reduce_factor ((Fraction.ctor n1 d1).add (Fraction.ctor n2 d2)) rfl hSd hg
  -- the left operand reduced
  obtain ⟨hfa, hna, hda⟩ :=
    Fraction.add_scaled_left (Fraction.ctor n1 d1) ra (Fraction.ctor n2 d2) g1 hg1pos han had hadd
  have e1 : (ra.add (Fraction.ctor n2 d2)).reduce = .ok r := by
    rw [Fraction.reduce_scaled _ _ g1 hg1pos rfl rfl hna hda hSd hg]
    exact hr
  -- the right operand reduced
  obtain ⟨hfb, hnb, hdb⟩ :=
    Fraction.add_scaled_left (Fraction.ctor n2 d2) rb (Fraction.ctor n1 d1) g2 hg2pos hbn hbd
      (Fraction.addFits_comm hadd)
  have e2 : ((Fraction.ctor n1 d1).add rb).reduce = .ok r := by
    rw [Fraction.add_comm _ rb]
    rw [Fraction.add_comm] at hSd hg hr
    rw [Fraction.reduce_scaled _ _ g2 hg2pos rfl rfl hnb hdb hSd hg]
    exact hr
  -- both operands reduced
  have hmd : (ra.add (Fraction.ctor n2 d2)).denominator ≠ 0 := by
    intro h0
    rw [h0, Int.mul_zero] at hda
    exact hSd hda
  have hmg : (ra.add (Fraction.ctor n2 d2)).gcdFits :=
    Fraction.gcdFits_of_scaled _ _ g1 hg1pos hna hda hg
  obtain ⟨-, hnc, hdc⟩ :=
    Fraction.add_scaled_left (Fraction.ctor n2 d2) rb ra g2 hg2pos hbn hbd
      (Fraction.addFits_comm hfa)
  have e3 : (ra.add rb).reduce = .ok r := by
    rw [Fraction.add_comm ra rb]
    rw [Fraction.add_comm] at hmd hmg e1
    rw [Fraction.reduce_scaled _ _ g2 hg2pos rfl rfl hnc hdc hmd hmg]
    exact e1
  exact ⟨r, ra, rb, hr, hra, hrb, e1, e2, e3⟩

/-- Witness for claim C8, amended: `6/4 + 10/15`. -/
theorem Fraction.add_reduce_exact_witness :
    ∃ r ra rb : Fraction,
      ((Fraction.ctor 6 4).add (Fraction.ctor 10 15)).reduce = .ok r ∧
      (Fraction.ctor 6 4).reduce = .ok ra ∧
      (Fraction.ctor 10 15).reduce = .ok rb ∧
      (ra.add (Fraction.ctor 10 15)).reduce = .ok r ∧
      ((Fraction.ctor 6 4).add rb).reduce = .ok r ∧
      (ra.add rb).reduce = .ok r :=
  Fraction.add_reduce_exact 6 4 10 15 (by decide) (by decide) (by decide) (by decide)
    (by decide) (by decide)

/-! ## Reduction as a canonical form -/

theorem Fraction.reduce_flag {f r : Fraction} (h : f.reduce = .ok r) : r.reduced = true := by
  cases hf : f.reduced
  · unfold Fraction.reduce at h
    simp only [hf, Bool.not_false, if_true] at h
    split at h
    · exact absurd h (by simp)
    · injection h with h
      rw [← h]
  · rw [Fraction.reduce_of_reduced hf] at h
    injection h with h
    rw [← h]
    exact hf

theorem int_edge_of_dvd {n : Int} (hn : fits32 n) (h : 2147483648 ∣ n.natAbs) :
    n = 0 ∨ n = -2147483648 := by
  obtain ⟨c, hc⟩ := h
  unfold fits32 at hn
  omega

/-- The only fractions with `int32_t` fields whose gcd is not an `int32_t`
value have both fields in `{0, -2^31}`. -/
theorem Fraction.fields_of_not_gcdFits {f : Fraction} (hv : f.valid) (hg : ¬ f.gcdFits) :
    (f.numerator = 0 ∨ f.numerator = -2147483648) ∧
    (f.denominator = 0 ∨ f.denominator = -2147483648) := by
  have hle1 : Int.gcd f.numerator f.denominator ∣ f.numerator.natAbs := Nat.gcd_dvd_left _ _
  have hle2 : Int.gcd f.numerator f.denominator ∣ f.denominator.natAbs := Nat.gcd_dvd_right _ _
  have hbig : 2147483648 ≤ Int.gcd f.numerator f.denominator := by
    unfold Fraction.gcdFits at hg
    omega
  have hv1 := hv.1
  have hv2 := hv.2
  unfold fits32 at hv1 hv2
  have hub : Int.gcd f.numerator f.denominator ≤ 2147483648 := by
    rcases Nat.eq_zero_or_pos f.numerator.natAbs with hz | hz
    · rcases Nat.eq_zero_or_pos f.denominator.natAbs with hz' | hz'
      · have : Int.gcd f.numerator f.denominator = 0 := by
          unfold Int.gcd
          rw [hz, hz']
          rfl
        omega
      · have := Nat.le_of_dvd hz' hle2
        omega
    · have := Nat.le_of_dvd hz hle1
      omega
  have heq : Int.gcd f.numerator f.denominator = 2147483648 := by omega
  rw [heq] at hle1 hle2
  exact ⟨int_edge_of_dvd hv.1 hle1, int_edge_of_dvd hv.2 hle2⟩

/-- A successful `reduce` of an unreduced fraction with `int32_t` fields
leaves `int32_t` fields with greatest common divisor `1`. -/
theorem Fraction.reduce_coprime {f r : Fraction} (hv : f.valid) (hf : f.reduced = false)
    (h : f.reduce = .ok r) : r.valid ∧ Int.gcd r.numerator r.denominator = 1 := by
  by_cases hg : f.gcdFits
  · by_cases hne : f.numerator ≠ 0 ∨ f.denominator ≠ 0
    · rw [Fraction.reduce_of_not_reduced hf hg hne] at h
      injection h with h
      rw [← h]
      exact ⟨⟨fits32_div_gcd _ _ hv.1 hne, fits32_div_gcd_right _ _ hv.2 hne⟩,
        Int.gcd_div_gcd_div_gcd (Fraction.gcd_pos_of_ne hne)⟩
    · have h0 : f.numerator = 0 ∧ f.denominator = 0 := by
        constructor <;> by_contra hc <;> exact hne (by simp [hc])
      obtain ⟨n, d, fl⟩ := f
      simp only at hf h0
      obtain ⟨rfl, rfl⟩ := h0
      subst hf
      have e : Fraction.reduce ⟨0, 0, false⟩ = .error Fault.divisionByZero := by decide
      rw [e] at h
      cases h
  · have hedge := Fraction.fields_of_not_gcdFits hv hg
    obtain ⟨n, d, fl⟩ := f
    simp only at hf hedge hg
    subst hf
    rcases hedge.1 with rfl | rfl <;> rcases hedge.2 with rfl | rfl
    · exact absurd (by decide) hg
    · have e : Fraction.reduce ⟨0, -2147483648, false⟩ = .ok ⟨0, 1, true⟩ := by decide
      rw [e] at h
      injection h with h
      rw [← h]
      decide
    · have e : Fraction.reduce ⟨-2147483648, 0, false⟩ = .ok ⟨1, 0, true⟩ := by decide
      rw [e] at h
      injection h with h
      rw [← h]
      decide
    · have e : Fraction.reduce ⟨-2147483648, -2147483648, false⟩ = .ok ⟨1, 1, true⟩ := by
        decide
      rw [e] at h
      injection h with h
      rw [← h]
      decide

/-- On an unreduced fraction with `int32_t` fields and a nonzero denominator
`reduce` succeeds, keeps the represented rational, and divides both fields
exactly by the value `std::gcd` returns. -/
theorem Fraction.reduce_value {f : Fraction} (hv : f.valid) (hf : f.reduced = false)
    (hd : f.denominator ≠ 0) :
    ∃ r : Fraction, f.reduce = .ok r ∧ r.toRat = f.toRat ∧
      f.numerator = wrap32 (Int.gcd f.numerator f.denominator) * r.numerator ∧
      f.denominator = wrap32 (Int.gcd f.numerator f.denominator) * r.denominator := by
  by_cases hg : f.gcdFits
  · have hfit : fits32 ((Int.gcd f.numerator f.denominator : Nat) : Int) := by
      unfold Fraction.gcdFits at hg
      unfold fits32
      omega
    rw [wrap32_of_fits hfit]
    exact ⟨_, Fraction.reduce_of_not_reduced hf hg (Or.inr hd), Fraction.toRat_div_gcd _ _ hd,
      (Int.mul_ediv_cancel' Int.gcd_dvd_left).symm,
      (Int.mul_ediv_cancel' Int.gcd_dvd_right).symm⟩
  · have hedge := Fraction.fields_of_not_gcdFits hv hg
    obtain ⟨n, d, fl⟩ := f
    simp only at hf hedge hg hd
    subst hf
    rcases hedge.1 with rfl | rfl <;> rcases hedge.2 with rfl | rfl
    · exact absurd rfl hd
    · exact ⟨⟨0, 1, true⟩, by decide, by norm_num [Fraction.toRat], by decide, by decide⟩
    · exact absurd rfl hd
    · exact ⟨⟨1, 1, true⟩, by decide, by norm_num [Fraction.toRat], by decide, by decide⟩

/-- Invariant of the fractions the program can hold: the fields are `int32_t`
values, and a set `reduced` flag means the fields are coprime. -/
theorem Fraction.Reachable.invariant {f : Fraction} (h : f.Reachable) :
    f.valid ∧ (f.reduced = true → Int.gcd f.numerator f.denominator = 1) := by
  induction h with
  | ctor n d hn hd => exact ⟨⟨hn, hd⟩, fun hc => absurd hc (by simp [Fraction.ctor])⟩
  | add a b _ _ _ _ =>
    exact ⟨Fraction.add_valid a b, fun hc => absurd hc (by simp [Fraction.add_reduced_flag])⟩
  | reduce a r _ hr ih =>
    cases hf : a.reduced
    · have := Fraction.reduce_coprime ih.1 hf hr
      exact ⟨this.1, fun _ => this.2⟩
    · rw [Fraction.reduce_of_reduced hf] at hr
      injection hr with hr
      rw [← hr]
      exact ih

/-- Claim C9 (reduction gives a stable canonical form). For every fraction
the program can hold, a set `reduced` flag means the fields are coprime; and
when the denominator is nonzero, `reduce` succeeds, keeps the represented
rational, sets the flag, leaves coprime fields, and a second `reduce` changes
nothing. Numerator and denominator have been divided exactly by the value `g`
that `std::gcd` returns, which is their greatest common divisor whenever that
is an `int32_t` value. -/
theorem Fraction.reduce_canonical (f : Fraction) (hf : f.Reachable) :
    (f.reduced = true → Int.gcd f.numerator f.denominator = 1) ∧
    (f.denominator ≠ 0 →
      ∃ (r : Fraction) (g : Int), f.reduce = .ok r ∧
        r.toRat = f.toRat ∧ r.reduced = true ∧
        Int.gcd r.numerator r.denominator = 1 ∧ r.reduce = .ok r ∧
        g = wrap32 (Int.gcd f.numerator f.denominator) ∧
        f.numerator = g * r.numerator ∧ f.denominator = g * r.denominator ∧
        (f.gcdFits → g = (Int.gcd f.numerator f.denominator : Int))) := by
  have hinv := hf.invariant
  refine ⟨hinv.2, ?_⟩
  intro hd
  have hwrap : f.gcdFits →
      wrap32 (Int.gcd f.numerator f.denominator) = (Int.gcd f.numerator f.denominator : Int) := by
    intro hg
    apply wrap32_of_fits
    unfold Fraction.gcdFits at hg
    unfold fits32
    omega
  cases hfl : f.reduced
  · obtain ⟨r, hr, hval, hn, hdn⟩ := Fraction.reduce_value hinv.1 hfl hd
    have hflag := Fraction.reduce_flag hr
    exact ⟨r, _, hr, hval, hflag, (Fraction.reduce_coprime hinv.1 hfl hr).2,
      Fraction.reduce_of_reduced hflag, rfl, hn, hdn, hwrap⟩
  · have hone := hinv.2 hfl
    refine ⟨f, _, Fraction.reduce_of_reduced hfl, rfl, hfl, hone,
      Fraction.reduce_of_reduced hfl, rfl, ?_, ?_, hwrap⟩
    · rw [hone]
      show f.numerator = wrap32 1 * f.numerator
      rw [wrap32_of_fits (by decide), Int.one_mul]
    · rw [hone]
      show f.denominator = wrap32 1 * f.denominator
      rw [wrap32_of_fits (by decide), Int.one_mul]

/-- Witness for claim C9: the constructed fraction with numerator `-6` and
denominator `4`. -/
theorem Fraction.reduce_canonical_witness :
    ((Fraction.ctor (-6) 4).reduced = true →
      Int.gcd (Fraction.ctor (-6) 4).numerator (Fraction.ctor (-6) 4).denominator = 1) ∧
    ((Fraction.ctor (-6) 4).denominator ≠ 0 →
      ∃ (r : Fraction) (g : Int), (Fraction.ctor (-6) 4).reduce = .ok r ∧
        r.toRat = (Fraction.ctor (-6) 4).toRat ∧ r.reduced = true ∧
        Int.gcd r.numerator r.denominator = 1 ∧ r.reduce = .ok r ∧
        g = wrap32 (Int.gcd (Fraction.ctor (-6) 4).numerator
              (Fraction.ctor (-6) 4).denominator) ∧
        (Fraction.ctor (-6) 4).numerator = g * r.numerator ∧
        (Fraction.ctor (-6) 4).denominator = g * r.denominator ∧
        ((Fraction.ctor (-6) 4).gcdFits →
          g = (Int.gcd (Fraction.ctor (-6) 4).numerator
                (Fraction.ctor (-6) 4).denominator : Int))) :=
  Fraction.reduce_canonical (Fraction.ctor (-6) 4)
    (Fraction.Reachable.ctor (-6) 4 (by decide) (by decide))

/-! ## Equality after reduction -/

theorem Fraction.eq_of_reduce {a b ra rb : Fraction} (ha : a.reduce = .ok ra)
    (hb : b.reduce = .ok rb) :
    a.eq b = .ok (decide (ra.numerator = rb.numerator)
                    && decide (ra.denominator = rb.denominator), ra, rb) := by
  unfold Fraction.eq
  rw [hb, ha]

theorem Fraction.toRat_eq_iff {a b : Fraction}
    (ha : 0 < a.denominator) (hb : 0 < b.denominator) :
    a.toRat = b.toRat ↔ a.numerator * b.denominator = b.numerator * a.denominator := by
  have ha' : (a.denominator : ℚ) ≠ 0 := by exact_mod_cast ne_of_gt ha
  have hb' : (b.denominator : ℚ) ≠ 0 := by exact_mod_cast ne_of_gt hb
  unfold Fraction.toRat
  rw [div_eq_div_iff ha' hb']
  constructor
  · intro h
    exact_mod_cast h
  · intro h
    exact_mod_cast h

/-- Coprime fields with positive denominators are determined by the rational. -/
theorem Fraction.fields_eq_iff_toRat {a b : Fraction}
    (ha : 0 < a.denominator) (hb : 0 < b.denominator)
    (hca : Int.gcd a.numerator a.denominator = 1)
    (hcb : Int.gcd b.numerator b.denominator = 1) :
    (a.numerator = b.numerator ∧ a.denominator = b.denominator) ↔ a.toRat = b.toRat := by
  constructor
  · rintro ⟨h1, h2⟩
    unfold Fraction.toRat
    rw [h1, h2]
  · intro h
    exact Rat.div_int_inj ha hb hca hcb h

/-- Claim C10 (equality agrees with zero cross-product) fails as stated: for
`65536/1` and `0/65536`, both with positive denominators, the cross-product
`65536 * 65536` wraps to `0`, so neither `a < b` nor `b < a` holds, yet
`operator==` answers `false`. -/
theorem Fraction.eq_disagrees_with_lt_on_overflow :
    0 < (Fraction.ctor 65536 1).denominator ∧ 0 < (Fraction.ctor 0 65536).denominator ∧
    (Fraction.ctor 65536 1).eq (Fraction.ctor 0 65536)
      = .ok (false, ⟨65536, 1, true⟩, ⟨0, 1, true⟩) ∧
    (Fraction.ctor 65536 1).lt (Fraction.ctor 0 65536) = false ∧
    (Fraction.ctor 0 65536).lt (Fraction.ctor 65536 1) = false := by
  decide

/-- Claim C10, amended: for fractions the program can hold, with positive
denominators, `operator==` reduces both operands without changing the rational
either represents and answers `true` iff the reduced numerators and
denominators are pairwise equal; this is the case iff
`a.num * b.den = b.num * a.den` over the integers; and when the two
comparisons do not overflow, iff neither `a < b` nor `b < a`. -/
theorem Fraction.eq_iff_cross (a b : Fraction) (ha : a.Reachable) (hb : b.Reachable)
    (had : 0 < a.denominator) (hbd : 0 < b.denominator) :
    ∃ (res : Bool) (ra rb : Fraction),
      a.eq b = .ok (res, ra, rb) ∧
      a.reduce = .ok ra ∧ b.reduce = .ok rb ∧
      ra.toRat = a.toRat ∧ rb.toRat = b.toRat ∧
      (res = true ↔ ra.numerator = rb.numerator ∧ ra.denominator = rb.denominator) ∧
      (res = true ↔ a.numerator * b.denominator = b.numerator * a.denominator) ∧
      (a.cmpFits b → b.cmpFits a → (res = true ↔ a.lt b = false ∧ b.lt a = false)) := by
  obtain ⟨ra, hra, hva, hda, -⟩ := Fraction.reduce_pos ha.invariant.1 had
  obtain ⟨rb, hrb, hvb, hdb, -⟩ := Fraction.reduce_pos hb.invariant.1 hbd
  have hca := (Fraction.Reachable.reduce a ra ha hra).invariant.2 (Fraction.reduce_flag hra)
  have hcb := (Fraction.Reachable.reduce b rb hb hrb).invariant.2 (Fraction.reduce_flag hrb)
  have hres : (decide (ra.numerator = rb.numerator) && decide (ra.denominator = rb.denominator))
      = true ↔ ra.numerator = rb.numerator ∧ ra.denominator = rb.denominator := by
    rw [Bool.and_eq_true, decide_eq_true_iff, decide_eq_true_iff]
  have hrat : (ra.numerator = rb.numerator ∧ ra.denominator = rb.denominator)
      ↔ a.toRat = b.toRat := by
    rw [Fraction.fields_eq_iff_toRat hda hdb hca hcb, hva, hvb]
  refine ⟨_, ra, rb, Fraction.eq_of_reduce hra hrb, hra, hrb, hva, hvb, hres, ?_, ?_⟩
  · rw [hres, hrat, Fraction.toRat_eq_iff had hbd]
  · intro h1 h2
    rw [hres, hrat]
    have e1 := (Fraction.lt_iff_toRat h1 had hbd).not
    have e2 := (Fraction.lt_iff_toRat h2 hbd had).not
    rw [Bool.not_eq_true] at e1 e2
    rw [e1, e2]
    constructor
    · intro h
      rw [h]
      exact ⟨lt_irrefl _, lt_irrefl _⟩
    · rintro ⟨h3, h4⟩
      exact le_antisymm (not_lt.mp h4) (not_lt.mp h3)

/-- Witness for claim C10, amended: `2/4` against `3/6`. -/
theorem Fraction.eq_iff_cross_witness :
    ∃ (res : Bool) (ra rb : Fraction),
      (Fraction.ctor 2 4).eq (Fraction.ctor 3 6) = .ok (res, ra, rb) ∧
      (Fraction.ctor 2 4).reduce = .ok ra ∧ (Fraction.ctor 3 6).reduce = .ok rb ∧
      ra.toRat = (Fraction.ctor 2 4).toRat ∧ rb.toRat = (Fraction.ctor 3 6).toRat ∧
      (res = true ↔ ra.numerator = rb.numerator ∧ ra.denominator = rb.denominator) ∧
      (res = true ↔ (Fraction.ctor 2 4).numerator * (Fraction.ctor 3 6).denominator
        = (Fraction.ctor 3 6).numerator * (Fraction.ctor 2 4).denominator) ∧
      ((Fraction.ctor 2 4).cmpFits (Fraction.ctor 3 6) →
        (Fraction.ctor 3 6).cmpFits (Fraction.ctor 2 4) →
        (res = true ↔ (Fraction.ctor 2 4).lt (Fraction.ctor 3 6) = false ∧
          (Fraction.ctor 3 6).lt (Fraction.ctor 2 4) = false)) :=
  Fraction.eq_iff_cross (Fraction.ctor 2 4) (Fraction.ctor 3 6)
    (Fraction.Reachable.ctor 2 4 (by decide) (by decide))
    (Fraction.Reachable.ctor 3 6 (by decide) (by decide)) (by decide) (by decide)

/-! ## The aggregate computation `Result::compute` -/

theorem Result.foldl_loadGenerator (gens : List Generator) :
    ∀ r : Result,
      (gens.foldl Result.loadGenerator r).m_generators = r.m_generators ++ gens ∧
      (gens.foldl Result.loadGenerator r).m_times = r.m_times ∧
      (gens.foldl Result.loadGenerator r).m_controlTimes = r.m_controlTimes ∧
      (gens.foldl Result.loadGenerator r).m_intervalStart = r.m_intervalStart ∧
      (gens.foldl Result.loadGenerator r).m_intervalEnd = r.m_intervalEnd := by
  induction gens with
  | nil =>
    intro r
    exact ⟨(List.append_nil _).symm, rfl, rfl, rfl, rfl⟩
  | cons g gs ih =>
    intro r
    obtain ⟨h1, h2, h3, h4, h5⟩ := ih (r.loadGenerator g)
    refine ⟨?_, h2, h3, h4, h5⟩
    rw [List.foldl_cons, h1]
    show (r.m_generators ++ [g]) ++ gs = r.m_generators ++ g :: gs
    rw [List.append_assoc]
    rfl

theorem Result.computeLoop_cons (fuel : Nat) (g : Generator) (rest : List Generator)
    (set vector : List Fraction) :
    Result.computeLoop fuel (g :: rest) set vector
      = ((g.assignInterval 0 12).generate fuel set vector).bind fun sv =>
          (Result.computeLoop fuel rest sv.1 sv.2).bind fun out =>
            .ok (g.assignInterval 0 12 :: out.1, out.2.1, out.2.2) := by
  rw [Result.computeLoop]

/-- Inversion of a successful run of the loop of `compute` on a nonempty list
of generators. -/
theorem Result.computeLoop_cons_ok {fuel : Nat} {g : Generator} {rest : List Generator}
    {set vector : List Fraction} {out : List Generator × List Fraction × List Fraction}
    (h : Result.computeLoop fuel (g :: rest) set vector = .ok out) :
    ∃ (sv : List Fraction × List Fraction) (out' : List Generator × List Fraction × List Fraction),
      (g.assignInterval 0 12).generate fuel set vector = .ok sv ∧
      Result.computeLoop fuel rest sv.1 sv.2 = .ok out' ∧
      out = (g.assignInterval 0 12 :: out'.1, out'.2.1, out'.2.2) := by
  rw [Result.computeLoop_cons] at h
  cases h1 : (g.assignInterval 0 12).generate fuel set vector with
  | error e =>
    rw [h1] at h
    cases h
  | ok sv =>
    rw [h1] at h
    simp only [Except.bind] at h
    cases h2 : Result.computeLoop fuel rest sv.1 sv.2 with
    | error e =>
      rw [h2] at h
      cases h
    | ok out' =>
      rw [h2] at h
      simp only [Except.bind] at h
      injection h with h
      exact ⟨sv, out', rfl, h2, h.symm⟩

theorem Result.computeLoop_generators (fuel : Nat) :
    ∀ (gens : List Generator) (set vector : List Fraction)
      (out : List Generator × List Fraction × List Fraction),
      Result.computeLoop fuel gens set vector = .ok out →
      out.1 = gens.map (fun g => g.assignInterval 0 12) := by
  intro gens
  induction gens with
  | nil =>
    intro set vector out h
    rw [Result.computeLoop] at h
    injection h with h
    rw [← h]
    rfl
  | cons g rest ih =>
    intro set vector out h
    obtain ⟨sv, out', -, h2, rfl⟩ := Result.computeLoop_cons_ok h
    rw [List.map_cons, ← ih sv.1 sv.2 out' h2]

/-- Inversion of a successful `compute`. -/
theorem Result.compute_ok {r r' : Result} {fuel : Nat} (h : r.compute fuel = .ok r') :
    ∃ out : List Generator × List Fraction × List Fraction,
      Result.computeLoop fuel r.m_generators r.m_times r.m_controlTimes = .ok out ∧
      r' = { r with m_generators := out.1, m_times := out.2.1, m_controlTimes := out.2.2 } := by
  unfold Result.compute at h
  cases h1 : Result.computeLoop fuel r.m_generators r.m_times r.m_controlTimes with
  | error e =>
    rw [h1] at h
    cases h
  | ok out =>
    rw [h1] at h
    simp only [Except.bind] at h
    injection h with h
    exact ⟨out, rfl, h.symm⟩

/-- Claim C20. `compute` never reads the interval given to the constructor:
for all `start`, `end` and every list of loaded generators, a run of
`Result(start, end).compute()` and a run of `Result(0, 12).compute()` either
both fail in the same way or both succeed with the same set and the same
vector, and after a successful run every generator holds the interval
`(0/1, 12/1)`. -/
theorem Result.compute_ignores_interval (start end_ : Int) (gens : List Generator)
    (fuel : Nat) :
    ((gens.foldl Result.loadGenerator (Result.ctor start end_)).compute fuel).map
        (fun r => (r.m_times, r.m_controlTimes))
      = ((gens.foldl Result.loadGenerator (Result.ctor 0 12)).compute fuel).map
          (fun r => (r.m_times, r.m_controlTimes)) ∧
    ∀ r' : Result,
      (gens.foldl Result.loadGenerator (Result.ctor start end_)).compute fuel = .ok r' →
      ∀ g ∈ r'.m_generators, g.m_interval = (Fraction.ctor 0 1, Fraction.ctor 12 1) := by
  obtain ⟨a1, a2, a3, -, -⟩ := Result.foldl_loadGenerator gens (Result.ctor start end_)
  obtain ⟨b1, b2, b3, -, -⟩ := Result.foldl_loadGenerator gens (Result.ctor 0 12)
  constructor
  · unfold Result.compute
    rw [a1, a2, a3, b1, b2, b3]
    show (Except.bind (Result.computeLoop fuel ([] ++ gens) [] []) _).map _
      = (Except.bind (Result.computeLoop fuel ([] ++ gens) [] []) _).map _
    cases Result.computeLoop fuel ([] ++ gens) [] [] with
    | error e => rfl
    | ok out => rfl
  · intro r' h g hg
    obtain ⟨out, hloop, rfl⟩ := Result.compute_ok h
    have hgen := Result.computeLoop_generators fuel _ _ _ _ hloop
    simp only at hg
    rw [hgen] at hg
    obtain ⟨g0, -, rfl⟩ := List.mem_map.mp hg
    rfl

/-! ## Overflow, zero denominators and the ordering -/

theorem wrap32_add_wrap32 (x y : Int) : wrap32 (wrap32 x + wrap32 y) = wrap32 (x + y) := by
  unfold wrap32
  omega

theorem wrap32_sub_wrap32 (x y : Int) : wrap32 (wrap32 x - wrap32 y) = wrap32 (x - y) := by
  unfold wrap32
  omega

/-- Claim C15 (overflow is detected) fails as stated: `3/65536 + 5/65536`
returns the denominator `0` instead of `4294967296`, and `65536/1 < 65537/65536`
answers `true` although the first value is the greater one; neither operation
has any way to signal an error. -/
theorem Fraction.overflow_wraps_silently :
    (Fraction.ctor 3 65536).add (Fraction.ctor 5 65536) = ⟨524288, 0, false⟩ ∧
    (Fraction.ctor 3 65536).denominator * (Fraction.ctor 5 65536).denominator = 4294967296 ∧
    (Fraction.ctor 65536 1).lt (Fraction.ctor 65537 65536) = true ∧
    (Fraction.ctor 65536 1).gt (Fraction.ctor 65537 65536) = false ∧
    (Fraction.ctor 65537 65536).toRat < (Fraction.ctor 65536 1).toRat := by
  refine ⟨by decide, by decide, by decide, by decide, ?_⟩
  norm_num [Fraction.toRat, Fraction.ctor]

/-- Claim C15, amended: the addition and the comparisons never signal an
error; they return the result of the integer computation reduced modulo
`2^32` into `int32_t`, which is the result of the exact computation whenever
every intermediate product, sum and difference fits `int32_t`. -/
theorem Fraction.arithmetic_wraps (a b : Fraction) :
    (a.add b).numerator
      = wrap32 (a.numerator * b.denominator + b.numerator * a.denominator) ∧
    (a.add b).denominator = wrap32 (a.denominator * b.denominator) ∧
    a.lt b = decide (wrap32 (a.numerator * b.denominator - a.denominator * b.numerator) < 0) ∧
    a.gt b = decide (wrap32 (a.numerator * b.denominator - a.denominator * b.numerator) > 0) ∧
    (a.addFits b →
      (a.add b).numerator = a.numerator * b.denominator + b.numerator * a.denominator ∧
      (a.add b).denominator = a.denominator * b.denominator) ∧
    (a.cmpFits b →
      a.lt b = decide (a.numerator * b.denominator - a.denominator * b.numerator < 0) ∧
      a.gt b = decide (a.numerator * b.denominator - a.denominator * b.numerator > 0)) := by
  refine ⟨?_, rfl, ?_, ?_, ?_, ?_⟩
  · exact wrap32_add_wrap32 _ _
  · unfold Fraction.lt
    simp only [wrap32_sub_wrap32]
  · unfold Fraction.gt
    simp only [wrap32_sub_wrap32]
  · intro h
    rw [Fraction.add_of_fits h]
    exact ⟨rfl, rfl⟩
  · intro h
    exact ⟨Fraction.lt_of_fits h, Fraction.gt_of_fits h⟩

/-- Claim C16 (zero denominator is rejected) fails as stated: the constructor
accepts the denominator `0`, and the fraction it builds is one the program can
hold. -/
theorem Fraction.ctor_accepts_zero_denominator :
    (Fraction.ctor 1 0).denominator = 0 ∧ (Fraction.ctor 1 0).Reachable :=
  ⟨rfl, Fraction.Reachable.ctor 1 0 (by decide) (by decide)⟩

/-- Claim C16, amended: the constructor stores any denominator, zero
included. A fraction constructed with a nonzero denominator has a nonzero
denominator; so has the sum `operator+` returns for two fractions with nonzero
denominators whose denominator product is an `int32_t` value; and `reduce`
succeeds on a fraction with `int32_t` fields and a nonzero denominator and
leaves a nonzero denominator. -/
theorem Fraction.denominator_ne_zero_preserved :
    (∀ n d : Int, (Fraction.ctor n d).denominator = d) ∧
    (∀ a b : Fraction, a.denominator ≠ 0 → b.denominator ≠ 0 →
      fits32 (a.denominator * b.denominator) → (a.add b).denominator ≠ 0) ∧
    (∀ f : Fraction, f.valid → f.denominator ≠ 0 →
      ∃ r : Fraction, f.reduce = .ok r ∧ r.denominator ≠ 0) := by
  refine ⟨fun _ _ => rfl, ?_, ?_⟩
  · intro a b ha hb h
    show wrap32 (a.denominator * b.denominator) ≠ 0
    rw [wrap32_of_fits h]
    exact Int.mul_ne_zero ha hb
  · intro f hv hd
    cases hfl : f.reduced
    · obtain ⟨r, hr, -, -, hden⟩ := Fraction.reduce_value hv hfl hd
      refine ⟨r, hr, ?_⟩
      intro h0
      rw [h0, Int.mul_zero] at hden
      exact hd hden
    · exact ⟨f, Fraction.reduce_of_reduced hfl, hd⟩

theorem Fraction.lt_self (a : Fraction) : a.lt a = false := by
  unfold Fraction.lt
  rw [wrap32_sub_wrap32, Int.mul_comm a.numerator a.denominator, Int.sub_self]
  decide

/-- Claim C18 (strict weak order) fails as stated: for `2147483000/1` and
`-648/1`, both with positive denominators, the cross-products fit `int32_t`
but their difference `2147483648` does not, and `operator<` answers `true` in
both directions. -/
theorem Fraction.lt_not_asymmetric_on_overflow :
    0 < (Fraction.ctor 2147483000 1).denominator ∧
    0 < (Fraction.ctor (-648) 1).denominator ∧
    (Fraction.ctor 2147483000 1).crossFits (Fraction.ctor (-648) 1) ∧
    (Fraction.ctor (-648) 1).crossFits (Fraction.ctor 2147483000 1) ∧
    (Fraction.ctor 2147483000 1).lt (Fraction.ctor (-648) 1) = true ∧
    (Fraction.ctor (-648) 1).lt (Fraction.ctor 2147483000 1) = true := by
  decide

/-- Claim C18, amended: on fractions with positive denominators whose
cross-products and the differences of the cross-products fit `int32_t`,
`operator<` is irreflexive, asymmetric and transitive, and incomparability
(neither `a < b` nor `b < a`) is transitive and coincides with equality of the
represented rationals; for `1/(-2)` and `1/1` `operator<` disagrees with the
order of the represented rationals. -/
theorem Fraction.lt_strict_weak_order (a b c : Fraction)
    (ha : 0 < a.denominator) (hb : 0 < b.denominator) (hc : 0 < c.denominator)
    (hab : a.cmpFits b) (hba : b.cmpFits a) (hbc : b.cmpFits c) (hcb : c.cmpFits b)
    (hac : a.cmpFits c) (hca : c.cmpFits a) :
    a.lt a = false ∧
    (a.lt b = true → b.lt a = false) ∧
    (a.lt b = true → b.lt c = true → a.lt c = true) ∧
    ((a.lt b = false ∧ b.lt a = false) ↔ a.toRat = b.toRat) ∧
    (a.lt b = false ∧ b.lt a = false → b.lt c = false ∧ c.lt b = false →
      a.lt c = false ∧ c.lt a = false) ∧
    (Fraction.ctor 1 (-2)).toRat < (Fraction.ctor 1 1).toRat ∧
    (Fraction.ctor 1 (-2)).lt (Fraction.ctor 1 1) = false := by
  have eab := Fraction.lt_iff_toRat hab ha hb
  have eba := Fraction.lt_iff_toRat hba hb ha
  have ebc := Fraction.lt_iff_toRat hbc hb hc
  have ecb := Fraction.lt_iff_toRat hcb hc hb
  have eac := Fraction.lt_iff_toRat hac ha hc
  have eca := Fraction.lt_iff_toRat hca hc ha
  have nab := eab.not
  have nba := eba.not
  have nbc := ebc.not
  have ncb := ecb.not
  have nac := eac.not
  have nca := eca.not
  rw [Bool.not_eq_true] at nab nba nbc ncb nac nca
  refine ⟨Fraction.lt_self a, ?_, ?_, ?_, ?_, ?_, by decide⟩
  · intro h
    rw [nba]
    exact not_lt.mpr (le_of_lt (eab.mp h))
  · intro h1 h2
    exact eac.mpr (lt_trans (eab.mp h1) (ebc.mp h2))
  · rw [nab, nba]
    constructor
    · rintro ⟨h1, h2⟩
      exact le_antisymm (not_lt.mp h2) (not_lt.mp h1)
    · intro h
      rw [h]
      exact ⟨lt_irrefl _, lt_irrefl _⟩
  · rw [nab, nba, nbc, ncb, nac, nca]
    rintro ⟨h1, h2⟩ ⟨h3, h4⟩
    have e1 : a.toRat = b.toRat := le_antisymm (not_lt.mp h2) (not_lt.mp h1)
    have e2 : b.toRat = c.toRat := le_antisymm (not_lt.mp h4) (not_lt.mp h3)
    rw [e1, e2]
    exact ⟨lt_irrefl _, lt_irrefl _⟩
  · norm_num [Fraction.toRat, Fraction.ctor]

/-- Witness for claim C18, amended: `1/2`, `2/4` and `2/3`. -/
theorem Fraction.lt_strict_weak_order_witness :
    (Fraction.ctor 1 2).lt (Fraction.ctor 1 2) = false ∧
    ((Fraction.ctor 1 2).lt (Fraction.ctor 2 4) = true →
      (Fraction.ctor 2 4).lt (Fraction.ctor 1 2) = false) ∧
    ((Fraction.ctor 1 2).lt (Fraction.ctor 2 4) = true →
      (Fraction.ctor 2 4).lt (Fraction.ctor 2 3) = true →
      (Fraction.ctor 1 2).lt (Fraction.ctor 2 3) = true) ∧
    (((Fraction.ctor 1 2).lt (Fraction.ctor 2 4) = false ∧
        (Fraction.ctor 2 4).lt (Fraction.ctor 1 2) = false)
      ↔ (Fraction.ctor 1 2).toRat = (Fraction.ctor 2 4).toRat) ∧
    ((Fraction.ctor 1 2).lt (Fraction.ctor 2 4) = false ∧
        (Fraction.ctor 2 4).lt (Fraction.ctor 1 2) = false →
      (Fraction.ctor 2 4).lt (Fraction.ctor 2 3) = false ∧
        (Fraction.ctor 2 3).lt (Fraction.ctor 2 4) = false →
      (Fraction.ctor 1 2).lt (Fraction.ctor 2 3) = false ∧
        (Fraction.ctor 2 3).lt (Fraction.ctor 1 2) = false) ∧
    (Fraction.ctor 1 (-2)).toRat < (Fraction.ctor 1 1).toRat ∧
    (Fraction.ctor 1 (-2)).lt (Fraction.ctor 1 1) = false :=
  Fraction.lt_strict_weak_order (Fraction.ctor 1 2) (Fraction.ctor 2 4) (Fraction.ctor 2 3)
    (by decide) (by decide) (by decide) (by decide) (by decide) (by decide) (by decide)
    (by decide) (by decide)

/-! ## Termination of `generate` -/

/-- A fixed point of the addition below the lower bound keeps the positioning
loop running for every amount of fuel. -/
theorem Generator.positionLoop_fixed (g : Generator) (iter : Fraction)
    (hfix : iter.add g.m_period = iter) (hlt : iter.lt g.m_interval.1 = true) :
    ∀ fuel : Nat, g.positionLoop fuel iter = .error Fault.outOfFuel := by
  intro fuel
  induction fuel with
  | zero => rfl
  | succ n ih =>
    rw [Generator.positionLoop, if_pos hlt, hfix]
    exact ih

/-- Claim C14 (termination) fails as stated: with shift `-1/65536`, period
`65536/1` (positive, positive denominators) and the interval `(0, 12)`, the
product `65536 * 65536` wraps to `0`, so `iter + period` is `iter` again, the
positioning loop never leaves `iter < lowerBound`, and `generate` returns for
no amount of fuel. -/
theorem Generator.generate_never_returns :
    0 < (Fraction.ctor 65536 1).numerator ∧ 0 < (Fraction.ctor 65536 1).denominator ∧
    0 < (Fraction.ctor (-1) 65536).denominator ∧
    ¬ ∃ (fuel : Nat) (r : List Fraction × List Fraction),
      ((Generator.ctor (Fraction.ctor (-1) 65536) (Fraction.ctor 65536 1)).assignInterval
          0 12).generate fuel [] [] = .ok r := by
  refine ⟨by decide, by decide, by decide, ?_⟩
  rintro ⟨fuel, r, h⟩
  unfold Generator.generate at h
  rw [Generator.positionLoop_fixed _ _ (by decide) (by decide) fuel] at h
  cases h

/-- Claim C14, amended: for a generator with period > 0 and positive
denominators, on a run in which no `int32_t` operation overflows (the
positioning loop adds the period without reducing, so this limits how many
periods below the lower bound the shift may lie), `generate` returns once the
fuel exceeds the number of periods from the shift to the bounds, and the
number of appended terms is at most
`max 0 ((upperBound - lowerBound) / period) + 1`. -/
theorem Generator.generate_terminates_bounded (g : Generator) (n : Nat)
    (set vector : List Fraction)
    (hv : g.m_shift.valid) (hsd : 0 < g.m_shift.denominator)
    (hpd : 0 < g.m_period.denominator) (hpn : 0 < g.m_period.numerator)
    (hld : 0 < g.m_interval.1.denominator) (hud : 0 < g.m_interval.2.denominator)
    (hfits : g.generateFits (n + 1) = true)
    (hlo : g.m_interval.1.toRat ≤ g.m_shift.toRat + (n : ℚ) * g.m_period.toRat)
    (hhi : g.m_interval.2.toRat ≤ g.m_shift.toRat + (n : ℚ) * g.m_period.toRat) :
    ∃ (set' out : List Fraction),
      g.generate (n + 1) set vector = .ok (set', vector ++ out) ∧
      (out.length : ℚ)
        ≤ max 0 ((g.m_interval.2.toRat - g.m_interval.1.toRat) / g.m_period.toRat) + 1 := by
  have hp : (0 : ℚ) < g.m_period.toRat := by
    unfold Fraction.toRat
    have h1 : (0 : ℚ) < g.m_period.numerator := by exact_mod_cast hpn
    have h2 : (0 : ℚ) < g.m_period.denominator := by exact_mod_cast hpd
    exact div_pos h1 h2
  obtain ⟨k, out, hrun, hlen, -, -, hge, hin, -, -⟩ :=
    g.generate_run n set vector hv hsd hpd hpn hld hud hfits hlo hhi
  refine ⟨_, out, hrun, ?_⟩
  rcases Nat.lt_or_ge 1 out.length with h2 | h2
  · have hlast := hin (out.length - 1) (by omega) (by omega)
    have hcast : ((k + (out.length - 1) : Nat) : ℚ) = (k : ℚ) + (out.length : ℚ) - 1 := by
      have : k + (out.length - 1) + 1 = k + out.length := by omega
      have h' : ((k + (out.length - 1) + 1 : Nat) : ℚ) = ((k + out.length : Nat) : ℚ) := by
        rw [this]
      push_cast at h' ⊢
      linarith
    rw [hcast] at hlast
    have hdiff : ((out.length : ℚ) - 1) * g.m_period.toRat
        < g.m_interval.2.toRat - g.m_interval.1.toRat := by
      nlinarith
    have hq : (out.length : ℚ) - 1
        < (g.m_interval.2.toRat - g.m_interval.1.toRat) / g.m_period.toRat := by
      rw [lt_div_iff₀ hp]
      exact hdiff
    have := le_max_right (0 : ℚ)
      ((g.m_interval.2.toRat - g.m_interval.1.toRat) / g.m_period.toRat)
    linarith
  · have h1 : out.length = 1 := by omega
    rw [h1]
    have := le_max_left (0 : ℚ)
      ((g.m_interval.2.toRat - g.m_interval.1.toRat) / g.m_period.toRat)
    push_cast
    linarith

/-- Witness for claim C14, amended: shift `-7/2`, six periods of `3/4` below
the lower bound of the interval `(1, 7)`. -/
theorem Generator.generate_terminates_bounded_witness :
    ∃ (set' out : List Fraction),
      ((Generator.ctor (Fraction.ctor (-7) 2) (Fraction.ctor 3 4)).assignInterval
          1 7).generate (14 + 1) [] [] = .ok (set', [] ++ out) ∧
      (out.length : ℚ)
        ≤ max 0 ((((Generator.ctor (Fraction.ctor (-7) 2) (Fraction.ctor 3 4)).assignInterval
              1 7).m_interval.2.toRat
            - ((Generator.ctor (Fraction.ctor (-7) 2) (Fraction.ctor 3 4)).assignInterval
              1 7).m_interval.1.toRat)
            / ((Generator.ctor (Fraction.ctor (-7) 2) (Fraction.ctor 3 4)).assignInterval
              1 7).m_period.toRat) + 1 :=
  Generator.generate_terminates_bounded
    ((Generator.ctor (Fraction.ctor (-7) 2) (Fraction.ctor 3 4)).assignInterval 1 7)
    14 [] [] (by decide) (by decide) (by decide) (by decide) (by decide) (by decide)
    (by decide)
    (by norm_num [Fraction.toRat, Fraction.ctor, Generator.ctor, Generator.assignInterval])
    (by norm_num [Fraction.toRat, Fraction.ctor, Generator.ctor, Generator.assignInterval])

/-! ## The concrete aggregate scenario -/

/-- Claim C13 (concrete aggregate scenario), evaluated on the code:
`Result(0, 5)` loaded with two generators of shift `0/1` and period `1/1`
ends, after `compute`, with 24 terms in the vector and 12 in the set
(`getResult`), and the duplicate report lists the twelve values `0/1` to
`11/1`: every generator runs over `(0, 12)` and appends its lower bound. -/
theorem Result.compute_scenario_two_generators :
    ((((Result.ctor 0 5).loadGenerator
          (Generator.ctor (Fraction.ctor 0 1) (Fraction.ctor 1 1))).loadGenerator
          (Generator.ctor (Fraction.ctor 0 1) (Fraction.ctor 1 1))).compute 13).map
        (fun r => (r.m_controlTimes.length, r.getResult, r.printDuplicates (fun _ => 0)))
      = .ok (24, 12,
          [⟨0, 1, true⟩, ⟨1, 1, true⟩, ⟨2, 1, true⟩, ⟨3, 1, true⟩, ⟨4, 1, true⟩, ⟨5, 1, true⟩,
           ⟨6, 1, true⟩, ⟨7, 1, true⟩, ⟨8, 1, true⟩, ⟨9, 1, true⟩, ⟨10, 1, true⟩,
           ⟨11, 1, true⟩]) := by
  decide

/-! ## The deduplicating set -/

theorem Fraction.lt_iff_of_exactOn {l : List Fraction} (h : Fraction.exactOn l)
    {a b : Fraction} (ha : a ∈ l) (hb : b ∈ l) : a.lt b = true ↔ a.toRat < b.toRat :=
  Fraction.lt_iff_toRat (h.2 a ha b hb) (h.1 a ha) (h.1 b hb)

theorem Fraction.exactOn_of_subset {l l' : List Fraction} (h : Fraction.exactOn l)
    (hs : ∀ x ∈ l', x ∈ l) : Fraction.exactOn l' :=
  ⟨fun x hx => h.1 x (hs x hx), fun a ha b hb => h.2 a (hs a ha) b (hs b hb)⟩

theorem setInsert_length_le (x : Fraction) (s : List Fraction) :
    (setInsert x s).length ≤ s.length + 1 := by
  induction s with
  | nil => exact le_refl _
  | cons y ys ih =>
    rw [setInsert]
    split
    · exact le_refl _
    · split
      · rw [List.length_cons, List.length_cons]
        omega
      · omega

theorem foldl_setInsert_length_le (out : List Fraction) :
    ∀ s : List Fraction,
      (out.foldl (fun s x => setInsert x s) s).length ≤ s.length + out.length := by
  induction out with
  | nil =>
    intro s
    exact le_refl _
  | cons x xs ih =>
    intro s
    rw [List.foldl_cons, List.length_cons]
    have h1 := ih (setInsert x s)
    have h2 := setInsert_length_le x s
    omega

theorem setInsert_mem (x : Fraction) (s : List Fraction) :
    ∀ y ∈ setInsert x s, y = x ∨ y ∈ s := by
  induction s with
  | nil =>
    intro y hy
    rw [setInsert, List.mem_singleton] at hy
    exact Or.inl hy
  | cons z zs ih =>
    intro y hy
    rw [setInsert] at hy
    split at hy
    · rcases List.mem_cons.mp hy with h | h
      · exact Or.inl h
      · exact Or.inr h
    · split at hy
      · rcases List.mem_cons.mp hy with h | h
        · exact Or.inr (h ▸ List.mem_cons_self _ _)
        · rcases ih y h with h' | h'
          · exact Or.inl h'
          · exact Or.inr (List.mem_cons_of_mem _ h')
      · exact Or.inr hy

/-- Insertion into a set that is strictly ascending by value, with exact
comparisons: the result is strictly ascending and holds the old values and
the value of the inserted fraction. -/
theorem setInsert_sorted (x : Fraction) (s : List Fraction)
    (hex : Fraction.exactOn (x :: s))
    (hs : s.Pairwise (fun a b => a.toRat < b.toRat)) :
    (setInsert x s).Pairwise (fun a b => a.toRat < b.toRat) ∧
    ∀ q : ℚ, q ∈ (setInsert x s).map Fraction.toRat ↔ q = x.toRat ∨ q ∈ s.map Fraction.toRat := by
  induction s with
  | nil =>
    constructor
    · rw [setInsert]
      exact List.pairwise_singleton _ _
    · intro q
      rw [setInsert]
      simp only [List.map_cons, List.map_nil, List.mem_singleton, List.not_mem_nil, or_false]
  | cons y ys ih =>
    have hx : x ∈ x :: y :: ys := List.mem_cons_self _ _
    have hy : y ∈ x :: y :: ys := List.mem_cons_of_mem _ (List.mem_cons_self _ _)
    have hys : ys.Pairwise (fun a b => a.toRat < b.toRat) := (List.pairwise_cons.mp hs).2
    have hyall : ∀ z ∈ ys, y.toRat < z.toRat := (List.pairwise_cons.mp hs).1
    have hex' : Fraction.exactOn (x :: ys) :=
      Fraction.exactOn_of_subset hex (fun z hz => by
        rcases List.mem_cons.mp hz with h | h
        · exact h ▸ hx
        · exact List.mem_cons_of_mem _ (List.mem_cons_of_mem _ h))
    obtain ⟨ih1, ih2⟩ := ih hex' hys
    rw [setInsert]
    by_cases h1 : x.lt y = true
    · rw [if_pos h1]
      have hxy := (Fraction.lt_iff_of_exactOn hex hx hy).mp h1
      constructor
      · refine List.pairwise_cons.mpr ⟨?_, hs⟩
        intro z hz
        rcases List.mem_cons.mp hz with h | h
        · rw [h]
          exact hxy
        · exact lt_trans hxy (hyall z h)
      · intro q
        simp only [List.map_cons, List.mem_cons]
    · rw [if_neg h1]
      have hnxy := (Fraction.lt_iff_of_exactOn hex hx hy).not.mp h1
      by_cases h2 : y.lt x = true
      · rw [if_pos h2]
        have hyx := (Fraction.lt_iff_of_exactOn hex hy hx).mp h2
        constructor
        · refine List.pairwise_cons.mpr ⟨?_, ih1⟩
          intro z hz
          rcases setInsert_mem x ys z hz with h | h
          · rw [h]
            exact hyx
          · exact hyall z h
        · intro q
          simp only [List.map_cons, List.mem_cons, ih2 q]
          constructor
          · rintro (h | h | h)
            · exact Or.inr (Or.inl h)
            · exact Or.inl h
            · exact Or.inr (Or.inr h)
          · rintro (h | h | h)
            · exact Or.inr (Or.inl h)
            · exact Or.inl h
            · exact Or.inr (Or.inr h)
      · rw [if_neg h2]
        have hnyx := (Fraction.lt_iff_of_exactOn hex hy hx).not.mp h2
        have heq : x.toRat = y.toRat := le_antisymm (not_lt.mp hnyx) (not_lt.mp hnxy)
        refine ⟨hs, ?_⟩
        intro q
        simp only [List.map_cons, List.mem_cons, heq]
        constructor
        · intro h
          exact Or.inr h
        · rintro (h | h)
          · exact Or.inl h
          · exact h

/-- Inserting a list of fractions into a strictly ascending set, with exact
comparisons throughout: the result is strictly ascending and its values are
the old values and the values of the inserted fractions. -/
theorem foldl_setInsert_sorted (out : List Fraction) :
    ∀ s : List Fraction, Fraction.exactOn (s ++ out) →
      s.Pairwise (fun a b => a.toRat < b.toRat) →
      (out.foldl (fun s x => setInsert x s) s).Pairwise (fun a b => a.toRat < b.toRat) ∧
      ∀ q : ℚ, q ∈ (out.foldl (fun s x => setInsert x s) s).map Fraction.toRat
        ↔ q ∈ s.map Fraction.toRat ∨ q ∈ out.map Fraction.toRat := by
  induction out with
  | nil =>
    intro s _ hs
    refine ⟨hs, fun q => ?_⟩
    simp only [List.foldl_nil, List.map_nil, List.not_mem_nil, or_false]
  | cons x xs ih =>
    intro s hex hs
    have hex1 : Fraction.exactOn (x :: s) :=
      Fraction.exactOn_of_subset hex (fun z hz => by
        rcases List.mem_cons.mp hz with h | h
        · exact h ▸ List.mem_append_right _ (List.mem_cons_self _ _)
        · exact List.mem_append_left _ h)
    obtain ⟨h1, h2⟩ := setInsert_sorted x s hex1 hs
    have hex2 : Fraction.exactOn (setInsert x s ++ xs) :=
      Fraction.exactOn_of_subset hex (fun z hz => by
        rcases List.mem_append.mp hz with h | h
        · rcases setInsert_mem x s z h with h' | h'
          · exact h' ▸ List.mem_append_right _ (List.mem_cons_self _ _)
          · exact List.mem_append_left _ h'
        · exact List.mem_append_right _ (List.mem_cons_of_mem _ h))
    obtain ⟨h3, h4⟩ := ih (setInsert x s) hex2 h1
    rw [List.foldl_cons]
    refine ⟨h3, fun q => ?_⟩
    rw [h4 q, h2 q]
    simp only [List.map_cons, List.mem_cons]
    constructor
    · rintro ((h | h) | h)
      · exact Or.inr (Or.inl h)
      · exact Or.inl h
      · exact Or.inr (Or.inr h)
    · rintro (h | h | h)
      · exact Or.inl (Or.inr h)
      · exact Or.inl (Or.inl h)
      · exact Or.inr h

/-- The size of the set after inserting `out` into the empty set, with exact
comparisons, is the number of distinct values among `out`. -/
theorem foldl_setInsert_length (out : List Fraction) (hex : Fraction.exactOn out) :
    (out.foldl (fun s x => setInsert x s) []).length
      = (out.map Fraction.toRat).toFinset.card := by
  obtain ⟨h1, h2⟩ := foldl_setInsert_sorted out [] (by rw [List.nil_append]; exact hex)
    List.Pairwise.nil
  have hnd : ((out.foldl (fun s x => setInsert x s) []).map Fraction.toRat).Nodup := by
    rw [List.Nodup, List.pairwise_map]
    exact h1.imp (fun h => ne_of_lt h)
  have hfin : ((out.foldl (fun s x => setInsert x s) []).map Fraction.toRat).toFinset
      = (out.map Fraction.toRat).toFinset := by
    ext q
    rw [List.mem_toFinset, List.mem_toFinset, h2 q]
    simp only [List.map_nil, List.not_mem_nil, false_or]
  rw [← hfin, List.toFinset_card_of_nodup hnd, List.length_map]

theorem List.toFinset_card_eq_length_iff_nodup {α : Type} [DecidableEq α] (l : List α) :
    l.toFinset.card = l.length ↔ l.Nodup := by
  constructor
  · intro h
    rw [List.card_toFinset] at h
    have hsub := List.dedup_sublist l
    rw [← hsub.eq_of_length h]
    exact List.nodup_dedup l
  · intro h
    exact List.toFinset_card_of_nodup h

/-- Shape of a successful run of the emission loop, with or without overflow:
some terms are appended to the vector and inserted, in the same order, into
the set. -/
theorem Generator.emitLoop_shape (g : Generator) :
    ∀ (fuel : Nat) (iter : Fraction) (set vector : List Fraction)
      (r : List Fraction × List Fraction),
      g.emitLoop fuel iter set vector = .ok r →
      ∃ out : List Fraction,
        r = (out.foldl (fun s x => setInsert x s) set, vector ++ out) := by
  intro fuel
  induction fuel with
  | zero =>
    intro iter set vector r h
    rw [Generator.emitLoop] at h
    cases h
  | succ n ih =>
    intro iter set vector r h
    cases hr : (iter.add g.m_period).reduce with
    | error e =>
      rw [Generator.emitLoop, hr] at h
      cases h
    | ok next =>
      rw [Generator.emitLoop_succ g n iter next set vector hr] at h
      by_cases hlt : next.lt g.m_interval.2 = true
      · rw [if_pos hlt] at h
        obtain ⟨out, hout⟩ := ih next _ _ r h
        refine ⟨iter :: out, ?_⟩
        rw [hout, List.foldl_cons, List.append_assoc]
        rfl
      · rw [if_neg hlt] at h
        injection h with h
        exact ⟨[iter], h.symm⟩

theorem Generator.generate_shape (g : Generator) (fuel : Nat) (set vector : List Fraction)
    (r : List Fraction × List Fraction) (h : g.generate fuel set vector = .ok r) :
    ∃ out : List Fraction,
      r = (out.foldl (fun s x => setInsert x s) set, vector ++ out) := by
  unfold Generator.generate at h
  cases h1 : g.positionLoop fuel g.m_shift with
  | error e =>
    rw [h1] at h
    cases h
  | ok it =>
    rw [h1] at h
    simp only [Except.bind] at h
    cases h2 : it.reduce with
    | error e =>
      rw [h2] at h
      cases h
    | ok first =>
      rw [h2] at h
      simp only [Except.bind] at h
      exact g.emitLoop_shape fuel first set vector r h

theorem Result.computeLoop_shape (fuel : Nat) :
    ∀ (gens : List Generator) (set vector : List Fraction)
      (r : List Generator × List Fraction × List Fraction),
      Result.computeLoop fuel gens set vector = .ok r →
      ∃ out : List Fraction,
        r.2 = (out.foldl (fun s x => setInsert x s) set, vector ++ out) := by
  intro gens
  induction gens with
  | nil =>
    intro set vector r h
    rw [Result.computeLoop] at h
    injection h with h
    refine ⟨[], ?_⟩
    rw [← h, List.append_nil]
    rfl
  | cons g rest ih =>
    intro set vector r h
    obtain ⟨sv, out', h1, h2, rfl⟩ := Result.computeLoop_cons_ok h
    obtain ⟨o1, ho1⟩ := Generator.generate_shape _ fuel set vector sv h1
    obtain ⟨o2, ho2⟩ := ih sv.1 sv.2 out' h2
    refine ⟨o1 ++ o2, ?_⟩
    show out'.2 = _
    rw [ho2, ho1, List.foldl_append, List.append_assoc]

/-- Shape of a successful `compute` on a `Result` built by the constructor
and `loadGenerator`: the set is the vector inserted element by element into
the empty set. -/
theorem Result.compute_shape (start end_ : Int) (gens : List Generator) (fuel : Nat)
    (r' : Result)
    (h : (gens.foldl Result.loadGenerator (Result.ctor start end_)).compute fuel = .ok r') :
    r'.m_times = r'.m_controlTimes.foldl (fun s x => setInsert x s) [] := by
  obtain ⟨out, hloop, rfl⟩ := Result.compute_ok h
  obtain ⟨-, a2, a3, -, -⟩ := Result.foldl_loadGenerator gens (Result.ctor start end_)
  rw [a2, a3] at hloop
  obtain ⟨o, ho⟩ := Result.computeLoop_shape fuel _ _ _ _ hloop
  show out.2.1 = out.2.2.foldl (fun s x => setInsert x s) []
  rw [ho]
  rfl

/-- Claim C11 (aggregation bound) fails as stated: `Result(0, 12)` loaded with
the single generator of shift `1/65536` and period `1/1` appends twelve terms,
no two of them equal as rationals, but the set keeps one element: every
comparison of `1/65536` with a later term wraps to `0`, so the set takes the
terms for equivalent. -/
theorem Result.compute_set_merges_distinct_values :
    (((Result.ctor 0 12).loadGenerator
        (Generator.ctor (Fraction.ctor 1 65536) (Fraction.ctor 1 1))).compute 13).map
        (fun r => (r.m_times, r.m_controlTimes))
      = .ok ([⟨1, 65536, true⟩],
          [⟨1, 65536, true⟩, ⟨65537, 65536, true⟩, ⟨131073, 65536, true⟩,
           ⟨196609, 65536, true⟩, ⟨262145, 65536, true⟩, ⟨327681, 65536, true⟩,
           ⟨393217, 65536, true⟩, ⟨458753, 65536, true⟩, ⟨524289, 65536, true⟩,
           ⟨589825, 65536, true⟩, ⟨655361, 65536, true⟩, ⟨720897, 65536, true⟩]) ∧
    (List.map Fraction.toRat
          [⟨1, 65536, true⟩, ⟨65537, 65536, true⟩, ⟨131073, 65536, true⟩,
           ⟨196609, 65536, true⟩, ⟨262145, 65536, true⟩, ⟨327681, 65536, true⟩,
           ⟨393217, 65536, true⟩, ⟨458753, 65536, true⟩, ⟨524289, 65536, true⟩,
           ⟨589825, 65536, true⟩, ⟨655361, 65536, true⟩, ⟨720897, 65536, true⟩]).Nodup := by
  refine ⟨by decide, ?_⟩
  rw [List.Nodup, List.pairwise_map]
  have hmono : List.Pairwise (fun a b : Fraction => a.toRat < b.toRat)
      [⟨1, 65536, true⟩, ⟨65537, 65536, true⟩, ⟨131073, 65536, true⟩,
       ⟨196609, 65536, true⟩, ⟨262145, 65536, true⟩, ⟨327681, 65536, true⟩,
       ⟨393217, 65536, true⟩, ⟨458753, 65536, true⟩, ⟨524289, 65536, true⟩,
       ⟨589825, 65536, true⟩, ⟨655361, 65536, true⟩, ⟨720897, 65536, true⟩] := by
    simp only [List.pairwise_cons, List.mem_cons, List.mem_singleton, List.not_mem_nil,
      forall_eq_or_imp, forall_eq, Fraction.toRat]
    norm_num
  exact hmono.imp (fun h => ne_of_lt h)

/-- Claim C11, amended: after a successful `compute` on any list of loaded
generators, the size of the set (also as `getResult` returns it) is at most
the size of the vector; and when the comparisons among the appended terms are
exact (positive denominators, no overflow), the two sizes are equal iff no two
appended terms are equal as rationals. -/
theorem Result.compute_distinct_le_total (start end_ : Int) (gens : List Generator)
    (fuel : Nat) (r' : Result)
    (h : (gens.foldl Result.loadGenerator (Result.ctor start end_)).compute fuel = .ok r') :
    r'.getResult ≤ r'.m_controlTimes.length ∧
    r'.m_times.length ≤ r'.m_controlTimes.length ∧
    (Fraction.exactOn r'.m_controlTimes →
      (r'.m_times.length = r'.m_controlTimes.length
        ↔ (r'.m_controlTimes.map Fraction.toRat).Nodup)) := by
  have hshape := Result.compute_shape start end_ gens fuel r' h
  have hle : r'.m_times.length ≤ r'.m_controlTimes.length := by
    rw [hshape]
    have := foldl_setInsert_length_le r'.m_controlTimes []
    rw [List.length_nil, Nat.zero_add] at this
    exact this
  refine ⟨le_trans (Nat.mod_le _ _) hle, hle, ?_⟩
  intro hex
  rw [hshape, foldl_setInsert_length _ hex,
    ← List.toFinset_card_eq_length_iff_nodup, List.length_map]

/-- Witness for claim C11, amended: `Result(0, 12)` loaded with the generator
of shift `0/1` and period `7/1`. -/
theorem Result.compute_distinct_le_total_witness :
    (Result.mk [(Generator.ctor (Fraction.ctor 0 1) (Fraction.ctor 7 1)).assignInterval 0 12]
        [⟨0, 1, true⟩, ⟨7, 1, true⟩] 0 12 [⟨0, 1, true⟩, ⟨7, 1, true⟩]).getResult
      ≤ (Result.mk [(Generator.ctor (Fraction.ctor 0 1) (Fraction.ctor 7 1)).assignInterval 0 12]
        [⟨0, 1, true⟩, ⟨7, 1, true⟩] 0 12 [⟨0, 1, true⟩, ⟨7, 1, true⟩]).m_controlTimes.length ∧
    (Result.mk [(Generator.ctor (Fraction.ctor 0 1) (Fraction.ctor 7 1)).assignInterval 0 12]
        [⟨0, 1, true⟩, ⟨7, 1, true⟩] 0 12 [⟨0, 1, true⟩, ⟨7, 1, true⟩]).m_times.length
      ≤ (Result.mk [(Generator.ctor (Fraction.ctor 0 1) (Fraction.ctor 7 1)).assignInterval 0 12]
        [⟨0, 1, true⟩, ⟨7, 1, true⟩] 0 12 [⟨0, 1, true⟩, ⟨7, 1, true⟩]).m_controlTimes.length ∧
    (Fraction.exactOn
        (Result.mk [(Generator.ctor (Fraction.ctor 0 1) (Fraction.ctor 7 1)).assignInterval 0 12]
          [⟨0, 1, true⟩, ⟨7, 1, true⟩] 0 12 [⟨0, 1, true⟩, ⟨7, 1, true⟩]).m_controlTimes →
      ((Result.mk [(Generator.ctor (Fraction.ctor 0 1) (Fraction.ctor 7 1)).assignInterval 0 12]
          [⟨0, 1, true⟩, ⟨7, 1, true⟩] 0 12 [⟨0, 1, true⟩, ⟨7, 1, true⟩]).m_times.length
        = (Result.mk [(Generator.ctor (Fraction.ctor 0 1) (Fraction.ctor 7 1)).assignInterval 0 12]
          [⟨0, 1, true⟩, ⟨7, 1, true⟩] 0 12 [⟨0, 1, true⟩, ⟨7, 1, true⟩]).m_controlTimes.length
        ↔ ((Result.mk
            [(Generator.ctor (Fraction.ctor 0 1) (Fraction.ctor 7 1)).assignInterval 0 12]
            [⟨0, 1, true⟩, ⟨7, 1, true⟩] 0 12
            [⟨0, 1, true⟩, ⟨7, 1, true⟩]).m_controlTimes.map Fraction.toRat).Nodup)) :=
  Result.compute_distinct_le_total 0 12
    [Generator.ctor (Fraction.ctor 0 1) (Fraction.ctor 7 1)] 3
    (Result.mk [(Generator.ctor (Fraction.ctor 0 1) (Fraction.ctor 7 1)).assignInterval 0 12]
      [⟨0, 1, true⟩, ⟨7, 1, true⟩] 0 12 [⟨0, 1, true⟩, ⟨7, 1, true⟩])
    (by decide)

/-! ## The counting map of `printDuplicates` -/

theorem mapLookup_nil (q : ℚ) : mapLookup q [] = 0 := rfl

theorem mapLookup_cons (q : ℚ) (e : Fraction × Nat) (es : List (Fraction × Nat)) :
    mapLookup q (e :: es) = (if e.1.toRat = q then e.2 else 0) + mapLookup q es := by
  unfold mapLookup
  by_cases h : e.1.toRat = q
  · rw [List.filter_cons_of_pos (by simpa using h), if_pos h, List.map_cons, List.sum_cons]
  · rw [List.filter_cons_of_neg (by simpa using h), if_neg h, Nat.zero_add]

theorem mapLookup_eq_zero (q : ℚ) (m : List (Fraction × Nat))
    (h : ∀ e ∈ m, e.1.toRat ≠ q) : mapLookup q m = 0 := by
  induction m with
  | nil => rfl
  | cons e es ih =>
    rw [mapLookup_cons, if_neg (h e (List.mem_cons_self _ _)),
      ih (fun e' he' => h e' (List.mem_cons_of_mem _ he'))]

theorem mapExact_tail {x : Fraction} {e : Fraction × Nat} {es : List (Fraction × Nat)}
    (h : mapExact x (e :: es)) : mapExact x es :=
  Fraction.exactOn_of_subset h (fun z hz => by
    rcases List.mem_cons.mp hz with h' | h'
    · exact h' ▸ List.mem_cons_self _ _
    · exact List.mem_cons_of_mem _ (List.mem_cons_of_mem _ h'))

theorem mapExact_lt_key {x : Fraction} {e : Fraction × Nat} {es : List (Fraction × Nat)}
    (h : mapExact x (e :: es)) :
    (e.1.lt x = true ↔ e.1.toRat < x.toRat) ∧ (x.lt e.1 = true ↔ x.toRat < e.1.toRat) := by
  have hx : x ∈ x :: (e :: es).map (fun e => e.1) := List.mem_cons_self _ _
  have he : e.1 ∈ x :: (e :: es).map (fun e => e.1) :=
    List.mem_cons_of_mem _ (List.mem_cons_self _ _)
  exact ⟨Fraction.lt_iff_of_exactOn h he hx, Fraction.lt_iff_of_exactOn h hx he⟩

/-- Lookup in a map that is strictly ascending by key value, with exact
comparisons: `find` returns the stored count of the value, and
`counts.end()` only when that count is zero. -/
theorem mapFind_lookup (x : Fraction) (m : List (Fraction × Nat))
    (hex : mapExact x m)
    (hs : m.Pairwise (fun a b => a.1.toRat < b.1.toRat)) :
    (∀ c, mapFind x m = some c → mapLookup x.toRat m = c) ∧
    (mapFind x m = none → mapLookup x.toRat m = 0) := by
  induction m with
  | nil =>
    constructor
    · intro c h
      rw [mapFind] at h
      cases h
    · intro _
      rfl
  | cons e es ih =>
    obtain ⟨h1, h2⟩ := mapExact_lt_key hex
    have hes := (List.pairwise_cons.mp hs).2
    have hall := (List.pairwise_cons.mp hs).1
    obtain ⟨ih1, ih2⟩ := ih (mapExact_tail hex) hes
    rw [mapFind, mapLookup_cons]
    by_cases c1 : e.1.lt x = true
    · have hlt := h1.mp c1
      rw [if_pos c1, if_neg (ne_of_lt hlt), Nat.zero_add]
      exact ⟨ih1, ih2⟩
    · rw [if_neg c1]
      have hn1 := h1.not.mp c1
      by_cases c2 : x.lt e.1 = true
      · have hlt := h2.mp c2
        rw [if_pos c2, if_neg (ne_of_gt hlt), Nat.zero_add]
        have hz : mapLookup x.toRat es = 0 :=
          mapLookup_eq_zero _ _ (fun e' he' => ne_of_gt (lt_trans hlt (hall e' he')))
        constructor
        · intro c h
          cases h
        · intro _
          exact hz
      · rw [if_neg c2]
        have hn2 := h2.not.mp c2
        have heq : e.1.toRat = x.toRat := le_antisymm (not_lt.mp hn2) (not_lt.mp hn1)
        have hz : mapLookup x.toRat es = 0 :=
          mapLookup_eq_zero _ _ (fun e' he' => by
            rw [← heq]
            exact ne_of_gt (hall e' he'))
        rw [if_pos heq, hz, Nat.add_zero]
        constructor
        · intro c h
          injection h
        · intro h
          cases h

theorem mapIncrement_keys (x : Fraction) (m : List (Fraction × Nat)) :
    (mapIncrement x m).map (fun e => e.1) = m.map (fun e => e.1) := by
  induction m with
  | nil => rfl
  | cons e es ih =>
    rw [mapIncrement]
    split
    · rw [List.map_cons, List.map_cons, ih]
    · split
      · rfl
      · rfl

/-- Incrementing the count found for a key changes the stored count of that
value only. -/
theorem mapIncrement_lookup (x : Fraction) (m : List (Fraction × Nat)) (c : Nat)
    (hex : mapExact x m)
    (hs : m.Pairwise (fun a b => a.1.toRat < b.1.toRat))
    (hf : mapFind x m = some c) :
    ∀ q : ℚ, mapLookup q (mapIncrement x m)
      = if x.toRat = q then (c + 1) % 4294967296 else mapLookup q m := by
  induction m with
  | nil =>
    rw [mapFind] at hf
    cases hf
  | cons e es ih =>
    obtain ⟨h1, h2⟩ := mapExact_lt_key hex
    have hes := (List.pairwise_cons.mp hs).2
    have hall := (List.pairwise_cons.mp hs).1
    intro q
    rw [mapFind] at hf
    rw [mapIncrement]
    by_cases c1 : e.1.lt x = true
    · have hlt := h1.mp c1
      rw [if_pos c1] at hf
      rw [if_pos c1, mapLookup_cons, ih (mapExact_tail hex) hes hf q, mapLookup_cons]
      by_cases hq : x.toRat = q
      · rw [if_pos hq, if_pos hq, if_neg (by rw [← hq]; exact ne_of_lt hlt), Nat.zero_add]
      · rw [if_neg hq, if_neg hq]
    · rw [if_neg c1] at hf
      rw [if_neg c1]
      have hn1 := h1.not.mp c1
      by_cases c2 : x.lt e.1 = true
      · rw [if_pos c2] at hf
        cases hf
      · rw [if_neg c2] at hf
        rw [if_neg c2]
        injection hf with hf
        have hn2 := h2.not.mp c2
        have heq : e.1.toRat = x.toRat := le_antisymm (not_lt.mp hn2) (not_lt.mp hn1)
        have hz : mapLookup x.toRat es = 0 :=
          mapLookup_eq_zero _ _ (fun e' he' => by
            rw [← heq]
            exact ne_of_gt (hall e' he'))
        rw [mapLookup_cons, mapLookup_cons]
        show (if e.1.toRat = q then (e.2 + 1) % 4294967296 else 0) + mapLookup q es = _
        by_cases hq : x.toRat = q
        · rw [if_pos hq, if_pos (heq.trans hq), ← hq, hz, hf, Nat.add_zero]
        · rw [if_neg hq, if_neg (fun h => hq (heq.symm.trans h)),
            if_neg (fun h => hq (heq.symm.trans h))]

theorem mapAssign_keys (x : Fraction) (v : Nat) (m : List (Fraction × Nat)) :
    ∀ k ∈ (mapAssign x v m).map (fun e => e.1), k = x ∨ k ∈ m.map (fun e => e.1) := by
  induction m with
  | nil =>
    intro k hk
    rw [mapAssign, List.map_singleton, List.mem_singleton] at hk
    exact Or.inl hk
  | cons e es ih =>
    intro k hk
    rw [mapAssign] at hk
    split at hk
    · rw [List.map_cons] at hk
      rcases List.mem_cons.mp hk with h | h
      · exact Or.inr (h ▸ List.mem_cons_self _ _)
      · rcases ih k h with h' | h'
        · exact Or.inl h'
        · exact Or.inr (List.mem_cons_of_mem _ h')
    · split at hk
      · rw [List.map_cons] at hk
        rcases List.mem_cons.mp hk with h | h
        · exact Or.inl h
        · exact Or.inr h
      · exact Or.inr hk

/-- Assigning a count to a key that `find` did not find inserts one entry and
keeps the map strictly ascending. -/
theorem mapAssign_lookup (x : Fraction) (v : Nat) (m : List (Fraction × Nat))
    (hex : mapExact x m)
    (hs : m.Pairwise (fun a b => a.1.toRat < b.1.toRat))
    (hf : mapFind x m = none) :
    (mapAssign x v m).Pairwise (fun a b => a.1.toRat < b.1.toRat) ∧
    ∀ q : ℚ, mapLookup q (mapAssign x v m)
      = (if x.toRat = q then v else 0) + mapLookup q m := by
  induction m with
  | nil =>
    refine ⟨List.pairwise_singleton _ _, fun q => ?_⟩
    rw [mapAssign, mapLookup_cons]
  | cons e es ih =>
    obtain ⟨h1, h2⟩ := mapExact_lt_key hex
    have hes := (List.pairwise_cons.mp hs).2
    have hall := (List.pairwise_cons.mp hs).1
    rw [mapFind] at hf
    rw [mapAssign]
    by_cases c1 : e.1.lt x = true
    · have hlt := h1.mp c1
      rw [if_pos c1] at hf
      rw [if_pos c1]
      obtain ⟨ih1, ih2⟩ := ih (mapExact_tail hex) hes hf
      constructor
      · refine List.pairwise_cons.mpr ⟨?_, ih1⟩
        intro e' he'
        have hk := mapAssign_keys x v es e'.1 (List.mem_map_of_mem _ he')
        rcases hk with hk | hk
        · rw [hk]
          exact hlt
        · obtain ⟨e'', he'', hkey⟩ := List.mem_map.mp hk
          rw [← hkey]
          exact hall e'' he''
      · intro q
        rw [mapLookup_cons, ih2 q, mapLookup_cons]
        omega
    · rw [if_neg c1] at hf
      rw [if_neg c1]
      by_cases c2 : x.lt e.1 = true
      · have hlt := h2.mp c2
        rw [if_pos c2]
        constructor
        · refine List.pairwise_cons.mpr ⟨?_, hs⟩
          intro e' he'
          rcases List.mem_cons.mp he' with h | h
          · rw [h]
            exact hlt
          · exact lt_trans hlt (hall e' h)
        · intro q
          rw [mapLookup_cons]
      · rw [if_neg c2] at hf
        cases hf

theorem count_toRat_append_singleton (P : List Fraction) (x : Fraction) (q : ℚ) :
    ((P ++ [x]).map Fraction.toRat).count q
      = (if x.toRat = q then 1 else 0) + (P.map Fraction.toRat).count q := by
  rw [List.map_append, List.count_append, List.map_singleton, List.count_singleton]
  by_cases h : x.toRat = q
  · rw [if_pos h, if_pos (by simpa using h)]
    omega
  · rw [if_neg h, if_neg (by simpa using h)]
    omega

/-- The loop of `printDuplicates` against the specification's wording, as long
as the read through the end iterator never yields `2`, the comparisons are
exact and the counts stay below `2^32`: it appends to the output the elements
at which the count of their value reaches two. -/
theorem Result.printDuplicatesLoop_spec (endSecond : Nat → Nat)
    (hend : ∀ i, endSecond i ≠ 2) :
    ∀ (rest P : List Fraction) (i : Nat) (counts : List (Fraction × Nat))
      (out : List Fraction),
      Fraction.exactOn (P ++ rest) → P.length + rest.length < 4294967296 →
      counts.Pairwise (fun a b => a.1.toRat < b.1.toRat) →
      (∀ k ∈ counts.map (fun e => e.1), k ∈ P) →
      (∀ q : ℚ, mapLookup q counts = (P.map Fraction.toRat).count q) →
      Result.printDuplicatesLoop endSecond rest i counts out
        = out ++ secondOccurrences (P.map Fraction.toRat) rest := by
  intro rest
  induction rest with
  | nil =>
    intro P i counts out _ _ _ _ _
    rw [Result.printDuplicatesLoop, secondOccurrences, List.append_nil]
  | cons x rest ih =>
    intro P i counts out hex hlen hs hkeys hlook
    have hmex : mapExact x counts :=
      Fraction.exactOn_of_subset hex (fun z hz => by
        rcases List.mem_cons.mp hz with h | h
        · exact h ▸ List.mem_append_right _ (List.mem_cons_self _ _)
        · exact List.mem_append_left _ (hkeys z h))
    have hex' : Fraction.exactOn ((P ++ [x]) ++ rest) := by
      rw [List.append_assoc]
      exact hex
    have hlen' : (P ++ [x]).length + rest.length < 4294967296 := by
      rw [List.length_append, List.length_singleton]
      rw [List.length_cons] at hlen
      omega
    have hcnt := hlook x.toRat
    have hcle : (P.map Fraction.toRat).count x.toRat ≤ P.length := by
      have := List.count_le_length x.toRat (P.map Fraction.toRat)
      rw [List.length_map] at this
      exact this
    obtain ⟨hfs, hfn⟩ := mapFind_lookup x counts hmex hs
    rw [secondOccurrences, ← List.map_singleton, ← List.map_append]
    cases hf : mapFind x counts with
    | none =>
      have hzero := hfn hf
      rw [hcnt] at hzero
      obtain ⟨hs', hlook'⟩ := mapAssign_lookup x 1 counts hmex hs hf
      rw [Result.printDuplicatesLoop, hf]
      simp only
      rw [if_neg (hend i), ih (P ++ [x]) (i + 1) (mapAssign x 1 counts) out hex' hlen' hs'
        (fun k hk => by
          rcases mapAssign_keys x 1 counts k hk with h | h
          · exact h ▸ List.mem_append_right _ (List.mem_cons_self _ _)
          · exact List.mem_append_left _ (hkeys k h))
        (fun q => by rw [hlook' q, hlook q, count_toRat_append_singleton]),
        if_neg (by omega), List.nil_append]
    | some c =>
      have hc := hfs c hf
      rw [hcnt] at hc
      have hlook' := mapIncrement_lookup x counts c hmex hs hf
      have hs' : (mapIncrement x counts).Pairwise (fun a b => a.1.toRat < b.1.toRat) := by
        have h1 : ((mapIncrement x counts).map (fun e => e.1)).Pairwise
            (fun a b => a.toRat < b.toRat) := by
          rw [mapIncrement_keys, List.pairwise_map]
          exact hs
        rw [List.pairwise_map] at h1
        exact h1
      have hmod : (c + 1) % 4294967296 = c + 1 := by
        apply Nat.mod_eq_of_lt
        rw [List.length_cons] at hlen
        omega
      rw [Result.printDuplicatesLoop, hf]
      simp only
      rw [ih (P ++ [x]) (i + 1) (mapIncrement x counts) _ hex' hlen' hs'
        (fun k hk => by
          rw [mapIncrement_keys] at hk
          exact List.mem_append_left _ (hkeys k hk))
        (fun q => by
          rw [hlook' q, count_toRat_append_singleton, hmod]
          by_cases hq : x.toRat = q
          · rw [if_pos hq, if_pos hq, ← hq, hc]
            omega
          · rw [if_neg hq, if_neg hq, hlook q, Nat.zero_add])]
      rw [hmod, hc]
      by_cases h1 : c = 1
      · rw [if_pos (by omega), if_pos h1, List.append_assoc]
      · rw [if_neg (by omega), if_neg h1, List.nil_append]

/-- How often a value appears in the specification's duplicate report: once
when its count starts at most at one and ends at least at two, never
otherwise. -/
theorem secondOccurrences_count (rest : List Fraction) :
    ∀ (seen : List ℚ) (q : ℚ),
      ((secondOccurrences seen rest).map Fraction.toRat).count q
        = if seen.count q ≤ 1 ∧ 2 ≤ seen.count q + (rest.map Fraction.toRat).count q
          then 1 else 0 := by
  induction rest with
  | nil =>
    intro seen q
    rw [secondOccurrences, List.map_nil, List.count_nil, if_neg (by omega)]
  | cons x rest ih =>
    intro seen q
    rw [secondOccurrences, List.map_append, List.count_append, ih, List.count_append,
      List.map_cons]
    simp only [List.count_cons, List.count_nil, Nat.zero_add]
    by_cases hq : x.toRat = q
    · have hb : (x.toRat == q) = true := by simpa using hq
      rw [hb, if_pos rfl]
      subst hq
      by_cases h1 : List.count x.toRat seen = 1
      · rw [if_pos h1, List.map_singleton, List.count_singleton, if_pos (by simp)]
        rw [h1, if_neg (by omega), if_pos (by omega)]
      · rw [if_neg h1, List.map_nil, List.count_nil]
        split_ifs <;> omega
    · have hb : (x.toRat == q) = false := by simpa using hq
      rw [hb]
      have hzero : List.count q (List.map Fraction.toRat
          (if List.count x.toRat seen = 1 then [x] else [])) = 0 := by
        split_ifs
        · rw [List.map_singleton, List.count_singleton, if_neg (by simpa using hq)]
        · rfl
      rw [hzero]
      simp only [Bool.false_eq_true, if_false, Nat.add_zero, Nat.zero_add]

/-- Claim C12 (duplicate report consistency) fails as stated: on the content
`[1/65536, 65537/65536]`, two different values, the report holds `65537/65536`
although that value occurs once. The comparison of the two keys wraps to `0`
in both directions, so `find` takes the second for the first and its count
reaches two. The value read through the end iterator plays no part here. -/
theorem Result.printDuplicates_reports_single_value :
    (Result.mk [] [] 0 12 [⟨1, 65536, true⟩, ⟨65537, 65536, true⟩]).printDuplicates
        (fun _ => 0) = [⟨65537, 65536, true⟩] ∧
    (List.map Fraction.toRat [⟨1, 65536, true⟩, ⟨65537, 65536, true⟩]).count
        (Fraction.toRat ⟨65537, 65536, true⟩) = 1 := by
  refine ⟨by decide, ?_⟩
  simp only [List.map_cons, List.map_nil, List.count_cons, List.count_nil, Fraction.toRat]
  norm_num

/-- The test `it->second == 2` of `printDuplicates` is also made when `find`
returned the end iterator: when that read yields `2` a value is reported at
its first occurrence. -/
theorem Result.printDuplicates_end_read :
    (Result.mk [] [] 0 12 [⟨1, 1, true⟩]).printDuplicates (fun _ => 2) = [⟨1, 1, true⟩] ∧
    (Result.mk [] [] 0 12 [⟨1, 1, true⟩]).printDuplicates (fun _ => 0) = [] := by
  decide

/-- Claim C12, amended: when all elements of `m_controlTimes` have positive
denominators and compare without overflow, there are fewer than `2^31` of them
(the loop index is an `int`) and the read through the end iterator made at a
first occurrence never yields `2`, the report of `printDuplicates` is the list
of the elements at which the count of their value reaches two, in that order;
so a value is in the report once when it occurs at least twice in
`m_controlTimes` and not at all otherwise. -/
theorem Result.printDuplicates_report (r : Result) (endSecond : Nat → Nat)
    (hex : Fraction.exactOn r.m_controlTimes)
    (hlen : r.m_controlTimes.length < 2147483648)
    (hend : ∀ i, endSecond i ≠ 2) :
    r.printDuplicates endSecond = secondOccurrences [] r.m_controlTimes ∧
    ∀ q : ℚ, ((r.printDuplicates endSecond).map Fraction.toRat).count q
      = if 2 ≤ (r.m_controlTimes.map Fraction.toRat).count q then 1 else 0 := by
  have hrun : r.printDuplicates endSecond = secondOccurrences [] r.m_controlTimes := by
    have h := Result.printDuplicatesLoop_spec endSecond hend r.m_controlTimes [] 0 [] []
      (by rw [List.nil_append]; exact hex)
      (by rw [List.length_nil, Nat.zero_add]; omega)
      List.Pairwise.nil
      (fun k hk => by cases hk)
      (fun q => by rw [mapLookup_nil, List.map_nil, List.count_nil])
    rw [List.nil_append, List.map_nil] at h
    exact h
  refine ⟨hrun, fun q => ?_⟩
  rw [hrun, secondOccurrences_count, List.count_nil, Nat.zero_add]
  by_cases h2 : 2 ≤ (r.m_controlTimes.map Fraction.toRat).count q
  · rw [if_pos ⟨Nat.zero_le 1, h2⟩, if_pos h2]
  · rw [if_neg (fun h => h2 h.2), if_neg h2]

/-- Witness for claim C12, amended: the content `[1/2, 1/3, 2/4, 1/3, 1/2]`
with an end read of `0`. -/
theorem Result.printDuplicates_report_witness :
    (Result.mk [] [] 0 12
        [⟨1, 2, true⟩, ⟨1, 3, true⟩, ⟨2, 4, false⟩, ⟨1, 3, true⟩,
         ⟨1, 2, true⟩]).printDuplicates (fun _ => 0)
      = secondOccurrences []
          (Result.mk [] [] 0 12
            [⟨1, 2, true⟩, ⟨1, 3, true⟩, ⟨2, 4, false⟩, ⟨1, 3, true⟩,
             ⟨1, 2, true⟩]).m_controlTimes ∧
    ∀ q : ℚ,
      (((Result.mk [] [] 0 12
          [⟨1, 2, true⟩, ⟨1, 3, true⟩, ⟨2, 4, false⟩, ⟨1, 3, true⟩,
           ⟨1, 2, true⟩]).printDuplicates (fun _ => 0)).map Fraction.toRat).count q
        = if 2 ≤ ((Result.mk [] [] 0 12
            [⟨1, 2, true⟩, ⟨1, 3, true⟩, ⟨2, 4, false⟩, ⟨1, 3, true⟩,
             ⟨1, 2, true⟩]).m_controlTimes.map Fraction.toRat).count q then 1 else 0 :=
  Result.printDuplicates_report
    (Result.mk [] [] 0 12
      [⟨1, 2, true⟩, ⟨1, 3, true⟩, ⟨2, 4, false⟩, ⟨1, 3, true⟩, ⟨1, 2, true⟩])
    (fun _ => 0) (by decide) (by decide) (fun _ => (by decide : (0 : Nat) ≠ 2))

/-! ## The run of `main` -/

/-- A fraction in lowest terms within `int32_t`. -/
theorem Fraction.add_reduce_lowest {a p r : Fraction} (h : (a.add p).reduce = .ok r) :
    r.valid ∧ Int.gcd r.numerator r.denominator = 1 :=
  Fraction.reduce_coprime (Fraction.add_valid a p) (Fraction.add_reduced_flag a p) h

/-- The iterate the first loop of `generate` ends on is the one it started
from or the result of an addition. -/
theorem Generator.positionLoop_origin (g : Generator) :
    ∀ (fuel : Nat) (iter it : Fraction), g.positionLoop fuel iter = .ok it →
      it = iter ∨ (it.valid ∧ it.reduced = false) := by
  intro fuel
  induction fuel with
  | zero =>
    intro iter it h
    rw [Generator.positionLoop] at h
    cases h
  | succ n ih =>
    intro iter it h
    rw [Generator.positionLoop] at h
    by_cases hlt : iter.lt g.m_interval.1 = true
    · rw [if_pos hlt] at h
      rcases ih _ it h with h1 | h1
      · right
        rw [h1]
        exact ⟨Fraction.add_valid _ _, Fraction.add_reduced_flag _ _⟩
      · exact Or.inr h1
    · rw [if_neg hlt] at h
      injection h with h
      exact Or.inl h.symm

/-- Every term the second loop of `generate` appends after the first one is
in lowest terms. -/
theorem Generator.emitLoop_lowest (g : Generator) :
    ∀ (fuel : Nat) (iter : Fraction) (set vector : List Fraction)
      (r : List Fraction × List Fraction),
      g.emitLoop fuel iter set vector = .ok r →
      Int.gcd iter.numerator iter.denominator = 1 →
      ∃ out : List Fraction,
        r = (out.foldl (fun s x => setInsert x s) set, vector ++ out) ∧
        ∀ x ∈ out, Int.gcd x.numerator x.denominator = 1 := by
  intro fuel
  induction fuel with
  | zero =>
    intro iter set vector r h
    rw [Generator.emitLoop] at h
    cases h
  | succ n ih =>
    intro iter set vector r h hc
    cases hr : (iter.add g.m_period).reduce with
    | error e =>
      rw [Generator.emitLoop, hr] at h
      cases h
    | ok next =>
      rw [Generator.emitLoop_succ g n iter next set vector hr] at h
      by_cases hlt : next.lt g.m_interval.2 = true
      · rw [if_pos hlt] at h
        obtain ⟨out, hout, hall⟩ := ih next _ _ r h (Fraction.add_reduce_lowest hr).2
        refine ⟨iter :: out, ?_, ?_⟩
        · rw [hout, List.foldl_cons, List.append_assoc]
          rfl
        · intro x hx
          rcases List.mem_cons.mp hx with h1 | h1
          · rw [h1]
            exact hc
          · exact hall x h1
      · rw [if_neg hlt] at h
        injection h with h
        refine ⟨[iter], h.symm, ?_⟩
        intro x hx
        rw [List.mem_singleton.mp hx]
        exact hc

/-- Every term `generate` appends is in lowest terms when the shift comes
from the constructor. -/
theorem Generator.generate_lowest (g : Generator) (fuel : Nat) (set vector out : List Fraction)
    (hv : g.m_shift.valid) (hf : g.m_shift.reduced = false)
    (h : g.generate fuel set vector
      = .ok (out.foldl (fun s x => setInsert x s) set, vector ++ out)) :
    ∀ x ∈ out, Int.gcd x.numerator x.denominator = 1 := by
  unfold Generator.generate at h
  cases h1 : g.positionLoop fuel g.m_shift with
  | error e =>
    rw [h1] at h
    cases h
  | ok it =>
    rw [h1] at h
    simp only [Except.bind] at h
    have hit : it.valid ∧ it.reduced = false := by
      rcases g.positionLoop_origin fuel _ it h1 with h0 | h0
      · rw [h0]
        exact ⟨hv, hf⟩
      · exact h0
    cases h2 : it.reduce with
    | error e =>
      rw [h2] at h
      cases h
    | ok first =>
      rw [h2] at h
      simp only [Except.bind] at h
      obtain ⟨out', hout, hall⟩ := g.emitLoop_lowest fuel first set vector _ h
        (Fraction.reduce_coprime hit.1 hit.2 h2).2
      have heq : out = out' := by
        have := congrArg Prod.snd hout
        exact List.append_cancel_left this
      rw [heq]
      exact hall

/-- A fraction in lowest terms with a positive denominator that represents
`N / D` has its denominator at most `D` and its numerator between `0` and `N`. -/
theorem Fraction.bound_of_lowest (x : Fraction) (N D : Nat) (hD : 0 < D)
    (hd : 0 < x.denominator) (hc : Int.gcd x.numerator x.denominator = 1)
    (hval : x.toRat = (N : ℚ) / (D : ℚ)) :
    x.denominator ≤ (D : Int) ∧ 0 ≤ x.numerator ∧ x.numerator ≤ (N : Int) := by
  have hDq : (D : ℚ) ≠ 0 := by exact_mod_cast (Nat.pos_iff_ne_zero.mp hD)
  have hdq : (x.denominator : ℚ) ≠ 0 := by exact_mod_cast (ne_of_gt hd)
  have hcross : x.numerator * (D : Int) = (N : Int) * x.denominator := by
    unfold Fraction.toRat at hval
    rw [div_eq_div_iff hdq hDq] at hval
    exact_mod_cast hval
  have hDi : (0 : Int) < (D : Int) := by exact_mod_cast hD
  have hdvd : x.denominator ∣ (D : Int) := by
    have h1 : x.denominator ∣ x.numerator * (D : Int) := ⟨(N : Int), by rw [hcross]; ring⟩
    exact Int.dvd_of_dvd_mul_right_of_gcd_one h1 (by rw [Int.gcd_comm]; exact hc)
  have hle : x.denominator ≤ (D : Int) := Int.le_of_dvd hDi hdvd
  have hN : (0 : Int) ≤ (N : Int) := Int.ofNat_nonneg N
  refine ⟨hle, ?_, ?_⟩
  · by_contra hneg
    have h1 : x.numerator * (D : Int) < 0 := by nlinarith
    have h2 : 0 ≤ (N : Int) * x.denominator := by nlinarith
    omega
  · by_contra hgt
    have h1 : (N : Int) * (D : Int) < x.numerator * (D : Int) := by nlinarith
    have h2 : (N : Int) * x.denominator ≤ (N : Int) * (D : Int) := by nlinarith
    omega

/-- A run of `generate` over the interval `(0, 12)` of `compute`, for a shift
and a period whose terms from index `K` on are `(A * i + B) / D`: when no
operation overflows, the run returns and appends exactly `L` terms, the terms
of index `K` to `K + L - 1`, each in lowest terms. -/
theorem Generator.generate_progression (g : Generator) (n K L A B D : Nat)
    (set vector : List Fraction)
    (hv : g.m_shift.valid) (hf : g.m_shift.reduced = false)
    (hsd : 0 < g.m_shift.denominator)
    (hpd : 0 < g.m_period.denominator) (hpn : 0 < g.m_period.numerator)
    (hfits : (g.assignInterval 0 12).generateFits (n + 1) = true)
    (hD : 0 < D) (hL1 : 1 ≤ L) (hn : K + L ≤ n)
    (hval : ∀ i : Nat, g.m_shift.toRat + ((K + i : Nat) : ℚ) * g.m_period.toRat
      = ((A * i + B : Nat) : ℚ) / (D : ℚ))
    (hK : ∀ j : Nat, j < K → g.m_shift.toRat + (j : ℚ) * g.m_period.toRat < 0)
    (hL : 12 * D ≤ A * L + B) (hL' : A * L + B < 12 * D + A) :
    ∃ out : List Fraction,
      (g.assignInterval 0 12).generate (n + 1) set vector
        = .ok (out.foldl (fun s x => setInsert x s) set, vector ++ out) ∧
      out.length = L ∧
      out.map Fraction.toRat
        = (List.range L).map (fun i : Nat => ((A * i + B : Nat) : ℚ) / (D : ℚ)) ∧
      ∀ x ∈ out, 0 < x.denominator ∧ x.denominator ≤ (D : Int) ∧
        0 ≤ x.numerator ∧ x.numerator ≤ ((A * L + B : Nat) : Int) := by
  have hDq : (0 : ℚ) < (D : ℚ) := by exact_mod_cast hD
  have hlo0 : (g.assignInterval 0 12).m_interval.1.toRat = 0 := by
    simp [Generator.assignInterval, Fraction.ctor, Fraction.toRat]
  have hhi0 : (g.assignInterval 0 12).m_interval.2.toRat = 12 := by
    simp [Generator.assignInterval, Fraction.ctor, Fraction.toRat]
  have hterm : ∀ i : Nat, (12 : ℚ) ≤ ((A * i + B : Nat) : ℚ) / (D : ℚ) ↔ 12 * D ≤ A * i + B := by
    intro i
    rw [le_div_iff₀ hDq]
    exact_mod_cast Iff.rfl
  have hn' := hval (n - K)
  rw [Nat.add_sub_cancel' (by omega : K ≤ n)] at hn'
  have hnL : A * L ≤ A * (n - K) := Nat.mul_le_mul_left A (by omega)
  have hhi : (12 : ℚ) ≤ g.m_shift.toRat + (n : ℚ) * g.m_period.toRat := by
    rw [hn', hterm]
    omega
  obtain ⟨k, out, hrun, hpos, hmap, hbelow, hge, hin, hout, hall⟩ :=
    (g.assignInterval 0 12).generate_run n set vector hv hsd hpd hpn
      (show (0 : Int) < 1 from by decide) (show (0 : Int) < 1 from by decide) hfits
      (by rw [hlo0]; exact le_trans (by norm_num) hhi)
      (by rw [hhi0]; exact hhi)
  rw [hlo0] at hbelow hge
  rw [hhi0] at hin hout
  have hsh : (g.assignInterval 0 12).m_shift = g.m_shift := rfl
  have hpe : (g.assignInterval 0 12).m_period = g.m_period := rfl
  simp only [hsh, hpe] at hmap hbelow hge hin hout
  have hv0 := hval 0
  rw [Nat.add_zero] at hv0
  have hkK : k = K := by
    rcases Nat.lt_trichotomy k K with h | h | h
    · have := hK k h
      linarith
    · exact h
    · have h1 := hbelow K h
      rw [hv0] at h1
      have h2 : (0 : ℚ) ≤ ((A * 0 + B : Nat) : ℚ) / (D : ℚ) :=
        div_nonneg (Nat.cast_nonneg _) (le_of_lt hDq)
      linarith
  subst hkK
  have hlen : out.length = L := by
    rcases Nat.lt_trichotomy out.length L with h | h | h
    · exfalso
      have h1 := hout
      rw [hval, hterm] at h1
      have h2 : A * (out.length + 1) ≤ A * L := Nat.mul_le_mul_left A h
      rw [Nat.mul_add, Nat.mul_one] at h2
      omega
    · exact h
    · exfalso
      have h1 := hin L hL1 h
      rw [hval] at h1
      exact absurd ((hterm L).mpr hL) (not_le.mpr h1)
  have hmap' : out.map Fraction.toRat
      = (List.range L).map (fun i : Nat => ((A * i + B : Nat) : ℚ) / (D : ℚ)) := by
    rw [hmap, hlen]
    exact List.map_congr_left (fun i _ => hval i)
  have hlow := (g.assignInterval 0 12).generate_lowest (n + 1) set vector out hv hf hrun
  refine ⟨out, hrun, hlen, hmap', ?_⟩
  intro x hx
  have hxm : x.toRat ∈ out.map Fraction.toRat := List.mem_map_of_mem _ hx
  rw [hmap'] at hxm
  obtain ⟨i, hi, hxi⟩ := List.mem_map.mp hxm
  rw [List.mem_range] at hi
  obtain ⟨b1, b2, b3⟩ := Fraction.bound_of_lowest x (A * i + B) D hD (hall x hx).1
    (hlow x hx) hxi.symm
  refine ⟨(hall x hx).1, b1, b2, le_trans b3 ?_⟩
  have h2 : A * i ≤ A * L := Nat.mul_le_mul_left A (le_of_lt hi)
  exact_mod_cast (by omega : A * i + B ≤ A * L + B)

/-- No `int32_t` operation overflows in the call of `generate` that `compute`
makes for `gen0` of `main`. -/
theorem main.gen0_fits : (main.gen0.assignInterval 0 12).generateFits 721 = true := by
  decide!

/-- No `int32_t` operation overflows in the call of `generate` that `compute`
makes for `gen1` of `main`. -/
theorem main.gen1_fits : (main.gen1.assignInterval 0 12).generateFits 721 = true := by
  decide!

/-- No `int32_t` operation overflows in the call of `generate` that `compute`
makes for `gen2` of `main`. -/
theorem main.gen2_fits : (main.gen2.assignInterval 0 12).generateFits 721 = true := by
  decide!

/-- No `int32_t` operation overflows in the call of `generate` that `compute`
makes for `gen3` of `main`. -/
theorem main.gen3_fits : (main.gen3.assignInterval 0 12).generateFits 721 = true := by
  decide!

/-- No `int32_t` operation overflows in the call of `generate` that `compute`
makes for `gen4` of `main`. -/
theorem main.gen4_fits : (main.gen4.assignInterval 0 12).generateFits 721 = true := by
  decide!

/-- No `int32_t` operation overflows in the call of `generate` that `compute`
makes for `gen5` of `main`. -/
theorem main.gen5_fits : (main.gen5.assignInterval 0 12).generateFits 721 = true := by
  decide!

/-- The call of `generate` that `compute` makes for `gen0` of `main`: no
operation overflows, and it appends the 11 terms `(12 * i + 10) / 11`,
`i = 0, ..., 10`, each in lowest terms. -/
theorem main.gen0_run (set vector : List Fraction) :
    ∃ out : List Fraction,
      (main.gen0.assignInterval 0 12).generate 721 set vector
        = .ok (out.foldl (fun s x => setInsert x s) set, vector ++ out) ∧
      out.length = 11 ∧
      out.map Fraction.toRat
        = (List.range 11).map
            (fun i : Nat => ((12 * i + 10 : Nat) : ℚ) / ((11 : Nat) : ℚ)) ∧
      ∀ x ∈ out, 0 < x.denominator ∧ x.denominator ≤ ((11 : Nat) : Int) ∧
        0 ≤ x.numerator ∧ x.numerator ≤ ((12 * 11 + 10 : Nat) : Int) :=
  Generator.generate_progression main.gen0 720 1 11 12 10 11 set vector
    (by decide) rfl (by decide) (by decide) (by decide) main.gen0_fits
    (by decide) (by decide) (by decide)
    (fun i => by
      simp only [main.gen0, Generator.ctor, Fraction.ctor, Fraction.toRat, basicPeriod]
      push_cast
      ring)
    (fun j hj => by
      have hj0 : j = 0 := by omega
      subst hj0
      norm_num [main.gen0, Generator.ctor, Fraction.ctor, Fraction.toRat, basicPeriod])
    (by decide) (by decide)

/-- The call of `generate` that `compute` makes for `gen1` of `main`: no
operation overflows, and it appends the 11 terms `(12 * i + 2) / 11`,
`i = 0, ..., 10`, each in lowest terms. -/
theorem main.gen1_run (set vector : List Fraction) :
    ∃ out : List Fraction,
      (main.gen1.assignInterval 0 12).generate 721 set vector
        = .ok (out.foldl (fun s x => setInsert x s) set, vector ++ out) ∧
      out.length = 11 ∧
      out.map Fraction.toRat
        = (List.range 11).map
            (fun i : Nat => ((12 * i + 2 : Nat) : ℚ) / ((11 : Nat) : ℚ)) ∧
      ∀ x ∈ out, 0 < x.denominator ∧ x.denominator ≤ ((11 : Nat) : Int) ∧
        0 ≤ x.numerator ∧ x.numerator ≤ ((12 * 11 + 2 : Nat) : Int) :=
  Generator.generate_progression main.gen1 720 0 11 12 2 11 set vector
    (by decide) rfl (by decide) (by decide) (by decide) main.gen1_fits
    (by decide) (by decide) (by decide)
    (fun i => by
      simp only [main.gen1, Generator.ctor, Fraction.ctor, Fraction.toRat, basicPeriod]
      push_cast
      ring)
    (fun j hj => absurd hj (Nat.not_lt_zero j))
    (by decide) (by decide)

/-- The call of `generate` that `compute` makes for `gen2` of `main`: no
operation overflows, and it appends the 719 terms `(12 * i + 10) / 719`,
`i = 0, ..., 718`, each in lowest terms. -/
theorem main.gen2_run (set vector : List Fraction) :
    ∃ out : List Fraction,
      (main.gen2.assignInterval 0 12).generate 721 set vector
        = .ok (out.foldl (fun s x => setInsert x s) set, vector ++ out) ∧
      out.length = 719 ∧
      out.map Fraction.toRat
        = (List.range 719).map
            (fun i : Nat => ((12 * i + 10 : Nat) : ℚ) / ((719 : Nat) : ℚ)) ∧
      ∀ x ∈ out, 0 < x.denominator ∧ x.denominator ≤ ((719 : Nat) : Int) ∧
        0 ≤ x.numerator ∧ x.numerator ≤ ((12 * 719 + 10 : Nat) : Int) :=
  Generator.generate_progression main.gen2 720 1 719 12 10 719 set vector
    (by decide) rfl (by decide) (by decide) (by decide) main.gen2_fits
    (by decide) (by decide) (by decide)
    (fun i => by
      simp only [main.gen2, Generator.ctor, Fraction.ctor, Fraction.toRat, basicPeriod]
      push_cast
      ring)
    (fun j hj => by
      have hj0 : j = 0 := by omega
      subst hj0
      norm_num [main.gen2, Generator.ctor, Fraction.ctor, Fraction.toRat, basicPeriod])
    (by decide) (by decide)

/-- The call of `generate` that `compute` makes for `gen3` of `main`: no
operation overflows, and it appends the 719 terms `(12 * i + 2) / 719`,
`i = 0, ..., 718`, each in lowest terms. -/
theorem main.gen3_run (set vector : List Fraction) :
    ∃ out : List Fraction,
      (main.gen3.assignInterval 0 12).generate 721 set vector
        = .ok (out.foldl (fun s x => setInsert x s) set, vector ++ out) ∧
      out.length = 719 ∧
      out.map Fraction.toRat
        = (List.range 719).map
            (fun i : Nat => ((12 * i + 2 : Nat) : ℚ) / ((719 : Nat) : ℚ)) ∧
      ∀ x ∈ out, 0 < x.denominator ∧ x.denominator ≤ ((719 : Nat) : Int) ∧
        0 ≤ x.numerator ∧ x.numerator ≤ ((12 * 719 + 2 : Nat) : Int) :=
  Generator.generate_progression main.gen3 720 0 719 12 2 719 set vector
    (by decide) rfl (by decide) (by decide) (by decide) main.gen3_fits
    (by decide) (by decide) (by decide)
    (fun i => by
      simp only [main.gen3, Generator.ctor, Fraction.ctor, Fraction.toRat, basicPeriod]
      push_cast
      ring)
    (fun j hj => absurd hj (Nat.not_lt_zero j))
    (by decide) (by decide)

/-- The call of `generate` that `compute` makes for `gen4` of `main`: no
operation overflows, and it appends the 708 terms `(6 * i + 5) / 354`,
`i = 0, ..., 707`, each in lowest terms. -/
theorem main.gen4_run (set vector : List Fraction) :
    ∃ out : List Fraction,
      (main.gen4.assignInterval 0 12).generate 721 set vector
        = .ok (out.foldl (fun s x => setInsert x s) set, vector ++ out) ∧
      out.length = 708 ∧
      out.map Fraction.toRat
        = (List.range 708).map
            (fun i : Nat => ((6 * i + 5 : Nat) : ℚ) / ((354 : Nat) : ℚ)) ∧
      ∀ x ∈ out, 0 < x.denominator ∧ x.denominator ≤ ((354 : Nat) : Int) ∧
        0 ≤ x.numerator ∧ x.numerator ≤ ((6 * 708 + 5 : Nat) : Int) :=
  Generator.generate_progression main.gen4 720 1 708 6 5 354 set vector
    (by decide) rfl (by decide) (by decide) (by decide) main.gen4_fits
    (by decide) (by decide) (by decide)
    (fun i => by
      simp only [main.gen4, Generator.ctor, Fraction.ctor, Fraction.toRat, basicPeriod]
      push_cast
      ring)
    (fun j hj => by
      have hj0 : j = 0 := by omega
      subst hj0
      norm_num [main.gen4, Generator.ctor, Fraction.ctor, Fraction.toRat, basicPeriod])
    (by decide) (by decide)

/-- The call of `generate` that `compute` makes for `gen5` of `main`: no
operation overflows, and it appends the 708 terms `(6 * i + 1) / 354`,
`i = 0, ..., 707`, each in lowest terms. -/
theorem main.gen5_run (set vector : List Fraction) :
    ∃ out : List Fraction,
      (main.gen5.assignInterval 0 12).generate 721 set vector
        = .ok (out.foldl (fun s x => setInsert x s) set, vector ++ out) ∧
      out.length = 708 ∧
      out.map Fraction.toRat
        = (List.range 708).map
            (fun i : Nat => ((6 * i + 1 : Nat) : ℚ) / ((354 : Nat) : ℚ)) ∧
      ∀ x ∈ out, 0 < x.denominator ∧ x.denominator ≤ ((354 : Nat) : Int) ∧
        0 ≤ x.numerator ∧ x.numerator ≤ ((6 * 708 + 1 : Nat) : Int) :=
  Generator.generate_progression main.gen5 720 0 708 6 1 354 set vector
    (by decide) rfl (by decide) (by decide) (by decide) main.gen5_fits
    (by decide) (by decide) (by decide)
    (fun i => by
      simp only [main.gen5, Generator.ctor, Fraction.ctor, Fraction.toRat, basicPeriod]
      push_cast
      ring)
    (fun j hj => absurd hj (Nat.not_lt_zero j))
    (by decide) (by decide)

/-! ## Coincidences among the expected terms -/

theorem progressionTerms_length (A B D L : Nat) : (progressionTerms A B D L).length = L := by
  unfold progressionTerms
  rw [List.length_map, List.length_range]

theorem progressionTerms_nodup (A B D L : Nat) (hA : 0 < A) (hD : 0 < D) :
    (progressionTerms A B D L).Nodup := by
  unfold progressionTerms
  apply List.Nodup.map _ (List.nodup_range L)
  intro i j hij
  have hDq : ((D : Nat) : ℚ) ≠ 0 := by exact_mod_cast (Nat.pos_iff_ne_zero.mp hD)
  have h1 : ((A * i + B : Nat) : ℚ) = ((A * j + B : Nat) : ℚ) := by
    have := congrArg (fun t : ℚ => t * ((D : Nat) : ℚ)) hij
    simpa [div_mul_cancel₀ _ hDq] using this
  have h2 : A * i + B = A * j + B := by exact_mod_cast h1
  exact Nat.eq_of_mul_eq_mul_left hA (by omega)

theorem progressionTerms_count_le (A B D L : Nat) (hA : 0 < A) (hD : 0 < D) (q : ℚ) :
    (progressionTerms A B D L).count q ≤ 1 :=
  List.nodup_iff_count_le_one.mp (progressionTerms_nodup A B D L hA hD) q

theorem progressionTerms_mem (A B D L : Nat) (q : ℚ)
    (h : 0 < (progressionTerms A B D L).count q) :
    ∃ i : Nat, i < L ∧ q = ((A * i + B : Nat) : ℚ) / ((D : Nat) : ℚ) := by
  rw [List.count_pos_iff] at h
  unfold progressionTerms at h
  obtain ⟨i, hi, hq⟩ := List.mem_map.mp h
  exact ⟨i, List.mem_range.mp hi, hq.symm⟩

theorem progressionTerms_count_of (A B D L : Nat) (hA : 0 < A) (hD : 0 < D) (i : Nat)
    (hi : i < L) :
    (progressionTerms A B D L).count (((A * i + B : Nat) : ℚ) / ((D : Nat) : ℚ)) = 1 := by
  apply List.count_eq_one_of_mem (progressionTerms_nodup A B D L hA hD)
  unfold progressionTerms
  exact List.mem_map.mpr ⟨i, List.mem_range.mpr hi, rfl⟩

/-- A value common to two progressions: the indices solve the cross-multiplied
equation. -/
theorem progressionTerms_common (A1 B1 D1 L1 A2 B2 D2 L2 : Nat) (hD1 : 0 < D1) (hD2 : 0 < D2)
    (q : ℚ) (h1 : 0 < (progressionTerms A1 B1 D1 L1).count q)
    (h2 : 0 < (progressionTerms A2 B2 D2 L2).count q) :
    ∃ a b : Nat, a < L1 ∧ b < L2 ∧ (A1 * a + B1) * D2 = (A2 * b + B2) * D1 ∧
      q = ((A1 * a + B1 : Nat) : ℚ) / ((D1 : Nat) : ℚ) := by
  obtain ⟨a, ha, hqa⟩ := progressionTerms_mem A1 B1 D1 L1 q h1
  obtain ⟨b, hb, hqb⟩ := progressionTerms_mem A2 B2 D2 L2 q h2
  refine ⟨a, b, ha, hb, ?_, hqa⟩
  have hD1q : ((D1 : Nat) : ℚ) ≠ 0 := by exact_mod_cast (Nat.pos_iff_ne_zero.mp hD1)
  have hD2q : ((D2 : Nat) : ℚ) ≠ 0 := by exact_mod_cast (Nat.pos_iff_ne_zero.mp hD2)
  have h := hqa.symm.trans hqb
  rw [div_eq_div_iff hD1q hD2q] at h
  exact_mod_cast h

theorem main.expectedTerms_length : main.expectedTerms.length = 2876 := by
  unfold main.expectedTerms
  simp only [List.length_append, progressionTerms_length]

/-- Among the expected terms of `main` a value occurs at most twice, and the
values occurring twice are `2` and `10`. -/
theorem main.expectedTerms_count (q : ℚ) :
    main.expectedTerms.count q ≤ 2 ∧ (main.expectedTerms.count q = 2 ↔ q = 2 ∨ q = 10) := by
  unfold main.expectedTerms
  simp only [List.count_append]
  have b0 := progressionTerms_count_le 12 10 11 11 (by decide) (by decide) q
  have b1 := progressionTerms_count_le 12 2 11 11 (by decide) (by decide) q
  have b2 := progressionTerms_count_le 12 10 719 719 (by decide) (by decide) q
  have b3 := progressionTerms_count_le 12 2 719 719 (by decide) (by decide) q
  have b4 := progressionTerms_count_le 6 5 354 708 (by decide) (by decide) q
  have b5 := progressionTerms_count_le 6 1 354 708 (by decide) (by decide) q
  have p01 : (progressionTerms 12 10 11 11).count q + (progressionTerms 12 2 11 11).count q ≤ 1 := by
    by_contra h
    obtain ⟨a, b, ha, hb, he, -⟩ := progressionTerms_common 12 10 11 11 12 2 11 11
      (by decide) (by decide) q (by omega) (by omega)
    omega
  have p02 : (progressionTerms 12 10 11 11).count q + (progressionTerms 12 10 719 719).count q ≤ 1 ∨ q = 2 := by
    by_cases h : (progressionTerms 12 10 11 11).count q + (progressionTerms 12 10 719 719).count q ≤ 1
    · exact Or.inl h
    · obtain ⟨a, b, ha, hb, he, hq⟩ := progressionTerms_common 12 10 11 11 12 10 719 719
        (by decide) (by decide) q (by omega) (by omega)
      have ha1 : a = 1 := by omega
      subst ha1
      right
      rw [hq]
      norm_num
  have p03 : (progressionTerms 12 10 11 11).count q + (progressionTerms 12 2 719 719).count q ≤ 1 := by
    by_contra h
    obtain ⟨a, b, ha, hb, he, -⟩ := progressionTerms_common 12 10 11 11 12 2 719 719
      (by decide) (by decide) q (by omega) (by omega)
    omega
  have p04 : (progressionTerms 12 10 11 11).count q + (progressionTerms 6 5 354 708).count q ≤ 1 := by
    by_contra h
    obtain ⟨a, b, ha, hb, he, -⟩ := progressionTerms_common 12 10 11 11 6 5 354 708
      (by decide) (by decide) q (by omega) (by omega)
    omega
  have p05 : (progressionTerms 12 10 11 11).count q + (progressionTerms 6 1 354 708).count q ≤ 1 := by
    by_contra h
    obtain ⟨a, b, ha, hb, he, -⟩ := progressionTerms_common 12 10 11 11 6 1 354 708
      (by decide) (by decide) q (by omega) (by omega)
    omega
  have p12 : (progressionTerms 12 2 11 11).count q + (progressionTerms 12 10 719 719).count q ≤ 1 := by
    by_contra h
    obtain ⟨a, b, ha, hb, he, -⟩ := progressionTerms_common 12 2 11 11 12 10 719 719
      (by decide) (by decide) q (by omega) (by omega)
    omega
  have p13 : (progressionTerms 12 2 11 11).count q + (progressionTerms 12 2 719 719).count q ≤ 1 ∨ q = 10 := by
    by_cases h : (progressionTerms 12 2 11 11).count q + (progressionTerms 12 2 719 719).count q ≤ 1
    · exact Or.inl h
    · obtain ⟨a, b, ha, hb, he, hq⟩ := progressionTerms_common 12 2 11 11 12 2 719 719
        (by decide) (by decide) q (by omega) (by omega)
      have ha1 : a = 9 := by omega
      subst ha1
      right
      rw [hq]
      norm_num
  have p14 : (progressionTerms 12 2 11 11).count q + (progressionTerms 6 5 354 708).count q ≤ 1 := by
    by_contra h
    obtain ⟨a, b, ha, hb, he, -⟩ := progressionTerms_common 12 2 11 11 6 5 354 708
      (by decide) (by decide) q (by omega) (by omega)
    omega
  have p15 : (progressionTerms 12 2 11 11).count q + (progressionTerms 6 1 354 708).count q ≤ 1 := by
    by_contra h
    obtain ⟨a, b, ha, hb, he, -⟩ := progressionTerms_common 12 2 11 11 6 1 354 708
      (by decide) (by decide) q (by omega) (by omega)
    omega
  have p23 : (progressionTerms 12 10 719 719).count q + (progressionTerms 12 2 719 719).count q ≤ 1 := by
    by_contra h
    obtain ⟨a, b, ha, hb, he, -⟩ := progressionTerms_common 12 10 719 719 12 2 719 719
      (by decide) (by decide) q (by omega) (by omega)
    omega
  have p24 : (progressionTerms 12 10 719 719).count q + (progressionTerms 6 5 354 708).count q ≤ 1 := by
    by_contra h
    obtain ⟨a, b, ha, hb, he, -⟩ := progressionTerms_common 12 10 719 719 6 5 354 708
      (by decide) (by decide) q (by omega) (by omega)
    omega
  have p25 : (progressionTerms 12 10 719 719).count q + (progressionTerms 6 1 354 708).count q ≤ 1 := by
    by_contra h
    obtain ⟨a, b, ha, hb, he, -⟩ := progressionTerms_common 12 10 719 719 6 1 354 708
      (by decide) (by decide) q (by omega) (by omega)
    omega
  have p34 : (progressionTerms 12 2 719 719).count q + (progressionTerms 6 5 354 708).count q ≤ 1 := by
    by_contra h
    obtain ⟨a, b, ha, hb, he, -⟩ := progressionTerms_common 12 2 719 719 6 5 354 708
      (by decide) (by decide) q (by omega) (by omega)
    omega
  have p35 : (progressionTerms 12 2 719 719).count q + (progressionTerms 6 1 354 708).count q ≤ 1 := by
    by_contra h
    obtain ⟨a, b, ha, hb, he, -⟩ := progressionTerms_common 12 2 719 719 6 1 354 708
      (by decide) (by decide) q (by omega) (by omega)
    omega
  have p45 : (progressionTerms 6 5 354 708).count q + (progressionTerms 6 1 354 708).count q ≤ 1 := by
    by_contra h
    obtain ⟨a, b, ha, hb, he, -⟩ := progressionTerms_common 6 5 354 708 6 1 354 708
      (by decide) (by decide) q (by omega) (by omega)
    omega
  have h2 : q = 2 → (progressionTerms 12 10 11 11).count q = 1 ∧ (progressionTerms 12 10 719 719).count q = 1 := by
    intro hq
    have e0 := progressionTerms_count_of 12 10 11 11 (by decide) (by decide) 1 (by decide)
    have e2 := progressionTerms_count_of 12 10 719 719 (by decide) (by decide) 119 (by decide)
    have v0 : (((12 * 1 + 10 : Nat) : ℚ) / ((11 : Nat) : ℚ)) = 2 := by norm_num
    have v2 : (((12 * 119 + 10 : Nat) : ℚ) / ((719 : Nat) : ℚ)) = 2 := by norm_num
    rw [v0] at e0
    rw [v2] at e2
    rw [hq]
    exact ⟨e0, e2⟩
  have h10 : q = 10 → (progressionTerms 12 2 11 11).count q = 1 ∧ (progressionTerms 12 2 719 719).count q = 1 := by
    intro hq
    have e1 := progressionTerms_count_of 12 2 11 11 (by decide) (by decide) 9 (by decide)
    have e3 := progressionTerms_count_of 12 2 719 719 (by decide) (by decide) 599 (by decide)
    have v1 : (((12 * 9 + 2 : Nat) : ℚ) / ((11 : Nat) : ℚ)) = 10 := by norm_num
    have v3 : (((12 * 599 + 2 : Nat) : ℚ) / ((719 : Nat) : ℚ)) = 10 := by norm_num
    rw [v1] at e1
    rw [v3] at e3
    rw [hq]
    exact ⟨e1, e3⟩
  rcases p02 with p02 | e2
  · rcases p13 with p13 | e10
    · refine ⟨by omega, ⟨fun h => by omega, fun h => ?_⟩⟩
      rcases h with h | h
      · have := h2 h
        omega
      · have := h10 h
        omega
    · have := h10 e10
      exact ⟨by omega, ⟨fun _ => Or.inr e10, fun _ => by omega⟩⟩
  · have := h2 e2
    rcases p13 with p13 | e10
    · exact ⟨by omega, ⟨fun _ => Or.inl e2, fun _ => by omega⟩⟩
    · rw [e2] at e10
      norm_num at e10

/-- A list of values in which no value occurs more than twice and exactly the
values `2` and `10` occur twice holds two distinct values fewer than it has
elements. -/
theorem card_of_two_coincidences (l : List ℚ)
    (hl : ∀ q : ℚ, l.count q ≤ 2 ∧ (l.count q = 2 ↔ q = 2 ∨ q = 10)) :
    l.toFinset.card + 2 = l.length := by
  have hsum := List.sum_toFinset_count_eq_length l
  have hcount : ∀ a ∈ l.toFinset, l.count a = 1 + if a = 2 ∨ a = 10 then 1 else 0 := by
    intro a ha
    rw [List.mem_toFinset, ← List.count_pos_iff] at ha
    obtain ⟨h1, h2⟩ := hl a
    by_cases h : a = 2 ∨ a = 10
    · rw [if_pos h]
      exact h2.mpr h
    · rw [if_neg h]
      have : l.count a ≠ 2 := fun e => h (h2.mp e)
      omega
  rw [Finset.sum_congr rfl hcount, Finset.sum_add_distrib, Finset.sum_const,
    Finset.sum_boole, smul_eq_mul, Nat.mul_one] at hsum
  have hfilter : l.toFinset.filter (fun a => a = 2 ∨ a = 10) = {2, 10} := by
    ext a
    simp only [Finset.mem_filter, List.mem_toFinset, Finset.mem_insert, Finset.mem_singleton]
    constructor
    · rintro ⟨-, h⟩
      exact h
    · intro h
      refine ⟨?_, h⟩
      rw [← List.count_pos_iff]
      have := (hl a).2.mpr h
      omega
  rw [hfilter, Finset.card_pair (by norm_num)] at hsum
  simp only [Nat.cast_id] at hsum
  omega

/-! ## The aggregate of `main` -/

/-- Two fractions with numerators in `[0, 8638]` and denominators in
`[1, 719]` compare without overflow. -/
theorem Fraction.cmpFits_of_bounds (a b : Fraction)
    (ha : 0 < a.denominator ∧ a.denominator ≤ 719 ∧ 0 ≤ a.numerator ∧ a.numerator ≤ 8638)
    (hb : 0 < b.denominator ∧ b.denominator ≤ 719 ∧ 0 ≤ b.numerator ∧ b.numerator ≤ 8638) :
    a.cmpFits b := by
  obtain ⟨a1, a2, a3, a4⟩ := ha
  obtain ⟨b1, b2, b3, b4⟩ := hb
  have h1 : 0 ≤ a.numerator * b.denominator := mul_nonneg a3 (le_of_lt b1)
  have h2 : a.numerator * b.denominator ≤ 8638 * 719 :=
    mul_le_mul a4 b2 (le_of_lt b1) (by norm_num)
  have h3 : 0 ≤ a.denominator * b.numerator := mul_nonneg (le_of_lt a1) b3
  have h4 : a.denominator * b.numerator ≤ 719 * 8638 :=
    mul_le_mul a2 b4 b3 (by norm_num)
  unfold Fraction.cmpFits Fraction.crossFits fits32
  refine ⟨⟨⟨?_, ?_⟩, ⟨?_, ?_⟩⟩, ⟨?_, ?_⟩⟩ <;> omega

/-- One step of the loop of `compute`: a generator whose `generate` returns,
followed by the rest of the loop. -/
theorem Result.computeLoop_step {fuel : Nat} {g : Generator} {rest : List Generator}
    {set vector : List Fraction} {sv : List Fraction × List Fraction}
    {out : List Generator × List Fraction × List Fraction}
    (h1 : (g.assignInterval 0 12).generate fuel set vector = .ok sv)
    (h2 : Result.computeLoop fuel rest sv.1 sv.2 = .ok out) :
    Result.computeLoop fuel (g :: rest) set vector
      = .ok (g.assignInterval 0 12 :: out.1, out.2.1, out.2.2) := by
  rw [Result.computeLoop_cons, h1]
  simp only [Except.bind]
  rw [h2]

theorem Result.computeLoop_nil (fuel : Nat) (set vector : List Fraction) :
    Result.computeLoop fuel [] set vector = .ok ([], set, vector) := by
  rw [Result.computeLoop]

theorem Result.compute_of_loop {r : Result} {fuel : Nat}
    {out : List Generator × List Fraction × List Fraction}
    (h : Result.computeLoop fuel r.m_generators r.m_times r.m_controlTimes = .ok out) :
    r.compute fuel
      = .ok { r with m_generators := out.1, m_times := out.2.1, m_controlTimes := out.2.2 } := by
  unfold Result.compute
  rw [h]
  rfl

/-- Claim C19: for the six generators of `main`, `compute` returns; no
`int32_t` operation of the six calls of `generate` overflows and the
comparisons among the appended terms are exact; the generators append 11, 11,
719, 719, 708 and 708 terms, 2876 in all (`m_controlTimes.size()`);
`getResult()` is 2874; no value is appended more than twice, and the values
appended twice are `2/1` and `10/1`. -/
theorem main.compute_counts :
    ∃ r : Result, main.result.compute 721 = .ok r ∧
      ((main.gen0.assignInterval 0 12).generateFits 721 = true ∧
        (main.gen1.assignInterval 0 12).generateFits 721 = true ∧
        (main.gen2.assignInterval 0 12).generateFits 721 = true ∧
        (main.gen3.assignInterval 0 12).generateFits 721 = true ∧
        (main.gen4.assignInterval 0 12).generateFits 721 = true ∧
        (main.gen5.assignInterval 0 12).generateFits 721 = true) ∧
      Fraction.exactOn r.m_controlTimes ∧
      (∃ o0 o1 o2 o3 o4 o5 : List Fraction,
        r.m_controlTimes = o0 ++ (o1 ++ (o2 ++ (o3 ++ (o4 ++ o5)))) ∧
        o0.length = 11 ∧ o1.length = 11 ∧ o2.length = 719 ∧ o3.length = 719 ∧
        o4.length = 708 ∧ o5.length = 708) ∧
      r.m_controlTimes.map Fraction.toRat = main.expectedTerms ∧
      r.m_controlTimes.length = 2876 ∧
      r.getResult = 2874 ∧
      ∀ q : ℚ, (r.m_controlTimes.map Fraction.toRat).count q ≤ 2 ∧
        ((r.m_controlTimes.map Fraction.toRat).count q = 2 ↔ q = 2 ∨ q = 10) := by
  obtain ⟨o0, r0, l0, m0, bd0⟩ := main.gen0_run [] []
  obtain ⟨o1, r1, l1, m1, bd1⟩ :=
    main.gen1_run
      (o0.foldl (fun s x => setInsert x s) [])
      ([] ++ o0)
  obtain ⟨o2, r2, l2, m2, bd2⟩ :=
    main.gen2_run
      (o1.foldl (fun s x => setInsert x s) (o0.foldl (fun s x => setInsert x s) []))
      (([] ++ o0) ++ o1)
  obtain ⟨o3, r3, l3, m3, bd3⟩ :=
    main.gen3_run
      (o2.foldl (fun s x => setInsert x s) (o1.foldl (fun s x => setInsert x s)
      (o0.foldl (fun s x => setInsert x s) [])))
      ((([] ++ o0) ++ o1) ++ o2)
  obtain ⟨o4, r4, l4, m4, bd4⟩ :=
    main.gen4_run
      (o3.foldl (fun s x => setInsert x s) (o2.foldl (fun s x => setInsert x s)
      (o1.foldl (fun s x => setInsert x s) (o0.foldl (fun s x => setInsert x s) []))))
      (((([] ++ o0) ++ o1) ++ o2) ++ o3)
  obtain ⟨o5, r5, l5, m5, bd5⟩ :=
    main.gen5_run
      (o4.foldl (fun s x => setInsert x s) (o3.foldl (fun s x => setInsert x s)
      (o2.foldl (fun s x => setInsert x s) (o1.foldl (fun s x => setInsert x s)
      (o0.foldl (fun s x => setInsert x s) [])))))
      ((((([] ++ o0) ++ o1) ++ o2) ++ o3) ++ o4)
  have hloop := Result.computeLoop_step r0 (Result.computeLoop_step r1
    (Result.computeLoop_step r2 (Result.computeLoop_step r3 (Result.computeLoop_step r4
      (Result.computeLoop_step r5 (Result.computeLoop_nil 721 _ _))))))
  have hc := Result.compute_of_loop (r := main.result) hloop
  have hS := Result.compute_shape 0 basicPeriod
    [main.gen0, main.gen1, main.gen2, main.gen3, main.gen4, main.gen5] 721 _ hc
  refine ⟨_, hc, ⟨main.gen0_fits, main.gen1_fits, main.gen2_fits, main.gen3_fits,
    main.gen4_fits, main.gen5_fits⟩, ?_⟩
  generalize hr : ({ main.result with
      m_generators := _, m_times := _, m_controlTimes := _ } : Result) = r at hc hS ⊢
  have hV : r.m_controlTimes = o0 ++ (o1 ++ (o2 ++ (o3 ++ (o4 ++ o5)))) := by
    rw [← hr]
    show ((((([] ++ o0) ++ o1) ++ o2) ++ o3) ++ o4) ++ o5 = _
    simp only [List.nil_append, List.append_assoc]
  have hb : ∀ x ∈ r.m_controlTimes, 0 < x.denominator ∧ x.denominator ≤ 719 ∧
      0 ≤ x.numerator ∧ x.numerator ≤ 8638 := by
    intro x hx
    rw [hV] at hx
    simp only [List.mem_append] at hx
    rcases hx with h | h | h | h | h | h
    · have := bd0 x h
      omega
    · have := bd1 x h
      omega
    · have := bd2 x h
      omega
    · have := bd3 x h
      omega
    · have := bd4 x h
      omega
    · have := bd5 x h
      omega
  have hex : Fraction.exactOn r.m_controlTimes :=
    ⟨fun x hx => (hb x hx).1,
      fun a ha b hb' => Fraction.cmpFits_of_bounds a b (hb a ha) (hb b hb')⟩
  have hmap : r.m_controlTimes.map Fraction.toRat = main.expectedTerms := by
    rw [hV]
    simp only [List.map_append, m0, m1, m2, m3, m4, m5]
    rfl
  have hlen : r.m_controlTimes.length = 2876 := by
    rw [hV]
    simp only [List.length_append, l0, l1, l2, l3, l4, l5]
  have hcard := card_of_two_coincidences main.expectedTerms main.expectedTerms_count
  rw [main.expectedTerms_length] at hcard
  refine ⟨hex, ⟨o0, o1, o2, o3, o4, o5, hV, l0, l1, l2, l3, l4, l5⟩, hmap, hlen, ?_, ?_⟩
  · unfold Result.getResult
    rw [hS, foldl_setInsert_length _ hex, hmap]
    omega
  · intro q
    rw [hmap]
    exact main.expectedTerms_count q

/-! ## The validation check `testSet` -/

theorem doubleSetInsert_mem {D : Type} (lt : D → D → Bool) (x : D) (s : List D) :
    ∀ y ∈ doubleSetInsert lt x s, y = x ∨ y ∈ s := by
  induction s with
  | nil =>
    intro y hy
    rw [doubleSetInsert, List.mem_singleton] at hy
    exact Or.inl hy
  | cons z zs ih =>
    intro y hy
    rw [doubleSetInsert] at hy
    split at hy
    · rcases List.mem_cons.mp hy with h | h
      · exact Or.inl h
      · exact Or.inr h
    · split at hy
      · rcases List.mem_cons.mp hy with h | h
        · exact Or.inr (h ▸ List.mem_cons_self _ _)
        · rcases ih y h with h' | h'
          · exact Or.inl h'
          · exact Or.inr (List.mem_cons_of_mem _ h')
      · exact Or.inr hy

/-- Insertion into a set of doubles that is strictly ascending by value, when
`lt` is the order of the values on the doubles involved: the result is
strictly ascending and holds the old values and the inserted value. -/
theorem doubleSetInsert_sorted {D α : Type} [LinearOrder α] (lt : D → D → Bool)
    (val : D → α) (x : D) (s : List D)
    (hex : ∀ a ∈ x :: s, ∀ b ∈ x :: s, (lt a b = true ↔ val a < val b))
    (hs : s.Pairwise (fun a b => val a < val b)) :
    (doubleSetInsert lt x s).Pairwise (fun a b => val a < val b) ∧
    ∀ q : α, q ∈ (doubleSetInsert lt x s).map val ↔ q = val x ∨ q ∈ s.map val := by
  induction s with
  | nil =>
    constructor
    · rw [doubleSetInsert]
      exact List.pairwise_singleton _ _
    · intro q
      rw [doubleSetInsert]
      simp only [List.map_cons, List.map_nil, List.mem_singleton, List.not_mem_nil, or_false]
  | cons y ys ih =>
    have hx : x ∈ x :: y :: ys := List.mem_cons_self _ _
    have hy : y ∈ x :: y :: ys := List.mem_cons_of_mem _ (List.mem_cons_self _ _)
    have hys : ys.Pairwise (fun a b => val a < val b) := (List.pairwise_cons.mp hs).2
    have hyall : ∀ z ∈ ys, val y < val z := (List.pairwise_cons.mp hs).1
    have hsub : ∀ z ∈ x :: ys, z ∈ x :: y :: ys := fun z hz => by
      rcases List.mem_cons.mp hz with h | h
      · exact h ▸ hx
      · exact List.mem_cons_of_mem _ (List.mem_cons_of_mem _ h)
    obtain ⟨ih1, ih2⟩ := ih (fun a ha b hb => hex a (hsub a ha) b (hsub b hb)) hys
    rw [doubleSetInsert]
    by_cases h1 : lt x y = true
    · rw [if_pos h1]
      have hxy := (hex x hx y hy).mp h1
      constructor
      · refine List.pairwise_cons.mpr ⟨?_, hs⟩
        intro z hz
        rcases List.mem_cons.mp hz with h | h
        · rw [h]
          exact hxy
        · exact lt_trans hxy (hyall z h)
      · intro q
        simp only [List.map_cons, List.mem_cons]
    · rw [if_neg h1]
      have hnxy := (hex x hx y hy).not.mp h1
      by_cases h2 : lt y x = true
      · rw [if_pos h2]
        have hyx := (hex y hy x hx).mp h2
        constructor
        · refine List.pairwise_cons.mpr ⟨?_, ih1⟩
          intro z hz
          rcases doubleSetInsert_mem lt x ys z hz with h | h
          · rw [h]
            exact hyx
          · exact hyall z h
        · intro q
          simp only [List.map_cons, List.mem_cons, ih2 q]
          constructor
          · rintro (h | h | h)
            · exact Or.inr (Or.inl h)
            · exact Or.inl h
            · exact Or.inr (Or.inr h)
          · rintro (h | h | h)
            · exact Or.inr (Or.inl h)
            · exact Or.inl h
            · exact Or.inr (Or.inr h)
      · rw [if_neg h2]
        have hnyx := (hex y hy x hx).not.mp h2
        have heq : val x = val y := le_antisymm (not_lt.mp hnyx) (not_lt.mp hnxy)
        refine ⟨hs, ?_⟩
        intro q
        simp only [List.map_cons, List.mem_cons, heq]
        constructor
        · intro h
          exact Or.inr h
        · rintro (h | h)
          · exact Or.inl h
          · exact h

/-- Inserting a list of doubles into a strictly ascending set, when `lt` is
the order of the values on all doubles involved: the result is strictly
ascending and its values are the old values and the inserted values. -/
theorem foldl_doubleSetInsert_sorted {D α : Type} [LinearOrder α] (lt : D → D → Bool)
    (val : D → α) (out : List D) :
    ∀ s : List D, (∀ a ∈ s ++ out, ∀ b ∈ s ++ out, (lt a b = true ↔ val a < val b)) →
      s.Pairwise (fun a b => val a < val b) →
      (out.foldl (fun s x => doubleSetInsert lt x s) s).Pairwise (fun a b => val a < val b) ∧
      ∀ q : α, q ∈ (out.foldl (fun s x => doubleSetInsert lt x s) s).map val
        ↔ q ∈ s.map val ∨ q ∈ out.map val := by
  induction out with
  | nil =>
    intro s _ hs
    refine ⟨hs, fun q => ?_⟩
    simp only [List.foldl_nil, List.map_nil, List.not_mem_nil, or_false]
  | cons x xs ih =>
    intro s hex hs
    have hsub1 : ∀ z ∈ x :: s, z ∈ s ++ x :: xs := fun z hz => by
      rcases List.mem_cons.mp hz with h | h
      · exact h ▸ List.mem_append_right _ (List.mem_cons_self _ _)
      · exact List.mem_append_left _ h
    obtain ⟨h1, h2⟩ := doubleSetInsert_sorted lt val x s
      (fun a ha b hb => hex a (hsub1 a ha) b (hsub1 b hb)) hs
    have hsub2 : ∀ z ∈ doubleSetInsert lt x s ++ xs, z ∈ s ++ x :: xs := fun z hz => by
      rcases List.mem_append.mp hz with h | h
      · rcases doubleSetInsert_mem lt x s z h with h' | h'
        · exact h' ▸ List.mem_append_right _ (List.mem_cons_self _ _)
        · exact List.mem_append_left _ h'
      · exact List.mem_append_right _ (List.mem_cons_of_mem _ h)
    obtain ⟨h3, h4⟩ := ih (doubleSetInsert lt x s)
      (fun a ha b hb => hex a (hsub2 a ha) b (hsub2 b hb)) h1
    rw [List.foldl_cons]
    refine ⟨h3, fun q => ?_⟩
    rw [h4 q, h2 q]
    simp only [List.map_cons, List.mem_cons]
    constructor
    · rintro ((h | h) | h)
      · exact Or.inr (Or.inl h)
      · exact Or.inl h
      · exact Or.inr (Or.inr h)
    · rintro (h | h | h)
      · exact Or.inl (Or.inr h)
      · exact Or.inl (Or.inl h)
      · exact Or.inr h

/-- The size of the set of doubles after inserting `out` into the empty set,
when `lt` is the order of the values on `out`, is the number of distinct
values among `out`. -/
theorem foldl_doubleSetInsert_length {D α : Type} [LinearOrder α] (lt : D → D → Bool)
    (val : D → α) (out : List D)
    (hex : ∀ a ∈ out, ∀ b ∈ out, (lt a b = true ↔ val a < val b)) :
    (out.foldl (fun s x => doubleSetInsert lt x s) []).length
      = (out.map val).toFinset.card := by
  obtain ⟨h1, h2⟩ := foldl_doubleSetInsert_sorted lt val out []
    (by rw [List.nil_append]; exact hex) List.Pairwise.nil
  have hnd : ((out.foldl (fun s x => doubleSetInsert lt x s) []).map val).Nodup := by
    rw [List.Nodup, List.pairwise_map]
    exact h1.imp (fun h => ne_of_lt h)
  have hfin : ((out.foldl (fun s x => doubleSetInsert lt x s) []).map val).toFinset
      = (out.map val).toFinset := by
    ext q
    rw [List.mem_toFinset, List.mem_toFinset, h2 q]
    simp only [List.map_nil, List.not_mem_nil, false_or]
  rw [← hfin, List.toFinset_card_of_nodup hnd, List.length_map]

/-- Claim C17: `testSet` converts every element of `m_controlTimes` to the
`double` `(double)numerator / (double)denominator`, and, when `operator<` on
the converted doubles is the order of their values (as it is for doubles other
than NaN), it answers `true` iff the number of distinct values among them is
`m_times.size()`; the object is the same after the call. -/
theorem Result.testSet_spec {D α : Type} [LinearOrder α] (conv : Int → D) (div : D → D → D)
    (lt : D → D → Bool) (val : D → α) (r : Result)
    (hlt : ∀ a ∈ r.m_controlTimes, ∀ b ∈ r.m_controlTimes,
      (lt (a.getAsDouble conv div) (b.getAsDouble conv div) = true
        ↔ val (a.getAsDouble conv div) < val (b.getAsDouble conv div))) :
    (r.testSet conv div lt).2 = r ∧
    ((r.testSet conv div lt).1 = true ↔
      (r.m_controlTimes.map
          (fun x => val (div (conv x.numerator) (conv x.denominator)))).toFinset.card
        = r.m_times.length) := by
  refine ⟨rfl, ?_⟩
  have hfold : r.m_controlTimes.foldl
        (fun s iter => doubleSetInsert lt (iter.getAsDouble conv div) s) []
      = (r.m_controlTimes.map (fun x => x.getAsDouble conv div)).foldl
          (fun s x => doubleSetInsert lt x s) [] := by
    rw [List.foldl_map]
  have hex : ∀ a ∈ r.m_controlTimes.map (fun x => x.getAsDouble conv div),
      ∀ b ∈ r.m_controlTimes.map (fun x => x.getAsDouble conv div),
      (lt a b = true ↔ val a < val b) := by
    intro a ha b hb
    obtain ⟨a', ha', rfl⟩ := List.mem_map.mp ha
    obtain ⟨b', hb', rfl⟩ := List.mem_map.mp hb
    exact hlt a' ha' b' hb'
  have hlen := foldl_doubleSetInsert_length lt val _ hex
  rw [List.map_map] at hlen
  show decide ((r.m_controlTimes.foldl
      (fun s iter => doubleSetInsert lt (iter.getAsDouble conv div) s) []).length
        = r.m_times.length) = true ↔ _
  rw [decide_eq_true_iff, hfold, hlen]
  rfl

/-- Witness for claim C17, with the rationals standing for the doubles: the
content `[1/2, 2/4, 1/3]` against a set of two elements. -/
theorem Result.testSet_spec_witness :
    ((Result.mk [] [⟨1, 3, true⟩, ⟨1, 2, true⟩] 0 12
        [⟨1, 2, true⟩, ⟨2, 4, false⟩, ⟨1, 3, true⟩]).testSet
        (fun n : Int => (n : ℚ)) (fun a b : ℚ => a / b) (fun a b : ℚ => decide (a < b))).2
      = Result.mk [] [⟨1, 3, true⟩, ⟨1, 2, true⟩] 0 12
        [⟨1, 2, true⟩, ⟨2, 4, false⟩, ⟨1, 3, true⟩] ∧
    (((Result.mk [] [⟨1, 3, true⟩, ⟨1, 2, true⟩] 0 12
        [⟨1, 2, true⟩, ⟨2, 4, false⟩, ⟨1, 3, true⟩]).testSet
        (fun n : Int => (n : ℚ)) (fun a b : ℚ => a / b) (fun a b : ℚ => decide (a < b))).1
      = true ↔
      ((Result.mk [] [⟨1, 3, true⟩, ⟨1, 2, true⟩] 0 12
          [⟨1, 2, true⟩, ⟨2, 4, false⟩, ⟨1, 3, true⟩]).m_controlTimes.map
          (fun x => (fun q : ℚ => q)
            ((fun a b : ℚ => a / b) ((fun n : Int => (n : ℚ)) x.numerator)
              ((fun n : Int => (n : ℚ)) x.denominator)))).toFinset.card
        = (Result.mk [] [⟨1, 3, true⟩, ⟨1, 2, true⟩] 0 12
          [⟨1, 2, true⟩, ⟨2, 4, false⟩, ⟨1, 3, true⟩]).m_times.length) :=
  Result.testSet_spec (fun n : Int => (n : ℚ)) (fun a b : ℚ => a / b)
    (fun a b : ℚ => decide (a < b)) (fun q : ℚ => q)
    (Result.mk [] [⟨1, 3, true⟩, ⟨1, 2, true⟩] 0 12
      [⟨1, 2, true⟩, ⟨2, 4, false⟩, ⟨1, 3, true⟩])
    (fun _ _ _ _ => decide_eq_true_iff)
